import Mathlib

/-!
# Streaming transfer and replication layer: admin Extract/Restore and pfs V2 file transport

Shallow embedding of `src/server/admin/server/api_server.go` and
`src/server/pfs/server/api_server_v2.go`.

Conventions of the embedding
* Go slices are Lean lists; a byte is a `Fin 256`.
* A Go `map[string]*pfs.CommitInfo` is an association list with unique keys.
* Loops whose termination is not structural carry a fuel argument and return `none`
  when the fuel runs out; termination is then a theorem (enough fuel gives `some`).
* A streaming channel is an explicit state: the messages still to be received, the
  error the channel reports once they are exhausted, and the messages sent so far.
-/

namespace pfs

/-- Go `pfs.Commit`: repository name and commit ID. -/
structure Commit where
  Repo : String
  ID : String
deriving DecidableEq, Repr

/-- Go `pfs.CommitInfo`, restricted to the fields the admin server reads. -/
structure CommitInfo where
  Commit : pfs.Commit
  ParentCommit : Option pfs.Commit
  Tree : Option String
deriving DecidableEq, Repr

end pfs

namespace admin

/-! ## sortCommitInfos -/

/-- Go `map[string]*pfs.CommitInfo`. -/
abbrev CommitMap := List (String × pfs.CommitInfo)

/-- Go `commitMap[k]`: `none` stands for the nil pointer of an absent key. -/
def mapGet (m : CommitMap) (k : String) : Option pfs.CommitInfo :=
  m.lookup k

/-- Go `delete(commitMap, k)`. -/
def mapDelete (m : CommitMap) (k : String) : CommitMap :=
  m.filter (fun e => e.1 != k)

/-- Go `commitMap[k] = v`: a later assignment replaces an earlier one. -/
def mapSet (m : CommitMap) (k : String) (v : pfs.CommitInfo) : CommitMap :=
  m.filter (fun e => e.1 != k) ++ [(k, v)]

/-- First loop of `sortCommitInfos`: `commitMap[ci.Commit.ID] = ci` for every `ci`. -/
def buildMap (cis : List pfs.CommitInfo) : CommitMap :=
  cis.foldl (fun m ci => mapSet m ci.Commit.ID ci) []

/-- Inner loop `for ci != nil` of `sortCommitInfos`, on the state
(`commitMap`, `ci`, `localResult`); `none` when the fuel runs out. -/
def walk : Nat → CommitMap → Option pfs.CommitInfo → List pfs.CommitInfo →
    Option (List pfs.CommitInfo × CommitMap)
  | _, m, none, localResult => some (localResult, m)
  | 0, _, some _, _ => none
  | fuel + 1, m, some ci, localResult =>
    let m1 := mapDelete m ci.Commit.ID
    let next := match ci.ParentCommit with
      | some p => mapGet m1 p.ID
      | none => none
    walk fuel m1 next (localResult ++ [ci])

/-- Second loop of `sortCommitInfos` on the state (`commitMap`, `result`): a commit
that is no longer in the map is skipped, otherwise its chain is walked and appended
in reverse. -/
def sortLoop (fuel : Nat) : List pfs.CommitInfo → CommitMap → List pfs.CommitInfo →
    Option (List pfs.CommitInfo)
  | [], _, result => some result
  | ci :: rest, m, result =>
    match mapGet m ci.Commit.ID with
    | none => sortLoop fuel rest m result
    | some _ =>
      match walk fuel m (some ci) [] with
      | none => none
      | some (localResult, m1) => sortLoop fuel rest m1 (result ++ localResult.reverse)

/-- The function `sortCommitInfos` with an explicit bound on the length of each walk. -/
def sortCommitInfosFuel (fuel : Nat) (cis : List pfs.CommitInfo) :
    Option (List pfs.CommitInfo) :=
  sortLoop fuel cis (buildMap cis) []

/-- The function `sortCommitInfos`: no walk is longer than the number of commits
(`sortCommitInfosFuel_total`), so this is the value the Go function returns. -/
def sortCommitInfos (cis : List pfs.CommitInfo) : List pfs.CommitInfo :=
  (sortCommitInfosFuel cis.length cis).getD []

/-- The second loop of `sortCommitInfos` with a ghost variable: the reversed
`localResult` of every walk, in the order the walks are made. -/
def sortLoopChains (fuel : Nat) : List pfs.CommitInfo → CommitMap →
    List (List pfs.CommitInfo) → Option (List (List pfs.CommitInfo))
  | [], _, chains => some chains
  | ci :: rest, m, chains =>
    match mapGet m ci.Commit.ID with
    | none => sortLoopChains fuel rest m chains
    | some _ =>
      match walk fuel m (some ci) [] with
      | none => none
      | some (localResult, m1) => sortLoopChains fuel rest m1 (chains ++ [localResult.reverse])

/-- The chains `sortCommitInfos` appends to its result, one per walk. -/
def sortCommitChains (fuel : Nat) (cis : List pfs.CommitInfo) :
    Option (List (List pfs.CommitInfo)) :=
  sortLoopChains fuel cis (buildMap cis) []

/-- The commit `p` is the parent of the commit `c`, both in `cis`: the parent ID of `c`
is the ID of `p`. -/
def ParentLink (cis : List pfs.CommitInfo) (c p : pfs.CommitInfo) : Prop :=
  c ∈ cis ∧ p ∈ cis ∧ ∃ pc, c.ParentCommit = some pc ∧ pc.ID = p.Commit.ID

/-- The parent links of `cis` are acyclic: no commit is its own ancestor. -/
def Acyclic (cis : List pfs.CommitInfo) : Prop :=
  ∀ c, ¬ Relation.TransGen (ParentLink cis) c c

/-- The commit IDs of `cis` are pairwise distinct. -/
def DistinctIDs (cis : List pfs.CommitInfo) : Prop :=
  (cis.map (fun c => c.Commit.ID)).Nodup

/-- The map that holds exactly the commits of `L`, each under its own ID. -/
def ofList (L : List pfs.CommitInfo) : CommitMap :=
  L.map (fun c => (c.Commit.ID, c))

/-- The parent ID of `a` is the ID of `b`. -/
def Link (a b : pfs.CommitInfo) : Prop :=
  ∃ pc, a.ParentCommit = some pc ∧ pc.ID = b.Commit.ID

/-- Every commit of the list has each of its parents in `cis` among `pre` or strictly
before it in the list. -/
def ParentsFirst (cis : List pfs.CommitInfo) :
    List pfs.CommitInfo → List pfs.CommitInfo → Prop
  | _, [] => True
  | pre, c :: t => (∀ p, ParentLink cis c p → p ∈ pre) ∧ ParentsFirst cis (pre ++ [c]) t

/-! ## Example repositories -/

/-- A commit of repository `r` with the given ID and parent ID. -/
def mkCommit (i : String) (p : Option String) : pfs.CommitInfo :=
  ⟨⟨"r", i⟩, p.map (fun x => ⟨"r", x⟩), none⟩

/-- A chain a ← b ← c, listed child first. -/
def exChain : List pfs.CommitInfo :=
  [mkCommit "c" (some "b"), mkCommit "a" none, mkCommit "b" (some "a")]

/-- A root `a` and a commit `d` whose parent `z` is not listed. -/
def exDangling : List pfs.CommitInfo :=
  [mkCommit "d" (some "z"), mkCommit "a" none]

end admin

/-! ## Bytes, errors and wire messages -/

/-- A byte of a Go `[]byte`. -/
abbrev Byte := Fin 256

/-- Go `error` values: `io.EOF`, which the code compares by identity, and errors known by
their message. -/
inductive GoError where
  | EOF
  | msg (s : String)
deriving DecidableEq, Repr

/-- Go `err.Error()`. -/
def GoError.Error : GoError → String
  | GoError.EOF => "EOF"
  | GoError.msg s => s

/-- Go `fmt.Errorf(pre + "%v", err)`. -/
def Errorf (pre : String) (err : GoError) : GoError :=
  GoError.msg (pre ++ err.Error)

namespace pfs

/-- Go `pfs.PutObjectRequest`: one chunk of an object. -/
structure PutObjectRequest where
  Value : List Byte := []
deriving DecidableEq, Repr

/-- Go `pfs.ListTagsResponse`: a tag and the hash of the object it names. -/
structure ListTagsResponse where
  Tag : String
  Object : String
deriving DecidableEq, Repr

/-- Go `pfs.TagObjectRequest`. -/
structure TagObjectRequest where
  Object : String
  Tags : List String
deriving DecidableEq, Repr

/-- Go `pfs.RepoInfo`; a repository is known by its name. -/
structure RepoInfo where
  Repo : String
  Provenance : List String
  Description : String
deriving DecidableEq, Repr

/-- Go `pfs.CreateRepoRequest`. -/
structure CreateRepoRequest where
  Repo : String
  Provenance : List String
  Description : String
deriving DecidableEq, Repr

/-- Go `pfs.BuildCommitRequest`. -/
structure BuildCommitRequest where
  Parent : Option pfs.Commit
  Tree : Option String
  ID : String
deriving DecidableEq, Repr

/-- Go `pfs.Branch`. -/
structure Branch where
  Repo : String
  Name : String
deriving DecidableEq, Repr

/-- Go `pfs.BranchInfo`. -/
structure BranchInfo where
  Head : pfs.Commit
  Branch : Option pfs.Branch
deriving DecidableEq, Repr

/-- Go `pfs.CreateBranchRequest`; `Head` is dereferenced by `Restore` and is not nil. -/
structure CreateBranchRequest where
  Head : pfs.Commit
  SBranch : String := ""
  Branch : Option pfs.Branch
deriving DecidableEq, Repr

end pfs

namespace pps

/-- Go `pps.PipelineInfo`, the fields `Extract` copies; their values are not inspected. -/
structure PipelineInfo where
  Pipeline : String
  Transform : String := ""
  ParallelismSpec : String := ""
  Egress : String := ""
  OutputBranch : String := ""
  ScaleDownThreshold : String := ""
  ResourceRequests : String := ""
  ResourceLimits : String := ""
  Input : String := ""
  Description : String := ""
  Incremental : Bool := false
  CacheSize : String := ""
  EnableStats : Bool := false
  Batch : Bool := false
  MaxQueueSize : Nat := 0
  Service : String := ""
  ChunkSpec : String := ""
  DatumTimeout : String := ""
  JobTimeout : String := ""
  Salt : String := ""
deriving DecidableEq, Repr

/-- Go `pps.CreatePipelineRequest`, the fields `Extract` sets. -/
structure CreatePipelineRequest where
  Pipeline : String
  Transform : String := ""
  ParallelismSpec : String := ""
  Egress : String := ""
  OutputBranch : String := ""
  ScaleDownThreshold : String := ""
  ResourceRequests : String := ""
  ResourceLimits : String := ""
  Input : String := ""
  Description : String := ""
  Incremental : Bool := false
  CacheSize : String := ""
  EnableStats : Bool := false
  Batch : Bool := false
  MaxQueueSize : Nat := 0
  Service : String := ""
  ChunkSpec : String := ""
  DatumTimeout : String := ""
  JobTimeout : String := ""
  Salt : String := ""
deriving DecidableEq, Repr

end pps

namespace admin

/-- Go `admin.Op`: one optional field per kind of operation. -/
structure Op where
  Version : Option String := none
  Object : Option pfs.PutObjectRequest := none
  Tag : Option pfs.TagObjectRequest := none
  Repo : Option pfs.CreateRepoRequest := none
  Commit : Option pfs.BuildCommitRequest := none
  Branch : Option pfs.CreateBranchRequest := none
  Pipeline : Option pps.CreatePipelineRequest := none
deriving DecidableEq, Repr

/-- Go `admin.ExtractRequest`. -/
structure ExtractRequest where
  NoObjects : Bool := false
  NoRepos : Bool := false
  NoPipelines : Bool := false
deriving DecidableEq, Repr

/-- The op `&admin.Op{Object: &pfs.PutObjectRequest{Value: value}}`. -/
def objectOp (value : List Byte) : Op :=
  { Object := some { Value := value } }

/-! ## The outgoing stream of Extract -/

/-- Go `admin.API_ExtractServer`, the sending side: the ops sent so far, the number of
sends the transport still accepts (`none`: every send succeeds) and the error a refused
send returns. -/
structure ExtractServer where
  sent : List Op := []
  budget : Option Nat := none
  sendErr : GoError := GoError.msg "transport is closing"
deriving DecidableEq, Repr

/-- Go `extractServer.Send(op)`. -/
def ExtractServer.Send (s : ExtractServer) (op : Op) : Option GoError × ExtractServer :=
  match s.budget with
  | none => (none, { s with sent := s.sent ++ [op] })
  | some 0 => (some s.sendErr, s)
  | some (k + 1) => (none, { s with sent := s.sent ++ [op], budget := some k })

/-- The loop of `extractObjectWriter.Write` on the state (`i`, `n`, stream); `none` when
the fuel runs out. -/
def writeLoop (chunkSize : Nat) (p : List Byte) :
    Nat → Nat → Nat → ExtractServer → Option ((Nat × Option GoError) × ExtractServer)
  | 0, _, _, _ => none
  | fuel + 1, i, n, w =>
    if i * chunkSize < p.length then
      let value := p.drop (i * chunkSize)
      let value := if value.length > chunkSize then value.take chunkSize else value
      match w.Send (objectOp value) with
      | (some err, w1) => some ((n, some err), w1)
      | (none, w1) => writeLoop chunkSize p fuel (i + 1) (n + value.length) w1
    else
      some ((n, none), w)

/-- The method `extractObjectWriter.Write`; `MaxMsgSize` is the constant
`grpcutil.MaxMsgSize`. -/
def extractObjectWriter.Write (MaxMsgSize : Nat) (fuel : Nat) (p : List Byte)
    (w : ExtractServer) : Option ((Nat × Option GoError) × ExtractServer) :=
  writeLoop (MaxMsgSize / 2) p fuel 0 0 w

/-- The `i`-th chunk of `p`: the bytes from `i * chunkSize`, at most `chunkSize` of them. -/
def chunkAt (chunkSize : Nat) (p : List Byte) (i : Nat) : List Byte :=
  (p.drop (i * chunkSize)).take chunkSize

/-- The chunks of `p`, `ceil (len p / chunkSize)` of them, in order. -/
def chunkList (chunkSize : Nat) (p : List Byte) : List (List Byte) :=
  (List.range ((p.length + chunkSize - 1) / chunkSize)).map (chunkAt chunkSize p)

/-- Number of chunks sent when `k` remain and the transport accepts `budget` sends. -/
def sentCount (budget : Option Nat) (k : Nat) : Nat :=
  match budget with
  | none => k
  | some b => min b k

/-- The chunks `i, i+1, ..., i+k-1` of `p`. -/
def chunksFrom (cs : Nat) (p : List Byte) (i k : Nat) : List (List Byte) :=
  (List.range' i k).map (chunkAt cs p)

end admin

namespace admin

/-! ## The incoming stream of Restore -/

/-- What happens on the channel of a `Restore` call, in order. -/
inductive Event where
  | recv (op : Op)
  | recvErr (err : GoError)
  | sendAndClose
deriving DecidableEq, Repr

/-- Go `admin.API_RestoreServer`: the ops still to be received, the error `Recv` reports
once they are exhausted (`io.EOF` at a clean end of input), the result of `SendAndClose`,
and the events so far. -/
structure RestoreServer where
  pending : List Op := []
  recvErr : GoError := GoError.EOF
  closeErr : Option GoError := none
  log : List Event := []
deriving DecidableEq, Repr

/-- Go `restoreServer.Recv()`. -/
def RestoreServer.Recv (s : RestoreServer) : Except GoError Op × RestoreServer :=
  match s.pending with
  | [] => (Except.error s.recvErr, { s with log := s.log ++ [Event.recvErr s.recvErr] })
  | op :: rest => (Except.ok op, { s with pending := rest, log := s.log ++ [Event.recv op] })

/-- Go `restoreServer.SendAndClose(&types.Empty{})`. -/
def RestoreServer.SendAndClose (s : RestoreServer) : Option GoError × RestoreServer :=
  (s.closeErr, { s with log := s.log ++ [Event.sendAndClose] })

/-- Functions and constants of other packages that the admin server uses:
`grpcutil.MaxMsgSize`, `grpcutil.ScrubGRPC`, and the `%v` rendering of an op. -/
structure Env where
  MaxMsgSize : Nat
  ScrubGRPC : GoError → GoError
  showOp : Op → String

/-- Go `extractObjectReader`. -/
structure extractObjectReader where
  adminAPIRestoreServer : RestoreServer
  buf : List Byte := []
  eof : Bool := false
deriving DecidableEq, Repr

/-- Go `bytes.Buffer.Read(p)` with `len(p) = lenP`: the bytes copied into `p`, the error
and the bytes left in the buffer. An empty buffer gives `io.EOF`, unless `p` is empty. -/
def bufferRead (buf : List Byte) (lenP : Nat) : (List Byte × Option GoError) × List Byte :=
  if buf.length = 0 then
    if lenP = 0 then (([], none), []) else (([], some GoError.EOF), [])
  else
    ((buf.take lenP, none), buf.drop lenP)

/-- The loop `for len(p) > r.buf.Len() && !r.eof` of `extractObjectReader.Read`, by
recursion on the ops still pending on the channel `(pending, recvErr, closeErr, log)`;
the match on `pending` is `r.Recv()`. It returns the error, if any, and the reader. -/
def readLoop (env : Env) (lenP : Nat) (recvErr : GoError) (closeErr : Option GoError) :
    List Op → List Event → List Byte → Bool → Option GoError × extractObjectReader
  | [], log, buf, eof =>
    if lenP > buf.length && !eof then
      (some (env.ScrubGRPC recvErr),
        { adminAPIRestoreServer :=
            { pending := [], recvErr := recvErr, closeErr := closeErr,
              log := log ++ [Event.recvErr recvErr] },
          buf := buf, eof := eof })
    else
      (none,
        { adminAPIRestoreServer :=
            { pending := [], recvErr := recvErr, closeErr := closeErr, log := log },
          buf := buf, eof := eof })
  | op :: rest, log, buf, eof =>
    if lenP > buf.length && !eof then
      match op.Object with
      | none =>
        (some (GoError.msg ("expected an object, but got: " ++ env.showOp op)),
          { adminAPIRestoreServer :=
              { pending := rest, recvErr := recvErr, closeErr := closeErr,
                log := log ++ [Event.recv op] },
            buf := buf, eof := eof })
      | some object =>
        readLoop env lenP recvErr closeErr rest (log ++ [Event.recv op])
          (buf ++ object.Value) (if object.Value.length = 0 then true else eof)
    else
      (none,
        { adminAPIRestoreServer :=
            { pending := op :: rest, recvErr := recvErr, closeErr := closeErr, log := log },
          buf := buf, eof := eof })

/-- The method `extractObjectReader.Read(p)` with `len(p) = lenP`: the bytes copied into
`p` (their number is the returned count), the error, and the reader afterwards. -/
def extractObjectReader.Read (env : Env) (r : extractObjectReader) (lenP : Nat) :
    (List Byte × Option GoError) × extractObjectReader :=
  match readLoop env lenP r.adminAPIRestoreServer.recvErr r.adminAPIRestoreServer.closeErr
      r.adminAPIRestoreServer.pending r.adminAPIRestoreServer.log r.buf r.eof with
  | (some err, r1) => (([], some err), r1)
  | (none, r1) =>
    match bufferRead r1.buf lenP with
    | (res, buf1) => (res, { r1 with buf := buf1 })

/-- A consumer of the reader, as `io.Copy` is: it calls `Read` with buffers of `sizes 0`,
`sizes 1`, ... bytes, collects the bytes returned, and stops at the first error;
`io.EOF` is the regular end. `none` when the fuel runs out. -/
def readUntilEOF (env : Env) (sizes : Nat → Nat) :
    Nat → Nat → extractObjectReader → List Byte →
      Option (Except GoError (List Byte) × extractObjectReader)
  | 0, _, _, _ => none
  | fuel + 1, k, r, acc =>
    match r.Read env (sizes k) with
    | ((data, none), r1) => readUntilEOF env sizes fuel (k + 1) r1 (acc ++ data)
    | ((data, some GoError.EOF), r1) => some (Except.ok (acc ++ data), r1)
    | ((_, some err), r1) => some (Except.error err, r1)

/-! ## Restore -/

/-- A call on the object, metadata or pipeline store. -/
inductive StoreCall where
  | PutObject (data : List Byte)
  | TagObject (req : pfs.TagObjectRequest)
  | CreateRepo (req : pfs.CreateRepoRequest)
  | BuildCommit (req : pfs.BuildCommitRequest)
  | CreateBranch (req : pfs.CreateBranchRequest)
  | CreatePipeline (req : pps.CreatePipelineRequest)
deriving DecidableEq, Repr

/-- The stores as `Restore` sees them through `pachClient`: whether a call fails, given
the calls applied so far, and the sizes of the buffers `PutObject` reads with. -/
structure RestoreClient where
  storeErr : List StoreCall → StoreCall → Option GoError
  readSize : Nat → Nat

/-- One store call on the stores that have applied the calls `st`: a call that fails
applies nothing. -/
def storeCall (c : RestoreClient) (st : List StoreCall) (call : StoreCall) :
    Option GoError × List StoreCall :=
  match c.storeErr st call with
  | some err => (some err, st)
  | none => (none, st ++ [call])

/-- Modelled from the spec: `pachClient.PutObject(r)`, of the client package, is not in
the sources. It buffers the chunks into one logical object by reading `r` to its end,
then commits the accumulated bytes to the object store as a single object; a read error
is returned and nothing is committed. -/
def PutObject (env : Env) (c : RestoreClient) (fuel : Nat) (r : extractObjectReader)
    (st : List StoreCall) : Option (Option GoError × extractObjectReader × List StoreCall) :=
  match readUntilEOF env c.readSize fuel 0 r [] with
  | none => none
  | some (Except.error err, r1) => some (some err, r1, st)
  | some (Except.ok data, r1) =>
    match storeCall c st (StoreCall.PutObject data) with
    | (err, st1) => some (err, r1, st1)

/-- Go `client.NewBranch(repoName, branchName)`. -/
def NewBranch (repoName branchName : String) : pfs.Branch :=
  { Repo := repoName, Name := branchName }

/-- The `for` loop of `Restore`: the returned error, the channel and the stores; `none`
when the fuel runs out. -/
def restoreLoop (env : Env) (c : RestoreClient) :
    Nat → RestoreServer → List StoreCall → Option (Option GoError × RestoreServer × List StoreCall)
  | 0, _, _ => none
  | fuel + 1, restoreServer, st =>
    match restoreServer.Recv with
    | (Except.error err, s1) =>
      if err = GoError.EOF then some (none, s1, st) else some (some err, s1, st)
    | (Except.ok op, s1) =>
      if op.Version.isSome then restoreLoop env c fuel s1 st
      else match op.Object with
      | some object =>
        match PutObject env c fuel { adminAPIRestoreServer := s1, buf := [] ++ object.Value } st with
        | none => none
        | some (some err, r1, st1) =>
          some (some (Errorf "error putting object: " err), r1.adminAPIRestoreServer, st1)
        | some (none, r1, st1) => restoreLoop env c fuel r1.adminAPIRestoreServer st1
      | none =>
      match op.Tag with
      | some tag =>
        match storeCall c st (StoreCall.TagObject tag) with
        | (some err, st1) => some (some (Errorf "error tagging object: " (env.ScrubGRPC err)), s1, st1)
        | (none, st1) => restoreLoop env c fuel s1 st1
      | none =>
      match op.Repo with
      | some repo =>
        match storeCall c st (StoreCall.CreateRepo repo) with
        | (some err, st1) => some (some (Errorf "error creating repo: " (env.ScrubGRPC err)), s1, st1)
        | (none, st1) => restoreLoop env c fuel s1 st1
      | none =>
      match op.Commit with
      | some commit =>
        match storeCall c st (StoreCall.BuildCommit commit) with
        | (some err, st1) => some (some (Errorf "error creating commit: " (env.ScrubGRPC err)), s1, st1)
        | (none, st1) => restoreLoop env c fuel s1 st1
      | none =>
      match op.Branch with
      | some branch =>
        let branch := if branch.Branch.isNone then
            { branch with Branch := some (NewBranch branch.Head.Repo branch.SBranch) }
          else branch
        match storeCall c st (StoreCall.CreateBranch branch) with
        | (some err, st1) => some (some (Errorf "error creating branch: " (env.ScrubGRPC err)), s1, st1)
        | (none, st1) => restoreLoop env c fuel s1 st1
      | none =>
      match op.Pipeline with
      | some pipeline =>
        match storeCall c st (StoreCall.CreatePipeline pipeline) with
        | (some err, st1) => some (some (Errorf "error creating pipeline: " (env.ScrubGRPC err)), s1, st1)
        | (none, st1) => restoreLoop env c fuel s1 st1
      | none => restoreLoop env c fuel s1 st

/-- The loop of the deferred function of `Restore`: receive until `Recv` returns an
error. -/
def drain : List Op → GoError → Option GoError → List Event → RestoreServer
  | [], recvErr, closeErr, log =>
    { pending := [], recvErr := recvErr, closeErr := closeErr,
      log := log ++ [Event.recvErr recvErr] }
  | op :: rest, recvErr, closeErr, log =>
    drain rest recvErr closeErr (log ++ [Event.recv op])

/-- The deferred function of `Restore`: drain the channel, then `SendAndClose`; its
error becomes the returned error when there was none. -/
def restoreDeferred (restoreServer : RestoreServer) (retErr : Option GoError) :
    Option GoError × RestoreServer :=
  match (drain restoreServer.pending restoreServer.recvErr restoreServer.closeErr
      restoreServer.log).SendAndClose with
  | (some err, s1) => (if retErr.isNone then some err else retErr, s1)
  | (none, s1) => (retErr, s1)

/-- The method `apiServer.Restore`; `getPachClient` is the result of `a.getPachClient()`.
It returns the error, the channel and the stores; `none` when the fuel runs out. -/
def apiServer.Restore (env : Env) (getPachClient : Except GoError RestoreClient)
    (fuel : Nat) (restoreServer : RestoreServer) (st : List StoreCall) :
    Option (Option GoError × RestoreServer × List StoreCall) :=
  match getPachClient with
  | Except.error err => some (some err, restoreServer, st)
  | Except.ok pachClient =>
    match restoreLoop env pachClient fuel restoreServer st with
    | none => none
    | some (retErr, s1, st1) =>
      match restoreDeferred s1 retErr with
      | (retErr1, s2) => some (retErr1, s2, st1)

end admin

namespace admin

/-- The reader `r` is in the middle of one object whose bytes still to be delivered are
`D`, and `tail` is what follows the end marker on the channel: either the end marker is
still pending, behind non-empty chunks, or it has been received. -/
def Streaming (recvErr : GoError) (closeErr : Option GoError) (tail : List Op)
    (D : List Byte) (r : extractObjectReader) : Prop :=
  r.adminAPIRestoreServer.recvErr = recvErr ∧ r.adminAPIRestoreServer.closeErr = closeErr ∧
  ((r.eof = false ∧ ∃ cs : List (List Byte), (∀ x ∈ cs, x ≠ []) ∧
      r.adminAPIRestoreServer.pending = cs.map objectOp ++ objectOp [] :: tail ∧
      D = r.buf ++ cs.flatten) ∨
   (r.eof = true ∧ r.adminAPIRestoreServer.pending = tail ∧ D = r.buf))

/-- Size of the ops on the channel: one per op plus the bytes of its object chunk. -/
def opsSize : List Op → Nat
  | [] => 0
  | op :: rest =>
    (1 + match op.Object with
      | some object => object.Value.length
      | none => 0) + opsSize rest

end admin

namespace admin

/-- An environment with chunks of two bytes. -/
def exEnv : Env :=
  { MaxMsgSize := 4, ScrubGRPC := fun e => e, showOp := fun _ => "op" }

end admin

namespace admin

/-- Stores on which every call succeeds, read through buffers of four bytes. -/
def exClient : RestoreClient :=
  { storeErr := fun _ _ => none, readSize := fun _ => 4 }

/-- The op of a tag binding. -/
def exTagOp : Op :=
  { Tag := some { Object := "h", Tags := ["t"] } }

end admin

namespace admin

/-- The channel `s1` is the channel `s` after some receives: the same end-of-input error
and `SendAndClose` result, and a log extended by events that are no acknowledgement. -/
def LogExt (s s1 : RestoreServer) : Prop :=
  s1.recvErr = s.recvErr ∧ s1.closeErr = s.closeErr ∧
    ∃ evs, s1.log = s.log ++ evs ∧ Event.sendAndClose ∉ evs

end admin

namespace admin

/-- A complete operation on the input stream of `Restore`: a single op of one kind, or
the chunks of one object up to its end marker. -/
inductive Item where
  | version (v : String)
  | object (first : List Byte) (rest : List (List Byte))
  | tag (req : pfs.TagObjectRequest)
  | repo (req : pfs.CreateRepoRequest)
  | commit (req : pfs.BuildCommitRequest)
  | branch (req : pfs.CreateBranchRequest)
  | pipeline (req : pps.CreatePipelineRequest)
deriving DecidableEq, Repr

/-- The ops of a complete operation, as they are on the wire. -/
def Item.ops : Item → List Op
  | Item.version v => [{ Version := some v }]
  | Item.object first rest => objectOp first :: (rest.map objectOp ++ [objectOp []])
  | Item.tag req => [{ Tag := some req }]
  | Item.repo req => [{ Repo := some req }]
  | Item.commit req => [{ Commit := some req }]
  | Item.branch req => [{ Branch := some req }]
  | Item.pipeline req => [{ Pipeline := some req }]

/-- The chunks of an object after the first are not empty: the empty chunk is the end
marker. -/
def Item.WF : Item → Prop
  | Item.object _ rest => ∀ x ∈ rest, x ≠ []
  | _ => True

/-- The store call a complete operation stands for: none for a `Version`, one call with
the concatenated chunks for an object, the request itself otherwise, a `BranchCreate`
without branch getting the default branch of the head's repository. -/
def Item.call : Item → Option StoreCall
  | Item.version _ => none
  | Item.object first rest => some (StoreCall.PutObject (first ++ rest.flatten))
  | Item.tag req => some (StoreCall.TagObject req)
  | Item.repo req => some (StoreCall.CreateRepo req)
  | Item.commit req => some (StoreCall.BuildCommit req)
  | Item.branch req =>
    some (StoreCall.CreateBranch
      (if req.Branch.isNone then
        { req with Branch := some (NewBranch req.Head.Repo req.SBranch) } else req))
  | Item.pipeline req => some (StoreCall.CreatePipeline req)

/-- The message prefix of the error `Restore` returns when a store call fails. -/
def callPrefix : StoreCall → String
  | StoreCall.PutObject _ => "error putting object: "
  | StoreCall.TagObject _ => "error tagging object: "
  | StoreCall.CreateRepo _ => "error creating repo: "
  | StoreCall.BuildCommit _ => "error creating commit: "
  | StoreCall.CreateBranch _ => "error creating branch: "
  | StoreCall.CreatePipeline _ => "error creating pipeline: "

/-- The error `Restore` returns when the store call `call` fails with `err`. -/
def callError (env : Env) (call : StoreCall) (err : GoError) : GoError :=
  match call with
  | StoreCall.PutObject _ => Errorf (callPrefix call) err
  | _ => Errorf (callPrefix call) (env.ScrubGRPC err)

/-- Apply store calls in order until one fails: the failed call with its error, if any,
and the calls applied. -/
def applyCalls (c : RestoreClient) :
    List StoreCall → List StoreCall → Option (StoreCall × GoError) × List StoreCall
  | [], st => (none, st)
  | call :: rest, st =>
    match c.storeErr st call with
    | some err => (some (call, err), st)
    | none => applyCalls c rest (st ++ [call])

end admin

namespace admin

/-- Stores that refuse every tag binding and accept every other call. -/
def exNoTagClient : RestoreClient :=
  { storeErr := fun _ call =>
      match call with
      | StoreCall.TagObject _ => some (GoError.msg "object not found")
      | _ => none,
    readSize := fun _ => 4 }

/-- A stream of complete operations: a version, a repository, an object in two chunks, a
tag binding and a pipeline. -/
def exItems : List Item :=
  [Item.version "1.7", Item.repo { Repo := "r", Provenance := [], Description := "" },
    Item.object [1, 2] [[3]], Item.tag { Object := "h", Tags := ["t"] },
    Item.pipeline { Pipeline := "p" }]

end admin

namespace admin

/-! ## Extract -/

/-- An object of the store as `GetObject` delivers it: its hash, the successive slices
handed to the writer, and the error `GetObject` ends with, if any. -/
structure ObjectData where
  Hash : String
  pieces : List (List Byte)
  getErr : Option GoError := none
deriving DecidableEq, Repr

/-- The stores as `Extract` sees them through `pachClient`: what each listing returns,
and the error it returns, if any. -/
structure ExtractClient where
  Version : String := ""
  getVersionErr : Option GoError := none
  Objects : List ObjectData := []
  listObjectErr : Option GoError := none
  Tags : List pfs.ListTagsResponse := []
  listTagErr : Option GoError := none
  Repos : List pfs.RepoInfo := []
  listRepoErr : Option GoError := none
  Commits : String → List pfs.CommitInfo := fun _ => []
  listCommitErr : String → Option GoError := fun _ => none
  Branches : String → List pfs.BranchInfo := fun _ => []
  listBranchErr : String → Option GoError := fun _ => none
  Pipelines : List pps.PipelineInfo := []
  listPipelineErr : Option GoError := none

/-- A loop `for _, x := range xs { if err := extractServer.Send(op x); err != nil
{ return err } }`, given the ops. -/
def sendAll : List Op → ExtractServer → Option GoError × ExtractServer
  | [], s => (none, s)
  | op :: ops, s =>
    match s.Send op with
    | (some err, s1) => (some err, s1)
    | (none, s1) => sendAll ops s1

/-- Modelled from the spec: `pachClient.GetObject(hash, w)`, of the client package, is
not in the sources. It writes the bytes of the object to `w`, slice after slice, and
stops at the first error of `w.Write`. -/
def GetObject (env : Env) (fuel : Nat) :
    List (List Byte) → Option GoError → ExtractServer → Option (Option GoError × ExtractServer)
  | [], getErr, w => some (getErr, w)
  | p :: ps, getErr, w =>
    match extractObjectWriter.Write env.MaxMsgSize fuel p w with
    | none => none
    | some ((_, some err), w1) => some (some err, w1)
    | some ((_, none), w1) => GetObject env fuel ps getErr w1

/-- Modelled from the spec: `pachClient.ListObject(f)`, of the client package, is not in
the sources. It calls `f` on every object of the store and stops at the first error. The
callback is the one of `Extract`: `GetObject` into the chunk writer, then the empty
`PutObjectRequest` that indicates EOF. -/
def ListObject (env : Env) (fuel : Nat) :
    List ObjectData → Option GoError → ExtractServer → Option (Option GoError × ExtractServer)
  | [], listErr, s => some (listErr, s)
  | object :: objects, listErr, s =>
    match GetObject env fuel object.pieces object.getErr s with
    | none => none
    | some (some err, s1) => some (some err, s1)
    | some (none, s1) =>
      match s1.Send { Object := some {} } with
      | (some err, s2) => some (some err, s2)
      | (none, s2) => ListObject env fuel objects listErr s2

/-- The op `Extract` sends for a tag binding. -/
def tagOp (resp : pfs.ListTagsResponse) : Op :=
  { Tag := some { Object := resp.Object, Tags := [resp.Tag] } }

/-- Modelled from the spec: `pachClient.ListTag(f)`, of the client package, is not in the
sources. It calls `f` on every tag binding and stops at the first error; the callback of
`Extract` sends the binding. -/
def ListTag (tags : List pfs.ListTagsResponse) (listErr : Option GoError)
    (s : ExtractServer) : Option GoError × ExtractServer :=
  match sendAll (tags.map tagOp) s with
  | (some err, s1) => (some err, s1)
  | (none, s1) => (listErr, s1)

/-- Go `client.NewCommit(repoName, commitID)`. -/
def NewCommit (repoName commitID : String) : pfs.Commit :=
  { Repo := repoName, ID := commitID }

/-- The op `Extract` sends for a repository. -/
def repoOp (ri : pfs.RepoInfo) : Op :=
  { Repo := some { Repo := ri.Repo, Provenance := ri.Provenance,
                   Description := ri.Description } }

/-- The op `Extract` sends for a commit of the repository `repoName`: without a parent,
`ParentCommit` names the repository to make the commit in. -/
def commitOp (repoName : String) (ci : pfs.CommitInfo) : Op :=
  { Commit := some
      { Parent := some (match ci.ParentCommit with
          | none => NewCommit repoName ""
          | some parent => parent),
        Tree := ci.Tree, ID := ci.Commit.ID } }

/-- The op `Extract` sends for a branch. -/
def branchOp (bi : pfs.BranchInfo) : Op :=
  { Branch := some { Head := bi.Head, Branch := bi.Branch } }

/-- The op `Extract` sends for a pipeline. -/
def pipelineOp (pi : pps.PipelineInfo) : Op :=
  { Pipeline := some
      { Pipeline := pi.Pipeline, Transform := pi.Transform,
        ParallelismSpec := pi.ParallelismSpec, Egress := pi.Egress,
        OutputBranch := pi.OutputBranch, ScaleDownThreshold := pi.ScaleDownThreshold,
        ResourceRequests := pi.ResourceRequests, ResourceLimits := pi.ResourceLimits,
        Input := pi.Input, Description := pi.Description, Incremental := pi.Incremental,
        CacheSize := pi.CacheSize, EnableStats := pi.EnableStats, Batch := pi.Batch,
        MaxQueueSize := pi.MaxQueueSize, Service := pi.Service, ChunkSpec := pi.ChunkSpec,
        DatumTimeout := pi.DatumTimeout, JobTimeout := pi.JobTimeout, Salt := pi.Salt } }

/-- The loop `for _, ri := range ris` of `Extract`. -/
def repoLoop (pachClient : ExtractClient) :
    List pfs.RepoInfo → ExtractServer → Option GoError × ExtractServer
  | [], s => (none, s)
  | ri :: ris, s =>
    if ri.Provenance.length > 0 then repoLoop pachClient ris s
    else
      match s.Send (repoOp ri) with
      | (some err, s1) => (some err, s1)
      | (none, s1) =>
        match pachClient.listCommitErr ri.Repo with
        | some err => (some err, s1)
        | none =>
          match sendAll ((sortCommitInfos (pachClient.Commits ri.Repo)).map
              (commitOp ri.Repo)) s1 with
          | (some err, s2) => (some err, s2)
          | (none, s2) =>
            match pachClient.listBranchErr ri.Repo with
            | some err => (some err, s2)
            | none =>
              match sendAll ((pachClient.Branches ri.Repo).map branchOp) s2 with
              | (some err, s3) => (some err, s3)
              | (none, s3) => repoLoop pachClient ris s3

/-- The block `if !request.NoObjects` of `Extract`. -/
def extractObjects (env : Env) (pachClient : ExtractClient) (fuel : Nat)
    (s : ExtractServer) : Option (Option GoError × ExtractServer) :=
  match ListObject env fuel pachClient.Objects pachClient.listObjectErr s with
  | none => none
  | some (some err, s1) => some (some err, s1)
  | some (none, s1) => some (ListTag pachClient.Tags pachClient.listTagErr s1)

/-- The block `if !request.NoRepos` of `Extract`. -/
def extractRepos (pachClient : ExtractClient) (s : ExtractServer) :
    Option GoError × ExtractServer :=
  match pachClient.listRepoErr with
  | some err => (some err, s)
  | none => repoLoop pachClient pachClient.Repos s

/-- The block `if !request.NoPipelines` of `Extract`. -/
def extractPipelines (pachClient : ExtractClient) (s : ExtractServer) :
    Option GoError × ExtractServer :=
  match pachClient.listPipelineErr with
  | some err => (some err, s)
  | none => sendAll (pachClient.Pipelines.map pipelineOp) s

/-- The method `apiServer.Extract`; `getPachClient` is the result of `a.getPachClient()`.
It returns the error and the stream; `none` when the fuel of a `Write` runs out. -/
def apiServer.Extract (env : Env) (getPachClient : Except GoError ExtractClient)
    (fuel : Nat) (request : ExtractRequest) (extractServer : ExtractServer) :
    Option (Option GoError × ExtractServer) :=
  match getPachClient with
  | Except.error err => some (some err, extractServer)
  | Except.ok pachClient =>
    match pachClient.getVersionErr with
    | some err => some (some err, extractServer)
    | none =>
      match extractServer.Send { Version := some pachClient.Version } with
      | (some err, s1) => some (some err, s1)
      | (none, s1) =>
        match (if !request.NoObjects then extractObjects env pachClient fuel s1
            else some (none, s1)) with
        | none => none
        | some (some err, s2) => some (some err, s2)
        | some (none, s2) =>
          match (if !request.NoRepos then extractRepos pachClient s2 else (none, s2)) with
          | (some err, s3) => (some (some err, s3))
          | (none, s3) =>
            if !request.NoPipelines then some (extractPipelines pachClient s3)
            else some (none, s3)

/-! ### The stream of the specification -/

/-- The data chunks of an object: the chunks of each slice `GetObject` writes. -/
def dataChunks (chunkSize : Nat) (object : ObjectData) : List (List Byte) :=
  (object.pieces.map (chunkList chunkSize)).flatten

/-- The ops of an object: its data chunks followed by one empty chunk. -/
def objectOps (chunkSize : Nat) (object : ObjectData) : List Op :=
  (dataChunks chunkSize object).map objectOp ++ [objectOp []]

/-- The ops of a repository: one `RepoCreate`, one `CommitBuild` per commit in
`sortCommitInfos` order, one `BranchCreate` per branch. -/
def repoOps (pachClient : ExtractClient) (ri : pfs.RepoInfo) : List Op :=
  [repoOp ri] ++ (sortCommitInfos (pachClient.Commits ri.Repo)).map (commitOp ri.Repo) ++
    (pachClient.Branches ri.Repo).map branchOp

/-- The op stream of the specification: the version; unless suppressed, the ops of every
object and then every tag binding; unless suppressed, the ops of every repository
without provenance; unless suppressed, every pipeline. -/
def specStream (chunkSize : Nat) (pachClient : ExtractClient) (request : ExtractRequest) :
    List Op :=
  [{ Version := some pachClient.Version }] ++
  (if request.NoObjects then []
    else (pachClient.Objects.map (objectOps chunkSize)).flatten ++
      pachClient.Tags.map tagOp) ++
  (if request.NoRepos then []
    else ((pachClient.Repos.filter (fun ri => ri.Provenance.length = 0)).map
      (repoOps pachClient)).flatten) ++
  (if request.NoPipelines then [] else pachClient.Pipelines.map pipelineOp)

end admin

namespace admin

/-- A store with one object, one tag binding, a root repository `r` holding the chain
a ← b ← c and one branch, a derived repository `out`, and one pipeline. -/
def exStore : ExtractClient :=
  { Version := "1.7",
    Objects := [{ Hash := "h", pieces := [[1, 2, 3]] }],
    Tags := [{ Tag := "t", Object := "h" }],
    Repos := [{ Repo := "r", Provenance := [], Description := "" },
      { Repo := "out", Provenance := ["r"], Description := "" }],
    Commits := fun name => if name = "r" then exChain else [],
    Branches := fun name =>
      if name = "r" then [{ Head := { Repo := "r", ID := "c" }, Branch := none }] else [],
    Pipelines := [{ Pipeline := "p" }] }

end admin

/-! ## The pfs V2 file transport (`src/server/pfs/server/api_server_v2.go`) -/

namespace pfs

/-- Go `pfs.PutTarRequestV2`. -/
structure PutTarRequestV2 where
  Tag : String := ""
  Data : List Byte := []
  EOF : Bool := false
deriving DecidableEq, Repr

/-- Go `pfs.DeleteFilesRequestV2`. -/
structure DeleteFilesRequestV2 where
  Files : List String := []
  Tag : String := ""
deriving DecidableEq, Repr

/-- The `Operation` field of `pfs.FileOperationRequestV2`, a oneof that may be unset. -/
inductive Operation where
  | unset
  | PutTar (req : PutTarRequestV2)
  | DeleteFiles (req : DeleteFilesRequestV2)
deriving DecidableEq, Repr

/-- Go `pfs.FileOperationRequestV2`. -/
structure FileOperationRequestV2 where
  Commit : pfs.Commit := { Repo := "", ID := "" }
  Operation : Operation := Operation.unset
deriving DecidableEq, Repr

/-- Go `pfs.File`. -/
structure File where
  Commit : pfs.Commit := { Repo := "", ID := "" }
  Path : String := ""
deriving DecidableEq, Repr

/-- Go `pfs.GetTarRequestV2`. -/
structure GetTarRequestV2 where
  File : File := {}
deriving DecidableEq, Repr

/-- Go `pfs.GetTarConditionalRequestV2`. -/
structure GetTarConditionalRequestV2 where
  File : File := {}
  Skip : Bool := false
deriving DecidableEq, Repr

/-- Go `pfs.FileInfoV2`. -/
structure FileInfoV2 where
  File : File := {}
  Hash : String := ""
deriving DecidableEq, Repr

/-- Go `pfs.GetTarConditionalResponseV2`. -/
structure GetTarConditionalResponseV2 where
  FileInfo : Option FileInfoV2 := none
  Data : List Byte := []
  EOF : Bool := false
deriving DecidableEq, Repr

end pfs

namespace pfsserver

/-- A gRPC stream as a server method sees it: the requests still to be received, the
error `Recv` reports once they are exhausted, the number of `Recv` calls made, the
responses sent, the number of sends the transport still accepts (`none`: all), the
error of a refused send, the result of `SendAndClose` and the number of such calls. -/
structure Stream (Req Resp : Type) where
  pending : List Req := []
  recvErr : GoError := GoError.EOF
  recvs : Nat := 0
  sent : List Resp := []
  budget : Option Nat := none
  sendErr : GoError := GoError.msg "transport is closing"
  closeErr : Option GoError := none
  closes : Nat := 0
deriving DecidableEq, Repr

/-- Go `server.Recv()`. -/
def Stream.Recv {Req Resp : Type} (s : Stream Req Resp) :
    Except GoError Req × Stream Req Resp :=
  match s.pending with
  | [] => (Except.error s.recvErr, { s with recvs := s.recvs + 1 })
  | req :: rest => (Except.ok req, { s with pending := rest, recvs := s.recvs + 1 })

/-- Go `server.Send(resp)`. -/
def Stream.Send {Req Resp : Type} (s : Stream Req Resp) (resp : Resp) :
    Option GoError × Stream Req Resp :=
  match s.budget with
  | none => (none, { s with sent := s.sent ++ [resp] })
  | some 0 => (some s.sendErr, s)
  | some (k + 1) => (none, { s with sent := s.sent ++ [resp], budget := some k })

/-- Go `server.SendAndClose(&types.Empty{})`. -/
def Stream.SendAndClose {Req Resp : Type} (s : Stream Req Resp) :
    Option GoError × Stream Req Resp :=
  (s.closeErr, { s with closes := s.closes + 1 })

/-- How a call ends: it returns, it panics, or the fuel of the model runs out. -/
inductive Run (α : Type) where
  | ret (a : α)
  | panic (what : String)
  | timeout
deriving DecidableEq, Repr

/-- An operation applied to a file set. -/
inductive FsOp where
  | put (tag : String) (tar : List Byte)
  | delete (file : String) (tag : String)
deriving DecidableEq, Repr

/-- Go `fileset.FileSet`: the operations applied through the handle. -/
structure FileSet where
  ops : List FsOp := []
deriving DecidableEq, Repr

/-- A file set handle that was opened: its repository, its commit and the file set when
the handle was released. -/
structure Handle where
  repo : String
  commit : String
  fs : FileSet
deriving DecidableEq, Repr

/-- Go `FileReader`: the metadata of a matching file, the slices `Get` writes, and the
error `Get` ends with, if any. -/
structure FileReader where
  Info : pfs.FileInfoV2 := {}
  writes : List (List Byte) := []
  getErr : Option GoError := none
deriving DecidableEq, Repr

/-- The storage driver and the constants of other packages: the sizes of the buffers
`fs.Put` reads with, the error of releasing a file set handle, the slices `getTar`
writes and its error, the files `getTarConditional` matches and its error, and
`grpcutil.MaxMsgSize`. -/
structure Driver where
  readSize : Nat → Nat := fun _ => 4
  withFileSetErr : Option GoError := none
  tarWrites : String → String → String → List (List Byte) := fun _ _ _ => []
  getTarErr : Option GoError := none
  files : String → String → String → List FileReader := fun _ _ _ => []
  getTarConditionalErr : Option GoError := none
  MaxMsgSize : Nat := 8

/-- Go `apiServer` of the pfs server: the flag `a.env.NewStorageLayer` and the driver. -/
structure apiServer where
  NewStorageLayer : Bool
  driver : Driver := {}

/-- The error `errors.Errorf("new storage layer disabled")`. -/
def disabled : GoError :=
  GoError.msg "new storage layer disabled"

/-! ### FileOperationV2 -/

/-- The stream of `FileOperationV2`. -/
abbrev FileOperationV2Server := Stream pfs.FileOperationRequestV2 Unit

/-- Go `putTarReader`; `r` is the unread part of the `bytes.Reader`. -/
structure putTarReader where
  server : FileOperationV2Server
  r : List Byte
  bytesRead : Nat := 0
deriving DecidableEq, Repr

/-- Go `bytes.Reader.Read(b)` with `len(b) = lenB` on the unread bytes `r`: at the end
`io.EOF`, otherwise the bytes copied and the bytes left. -/
def bytesReaderRead (r : List Byte) (lenB : Nat) : (List Byte × Option GoError) × List Byte :=
  if r.length = 0 then (([], some GoError.EOF), r)
  else ((r.take lenB, none), r.drop lenB)

/-- The method `putTarReader.Read(data)` with `len(data) = lenData`. The type assertion
`req.Operation.(*pfs.FileOperationRequestV2_PutTar)` panics on any other operation. -/
def putTarReader.Read (ptr : putTarReader) (lenData : Nat) :
    Run ((List Byte × Option GoError) × putTarReader) :=
  if ptr.r.length = 0 then
    match ptr.server.Recv with
    | (Except.error err, s1) => Run.ret (([], some err), { ptr with server := s1 })
    | (Except.ok req, s1) =>
      match req.Operation with
      | pfs.Operation.PutTar putTarReq =>
        if putTarReq.EOF then Run.ret (([], some GoError.EOF), { ptr with server := s1 })
        else
          match bytesReaderRead putTarReq.Data lenData with
          | ((data, err), r1) =>
            Run.ret ((data, err),
              { server := s1, r := r1, bytesRead := ptr.bytesRead + data.length })
      | _ => Run.panic "interface conversion: not *pfs.FileOperationRequestV2_PutTar"
  else
    match bytesReaderRead ptr.r lenData with
    | ((data, err), r1) =>
      Run.ret ((data, err), { ptr with r := r1, bytesRead := ptr.bytesRead + data.length })

/-- A consumer of the tar stream, as `fs.Put` is: `Read` with buffers of `sizes 0`,
`sizes 1`, ... bytes until an error; `io.EOF` is the regular end. -/
def readTar (sizes : Nat → Nat) :
    Nat → Nat → putTarReader → List Byte → Run (Except GoError (List Byte) × putTarReader)
  | 0, _, _, _ => Run.timeout
  | fuel + 1, k, ptr, acc =>
    match ptr.Read (sizes k) with
    | Run.timeout => Run.timeout
    | Run.panic what => Run.panic what
    | Run.ret ((data, none), ptr1) => readTar sizes fuel (k + 1) ptr1 (acc ++ data)
    | Run.ret ((data, some GoError.EOF), ptr1) => Run.ret (Except.ok (acc ++ data), ptr1)
    | Run.ret ((_, some err), ptr1) => Run.ret (Except.error err, ptr1)

/-- Modelled from the spec: `fs.Put(r, tag)`, of the fileset package, is not in the
sources. It reads the tar archive from `r` to its end and applies it to the file set as
one content addition under the tag; a read error is returned and nothing is added. -/
def FileSet.Put (d : Driver) (fuel : Nat) (fs : FileSet) (ptr : putTarReader)
    (tag : String) : Run (Option GoError × FileSet × putTarReader) :=
  match readTar d.readSize fuel 0 ptr [] with
  | Run.timeout => Run.timeout
  | Run.panic what => Run.panic what
  | Run.ret (Except.error err, ptr1) => Run.ret (some err, fs, ptr1)
  | Run.ret (Except.ok tar, ptr1) =>
    Run.ret (none, { ops := fs.ops ++ [FsOp.put tag tar] }, ptr1)

/-- The function `putTar`: the bytes read, the error, the file set and the stream. -/
def putTar (d : Driver) (fuel : Nat) (fs : FileSet) (server : FileOperationV2Server)
    (req : pfs.PutTarRequestV2) :
    Run ((Nat × Option GoError) × FileSet × FileOperationV2Server) :=
  match FileSet.Put d fuel fs { server := server, r := req.Data } req.Tag with
  | Run.timeout => Run.timeout
  | Run.panic what => Run.panic what
  | Run.ret (err, fs1, ptr) => Run.ret ((ptr.bytesRead, err), fs1, ptr.server)

/-- The function `deleteFiles`: `fs.Delete(file, req.Tag)` for every file. -/
def deleteFiles (fs : FileSet) (req : pfs.DeleteFilesRequestV2) : FileSet :=
  req.Files.foldl (fun fs file => { ops := fs.ops ++ [FsOp.delete file req.Tag] }) fs

/-- The `for` loop of the callback of `FileOperationV2`, on the state (file set, stream,
`bytesRead`). -/
def fileOperationLoop (d : Driver) :
    Nat → FileSet → FileOperationV2Server → Nat →
      Run (Option GoError × FileSet × FileOperationV2Server × Nat)
  | 0, _, _, _ => Run.timeout
  | fuel + 1, fs, server, bytesRead =>
    match server.Recv with
    | (Except.error err, s1) =>
      if err = GoError.EOF then Run.ret (none, fs, s1, bytesRead)
      else Run.ret (some err, fs, s1, bytesRead)
    | (Except.ok req, s1) =>
      match req.Operation with
      | pfs.Operation.PutTar op =>
        match putTar d fuel fs s1 op with
        | Run.timeout => Run.timeout
        | Run.panic what => Run.panic what
        | Run.ret ((n, some err), fs1, s2) => Run.ret (some err, fs1, s2, bytesRead + n)
        | Run.ret ((n, none), fs1, s2) => fileOperationLoop d fuel fs1 s2 (bytesRead + n)
      | pfs.Operation.DeleteFiles op =>
        fileOperationLoop d fuel (deleteFiles fs op) s1 bytesRead
      | pfs.Operation.unset => fileOperationLoop d fuel fs s1 bytesRead

/-- The method `apiServer.FileOperationV2`: the byte count and the error that the
function given to `metrics.ReportRequestWithThroughput` returns, the stream, and the
file set handles opened. Logging and timing are left out.
Modelled from the spec: `a.driver.withFileSet`, of the driver, is not in the sources. It
opens one file set handle for `(repo, commit)`, runs the callback and releases the
handle on every path; it returns the error of the callback, or else of the release. -/
def apiServer.FileOperationV2 (a : apiServer) (fuel : Nat) (server : FileOperationV2Server) :
    Run ((Nat × Option GoError) × FileOperationV2Server × List Handle) :=
  match server.Recv with
  | (Except.error err, s1) => Run.ret ((0, some err), s1, [])
  | (Except.ok req, s1) =>
    if !a.NewStorageLayer then Run.ret ((0, some disabled), s1, [])
    else
      match fileOperationLoop a.driver fuel {} s1 0 with
      | Run.timeout => Run.timeout
      | Run.panic what => Run.panic what
      | Run.ret (some err, fs, s2, bytesRead) =>
        Run.ret ((bytesRead, some err), s2,
          [{ repo := req.Commit.Repo, commit := req.Commit.ID, fs := fs }])
      | Run.ret (none, fs, s2, bytesRead) =>
        match a.driver.withFileSetErr with
        | some err =>
          Run.ret ((bytesRead, some err), s2,
            [{ repo := req.Commit.Repo, commit := req.Commit.ID, fs := fs }])
        | none =>
          match s2.SendAndClose with
          | (err, s3) =>
            Run.ret ((bytesRead, err), s3,
              [{ repo := req.Commit.Repo, commit := req.Commit.ID, fs := fs }])

end pfsserver

namespace pfsserver

/-! ### GetTarV2 -/

/-- The stream of `GetTarV2`: it only sends, one `types.BytesValue` per message. -/
abbrev GetTarV2Server := Stream Unit (List Byte)

/-- Go `getTarWriter`; `w` is the streaming bytes writer on the stream. -/
structure getTarWriter where
  w : GetTarV2Server
  bytesWritten : Nat := 0
deriving DecidableEq, Repr

/-- Modelled from the spec: `grpcutil.NewStreamingBytesWriter(server).Write(p)`, of the
grpcutil package, is not in the sources. It sends `p` as one message and returns `len(p)`,
or 0 and the error of the send. -/
def streamingBytesWrite (server : GetTarV2Server) (p : List Byte) :
    (Nat × Option GoError) × GetTarV2Server :=
  match server.Send p with
  | (some err, s1) => ((0, some err), s1)
  | (none, s1) => ((p.length, none), s1)

/-- The method `getTarWriter.Write`. -/
def getTarWriter.Write (gtw : getTarWriter) (data : List Byte) :
    (Nat × Option GoError) × getTarWriter :=
  match streamingBytesWrite gtw.w data with
  | ((n, err), w1) => ((n, err), { w := w1, bytesWritten := gtw.bytesWritten + n })

/-- Modelled from the spec: `a.driver.getTar`, of the driver, is not in the sources. It
writes the tar stream of the matching files to the writer, slice after slice, stops at
the first error of `Write`, and ends with its own error, if any. -/
def getTar : List (List Byte) → Option GoError → getTarWriter → Option GoError × getTarWriter
  | [], getTarErr, gtw => (getTarErr, gtw)
  | p :: ps, getTarErr, gtw =>
    match gtw.Write p with
    | ((_, some err), gtw1) => (some err, gtw1)
    | ((_, none), gtw1) => getTar ps getTarErr gtw1

/-- The method `apiServer.GetTarV2`: the byte count and the error that the function given
to `metrics.ReportRequestWithThroughput` returns, and the stream. -/
def apiServer.GetTarV2 (a : apiServer) (request : pfs.GetTarRequestV2)
    (server : GetTarV2Server) : (Nat × Option GoError) × GetTarV2Server :=
  if !a.NewStorageLayer then ((0, some disabled), server)
  else
    match getTar (a.driver.tarWrites request.File.Commit.Repo request.File.Commit.ID
        request.File.Path) a.driver.getTarErr { w := server } with
    | (err, gtw) => ((gtw.bytesWritten, err), gtw.w)

/-! ### GetTarConditionalV2 -/

/-- The stream of `GetTarConditionalV2`. -/
abbrev GetTarConditionalV2Server :=
  Stream pfs.GetTarConditionalRequestV2 pfs.GetTarConditionalResponseV2

/-- Go `getTarConditionalWriter`. -/
structure getTarConditionalWriter where
  server : GetTarConditionalV2Server
  bytesWritten : Nat := 0
deriving DecidableEq, Repr

/-- The message `&pfs.GetTarConditionalResponseV2{Data: data}`. -/
def dataMsg (data : List Byte) : pfs.GetTarConditionalResponseV2 :=
  { Data := data }

/-- The message `&pfs.GetTarConditionalResponseV2{EOF: true}`. -/
def eofMsg : pfs.GetTarConditionalResponseV2 :=
  { EOF := true }

/-- The message `&pfs.GetTarConditionalResponseV2{FileInfo: fr.Info()}`. -/
def infoMsg (info : pfs.FileInfoV2) : pfs.GetTarConditionalResponseV2 :=
  { FileInfo := some info }

/-- The method `getTarConditionalWriter.Write`. -/
def getTarConditionalWriter.Write (w : getTarConditionalWriter) (data : List Byte) :
    (Nat × Option GoError) × getTarConditionalWriter :=
  match w.server.Send (dataMsg data) with
  | (some err, s1) => ((0, some err), { w with server := s1 })
  | (none, s1) => ((data.length, none),
      { server := s1, bytesWritten := w.bytesWritten + data.length })

/-- Go `bufio.Writer` on a `getTarConditionalWriter`: the buffer size, the bytes
buffered and the sticky error. -/
structure bufioWriter where
  wr : getTarConditionalWriter
  size : Nat
  buf : List Byte := []
  err : Option GoError := none
deriving DecidableEq, Repr

/-- Go `bufio.NewWriterSize(w, size)`: a size of 0 gives the default of 4096 bytes. -/
def NewWriterSize (w : getTarConditionalWriter) (size : Nat) : bufioWriter :=
  { wr := w, size := if size = 0 then 4096 else size }

/-- Go `io.ErrShortWrite`. -/
def ErrShortWrite : GoError :=
  GoError.msg "short write"

/-- Go `bufio.Writer.Flush`. -/
def bufioWriter.Flush (b : bufioWriter) : Option GoError × bufioWriter :=
  match b.err with
  | some err => (some err, b)
  | none =>
    if b.buf.length = 0 then (none, b)
    else
      match b.wr.Write b.buf with
      | ((n, err), wr1) =>
        match (if n < b.buf.length && err.isNone then some ErrShortWrite else err) with
        | some err1 => (some err1, { b with wr := wr1, buf := b.buf.drop n, err := some err1 })
        | none => (none, { b with wr := wr1, buf := [] })

/-- The loop of Go `bufio.Writer.Write(p)` on the state (writer, `p`, `nn`), and what
follows it; `none` when the fuel runs out. -/
def bufioWriteLoop :
    Nat → bufioWriter → List Byte → Nat → Option ((Nat × Option GoError) × bufioWriter)
  | 0, _, _, _ => none
  | fuel + 1, b, p, nn =>
    if p.length > b.size - b.buf.length && b.err.isNone then
      if b.buf.length = 0 then
        match b.wr.Write p with
        | ((n, err), wr1) =>
          bufioWriteLoop fuel { b with wr := wr1, err := err } (p.drop n) (nn + n)
      else
        match ({ b with buf := b.buf ++ p.take (b.size - b.buf.length) } : bufioWriter).Flush with
        | (_, b1) =>
          bufioWriteLoop fuel b1 (p.drop (b.size - b.buf.length))
            (nn + (p.take (b.size - b.buf.length)).length)
    else
      match b.err with
      | some err => some ((nn, some err), b)
      | none => some ((nn + p.length, none), { b with buf := b.buf ++ p })

/-- Go `bufio.Writer.Write(p)`. -/
def bufioWriter.Write (fuel : Nat) (b : bufioWriter) (p : List Byte) :
    Option ((Nat × Option GoError) × bufioWriter) :=
  bufioWriteLoop fuel b p 0

/-- Modelled from the spec: `fr.Get(w)`, of the `FileReader`, is not in the sources. It
writes the content of the file to `w`, slice after slice, stops at the first error of
`Write`, and ends with its own error, if any. -/
def FileReader.Get (fuel : Nat) :
    List (List Byte) → Option GoError → bufioWriter → Option (Option GoError × bufioWriter)
  | [], getErr, w => some (getErr, w)
  | p :: ps, getErr, w =>
    match w.Write fuel p with
    | none => none
    | some ((_, some err), w1) => some (some err, w1)
    | some ((_, none), w1) => FileReader.Get fuel ps getErr w1

/-- The callback `func(fr *FileReader) error` of `GetTarConditionalV2`, on the stream and
`bytesWritten`; the deferred function adds the bytes of the writer on every path after
the writer is made. -/
def conditionalCallback (MaxMsgSize : Nat) (fuel : Nat) (fr : FileReader)
    (server : GetTarConditionalV2Server) (bytesWritten : Nat) :
    Option (Option GoError × GetTarConditionalV2Server × Nat) :=
  match server.Send (infoMsg fr.Info) with
  | (some err, s1) => some (some err, s1, bytesWritten)
  | (none, s1) =>
    match s1.Recv with
    | (Except.error err, s2) => some (some err, s2, bytesWritten)
    | (Except.ok req, s2) =>
      if req.Skip then some (none, s2, bytesWritten)
      else
        match FileReader.Get fuel fr.writes fr.getErr
            (NewWriterSize { server := s2 } MaxMsgSize) with
        | none => none
        | some (some err, w1) => some (some err, w1.wr.server, bytesWritten + w1.wr.bytesWritten)
        | some (none, w1) =>
          match w1.Flush with
          | (some err, w2) => some (some err, w2.wr.server, bytesWritten + w2.wr.bytesWritten)
          | (none, w2) =>
            match w2.wr.server.Send eofMsg with
            | (err, s3) => some (err, s3, bytesWritten + w2.wr.bytesWritten)

/-- Modelled from the spec: `a.driver.getTarConditional`, of the driver, is not in the
sources. It calls the callback on every matching file, in order, stops at the first
error, and ends with its own error, if any. -/
def getTarConditional (MaxMsgSize : Nat) (fuel : Nat) :
    List FileReader → Option GoError → GetTarConditionalV2Server → Nat →
      Option (Option GoError × GetTarConditionalV2Server × Nat)
  | [], err, server, bytesWritten => some (err, server, bytesWritten)
  | fr :: frs, err, server, bytesWritten =>
    match conditionalCallback MaxMsgSize fuel fr server bytesWritten with
    | none => none
    | some (some err1, s1, n) => some (some err1, s1, n)
    | some (none, s1, n) => getTarConditional MaxMsgSize fuel frs err s1 n

/-- The method `apiServer.GetTarConditionalV2`: the byte count and the error that the
function given to `metrics.ReportRequestWithThroughput` returns, and the stream; `none`
when the fuel of a buffered write runs out. -/
def apiServer.GetTarConditionalV2 (a : apiServer) (fuel : Nat)
    (server : GetTarConditionalV2Server) :
    Option ((Nat × Option GoError) × GetTarConditionalV2Server) :=
  match server.Recv with
  | (Except.error err, s1) => some ((0, some err), s1)
  | (Except.ok request, s1) =>
    if !a.NewStorageLayer then some ((0, some disabled), s1)
    else
      match getTarConditional a.driver.MaxMsgSize fuel
          (a.driver.files request.File.Commit.Repo request.File.Commit.ID request.File.Path)
          a.driver.getTarConditionalErr s1 0 with
      | none => none
      | some (err, s2, bytesWritten) => some ((bytesWritten, err), s2)

/-- The content of a file: the concatenation of the slices `Get` writes. -/
def FileReader.content (fr : FileReader) : List Byte :=
  fr.writes.flatten

/-- The responses and byte total of the specification for the matching files and the
decisions of the caller (`true`: skip): per file its metadata, then, unless skipped, data
messages, none empty, that carry its whole content, and one end marker; the total counts
the fetched files only. -/
inductive Served : List FileReader → List Bool →
    List pfs.GetTarConditionalResponseV2 → Nat → Prop where
  | done : Served [] [] [] 0
  | skip (fr : FileReader) (frs : List FileReader) (skips : List Bool)
      (out : List pfs.GetTarConditionalResponseV2) (n : Nat) :
      Served frs skips out n → Served (fr :: frs) (true :: skips) (infoMsg fr.Info :: out) n
  | fetch (fr : FileReader) (frs : List FileReader) (skips : List Bool)
      (datas : List (List Byte)) (out : List pfs.GetTarConditionalResponseV2) (n : Nat) :
      datas.flatten = fr.content → (∀ d ∈ datas, d ≠ []) → Served frs skips out n →
      Served (fr :: frs) (false :: skips)
        (infoMsg fr.Info :: (datas.map dataMsg ++ eofMsg :: out)) (fr.content.length + n)

end pfsserver

namespace pfsserver

/-- Sum of the content sizes of the fetched files (`true`: skipped). -/
def fetchedTotal : List FileReader → List Bool → Nat
  | fr :: frs, false :: skips => fr.content.length + fetchedTotal frs skips
  | _ :: frs, true :: skips => fetchedTotal frs skips
  | _, _ => 0

/-- The writer is in its regular state: no sticky error, a transport that accepts every
send, a buffer within its size. -/
def bufioWriter.Good (b : bufioWriter) : Prop :=
  b.err = none ∧ b.wr.server.budget = none ∧ 1 ≤ b.size ∧ b.buf.length ≤ b.size

/-- The writer `b1` is the writer `b` after the data messages `datas` were sent. -/
def bufioWriter.Emits (b b1 : bufioWriter) (datas : List (List Byte)) : Prop :=
  b1.Good ∧ b1.size = b.size ∧
  b1.wr.server = { b.wr.server with sent := b.wr.server.sent ++ datas.map dataMsg } ∧
  b1.wr.bytesWritten = b.wr.bytesWritten + datas.flatten.length ∧
  (∀ d ∈ datas, d ≠ [])

/-- A server with the flag off. -/
def exDisabled : apiServer :=
  { NewStorageLayer := false }

/-- Three matching files of 3, 2 and 1 bytes, the first written in two slices. -/
def exFiles : List FileReader :=
  [{ Info := { Hash := "f1" }, writes := [[1, 2], [3]] },
   { Info := { Hash := "f2" }, writes := [[4, 5]] },
   { Info := { Hash := "f3" }, writes := [[6]] }]

/-- A server with the flag on, whose driver matches the three files and buffers two
bytes. -/
def exEnabled : apiServer :=
  { NewStorageLayer := true, driver := { files := fun _ _ _ => exFiles, MaxMsgSize := 2 } }

end pfsserver

namespace pfsserver

/-! ### Example messages of FileOperationV2 -/

/-- The message of a `PutTar` operation. -/
def wrapPut (req : pfs.PutTarRequestV2) : pfs.FileOperationRequestV2 :=
  { Operation := pfs.Operation.PutTar req }

/-- The message of a `DeleteFiles` operation. -/
def wrapDelete (req : pfs.DeleteFilesRequestV2) : pfs.FileOperationRequestV2 :=
  { Operation := pfs.Operation.DeleteFiles req }

/-- A message that deletes the file `f` under the tag `t`. -/
def exDeleteReq : pfs.FileOperationRequestV2 :=
  wrapDelete { Files := ["f"], Tag := "t" }

/-! ### Metadata and content messages of GetTarConditionalV2 -/

/-- The response is a metadata message: it carries a `FileInfo`. -/
def isInfo (m : pfs.GetTarConditionalResponseV2) : Bool :=
  m.FileInfo.isSome

/-- The response is a content message: no `FileInfo`, no end marker. -/
def isData (m : pfs.GetTarConditionalResponseV2) : Bool :=
  m.FileInfo.isNone && !m.EOF

/-- All metadata messages precede any content message: from the first content message
on, no message is a metadata message. -/
def metadataBeforeContent (out : List pfs.GetTarConditionalResponseV2) : Bool :=
  (out.dropWhile (fun m => !isData m)).all (fun m => !isInfo m)

end pfsserver

namespace pfsserver

/-! ### Complete sub-operations of FileOperationV2 -/

/-- A complete sub-operation on the stream of `FileOperationV2`: a put, made of an
initial `PutTar` message, continuation messages and a last message, or a delete. -/
inductive SubOp where
  | put (first : pfs.PutTarRequestV2) (conts : List pfs.PutTarRequestV2)
      (last : pfs.PutTarRequestV2)
  | delete (req : pfs.DeleteFilesRequestV2)
deriving DecidableEq, Repr

/-- The messages of a sub-operation, as they are on the wire. -/
def SubOp.msgs : SubOp → List pfs.FileOperationRequestV2
  | SubOp.put first conts last => wrapPut first :: (conts.map wrapPut ++ [wrapPut last])
  | SubOp.delete req => [wrapDelete req]

/-- The last message of a put carries the EOF flag, and the continuation messages carry
no EOF flag and some data. -/
def SubOp.WF : SubOp → Prop
  | SubOp.put _ conts last => (∀ c ∈ conts, c.EOF = false ∧ c.Data ≠ []) ∧ last.EOF = true
  | SubOp.delete _ => True

/-- The payload of a sub-operation: for a put, the `Data` of all its messages before the
EOF-flagged one, concatenated in order. -/
def SubOp.payload : SubOp → List Byte
  | SubOp.put first conts _ => first.Data ++ (conts.map (fun c => c.Data)).flatten
  | SubOp.delete _ => []

/-- The sub-operation applied to the file set: a put adds its payload under the tag of
the initial message, a delete removes its files. -/
def SubOp.apply (fs : FileSet) : SubOp → FileSet
  | SubOp.put first conts last =>
    { ops := fs.ops ++ [FsOp.put first.Tag (SubOp.put first conts last).payload] }
  | SubOp.delete req => deleteFiles fs req

/-- The reader `ptr` is in the middle of a put whose bytes still to be delivered are
`D`, and `tail` is what follows the EOF-flagged message on the stream. -/
def TarStreaming (tail : List pfs.FileOperationRequestV2) (D : List Byte)
    (ptr : putTarReader) : Prop :=
  ∃ (conts : List pfs.PutTarRequestV2) (last : pfs.PutTarRequestV2),
    (∀ c ∈ conts, c.EOF = false ∧ c.Data ≠ []) ∧ last.EOF = true ∧
    ptr.server.pending = conts.map wrapPut ++ wrapPut last :: tail ∧
    D = ptr.r ++ (conts.map (fun c => c.Data)).flatten

/-- Size of the messages on the stream: one per message plus the bytes of its data. -/
def msgsSize : List pfs.FileOperationRequestV2 → Nat
  | [] => 0
  | m :: rest =>
    (1 + match m.Operation with
      | pfs.Operation.PutTar put => put.Data.length
      | _ => 0) + msgsSize rest

/-- The stream `s1` is the stream `s` after some receives. -/
def RecvExt (s s1 : FileOperationV2Server) : Prop :=
  s1.recvErr = s.recvErr ∧ s1.closeErr = s.closeErr ∧ s1.sent = s.sent ∧
    s1.closes = s.closes

/-- A put of the bytes 1, 2 under the tag `t` whose second continuation message is
empty. -/
def exEmptyCont : List pfs.FileOperationRequestV2 :=
  [{}, wrapPut { Tag := "t", Data := [1] }, wrapPut { Data := [] },
    wrapPut { Data := [2] }, wrapPut { EOF := true }]

/-- A put of the bytes 1, 2, 3 under the tag `t`, a delete, and a put of the byte 4. -/
def exSubOps : List SubOp :=
  [SubOp.put { Tag := "t", Data := [1] } [{ Data := [2, 3] }] { EOF := true },
    SubOp.delete { Files := ["f"], Tag := "t" },
    SubOp.put { Tag := "u", Data := [] } [{ Data := [4] }] { EOF := true }]

end pfsserver

namespace admin

/-! ## Facts about the commit map -/

theorem mapGet_ofList (L : List pfs.CommitInfo) (k : String) :
    mapGet (ofList L) k = L.find? (fun c => c.Commit.ID == k) := by
  induction L with
  | nil => rfl
  | cons a L ih =>
    unfold mapGet ofList at *
    simp only [List.map_cons, List.lookup_cons, List.find?_cons]
    by_cases h : a.Commit.ID = k
    · subst h; simp
    · have h1 : (k == a.Commit.ID) = false := by
        simpa using fun e => h e.symm
      have h2 : (a.Commit.ID == k) = false := by simpa using h
      rw [h1, h2]; exact ih

theorem mapDelete_ofList (L : List pfs.CommitInfo) (k : String) :
    mapDelete (ofList L) k = ofList (L.filter (fun c => c.Commit.ID != k)) := by
  unfold mapDelete ofList
  rw [List.filter_map]
  rfl

theorem buildMap_ofList_aux (cis pre : List pfs.CommitInfo)
    (h : DistinctIDs (pre ++ cis)) :
    cis.foldl (fun m ci => mapSet m ci.Commit.ID ci) (ofList pre) = ofList (pre ++ cis) := by
  induction cis generalizing pre with
  | nil => simp
  | cons a cis ih =>
    have h1 : DistinctIDs ((pre ++ [a]) ++ cis) := by simpa using h
    have hstep : mapSet (ofList pre) a.Commit.ID a = ofList (pre ++ [a]) := by
      unfold mapSet
      have hd := mapDelete_ofList pre a.Commit.ID
      unfold mapDelete at hd
      rw [hd]
      have hf : pre.filter (fun c => c.Commit.ID != a.Commit.ID) = pre := by
        rw [List.filter_eq_self]
        intro x hx
        have hnd : (pre.map (fun c => c.Commit.ID) ++
            (a.Commit.ID :: cis.map (fun c => c.Commit.ID))).Nodup := by
          simpa [DistinctIDs] using h
        have := (List.nodup_append.1 hnd).2.2
        have hne : x.Commit.ID ≠ a.Commit.ID := by
          intro e
          exact this (List.mem_map_of_mem _ hx) (e ▸ List.mem_cons_self _ _)
        simpa using hne
      rw [hf]; simp [ofList]
    rw [List.foldl_cons, hstep, ih _ h1]
    simp

theorem buildMap_ofList (cis : List pfs.CommitInfo) (h : DistinctIDs cis) :
    buildMap cis = ofList cis := by
  have := buildMap_ofList_aux cis [] (by simpa using h)
  simpa [buildMap, ofList] using this

end admin

namespace admin

/-! ## The walk of one chain -/

theorem walk_none (fuel : Nat) (m : CommitMap) (acc : List pfs.CommitInfo) :
    walk fuel m none acc = some (acc, m) := by
  cases fuel <;> rfl

theorem perm_cons_filter_of_mem (L : List pfs.CommitInfo) (c : pfs.CommitInfo)
    (hnd : DistinctIDs L) (hc : c ∈ L) :
    List.Perm (c :: L.filter (fun x => x.Commit.ID != c.Commit.ID)) L := by
  induction L with
  | nil => cases hc
  | cons a L ih =>
    have hnd1 : a.Commit.ID ∉ L.map (fun c => c.Commit.ID) ∧ DistinctIDs L := by
      simpa [DistinctIDs] using hnd
    rcases List.mem_cons.1 hc with rfl | hc1
    · have hf : L.filter (fun x => x.Commit.ID != c.Commit.ID) = L := by
        rw [List.filter_eq_self]
        intro x hx
        have : x.Commit.ID ≠ c.Commit.ID := fun e =>
          hnd1.1 (e ▸ List.mem_map_of_mem _ hx)
        simpa using this
      simp [List.filter_cons, hf]
    · have hne : a.Commit.ID ≠ c.Commit.ID := fun e =>
        hnd1.1 (e ▸ List.mem_map_of_mem _ hc1)
      have hb : (a.Commit.ID != c.Commit.ID) = true := by simpa using hne
      rw [List.filter_cons, hb]
      simp only [if_true]
      exact (List.Perm.swap a c _).trans ((ih hnd1.2 hc1).cons a)

theorem distinctIDs_of_sublist {L1 L : List pfs.CommitInfo} (h : List.Sublist L1 L)
    (hnd : DistinctIDs L) : DistinctIDs L1 :=
  List.Nodup.sublist (h.map _) hnd

theorem eq_of_id_eq {L : List pfs.CommitInfo} (hnd : DistinctIDs L) {a b : pfs.CommitInfo}
    (ha : a ∈ L) (hb : b ∈ L) (h : a.Commit.ID = b.Commit.ID) : a = b :=
  List.inj_on_of_nodup_map hnd ha hb h

/-- The walk from a commit of the map: it terminates within `L.length` steps, removes
exactly the commits of the chain from the map, every commit of the chain is followed
by its parent, and the parent of the last one is no longer in the map. -/
theorem walk_spec (fuel : Nat) : ∀ (L : List pfs.CommitInfo) (c : pfs.CommitInfo)
    (acc : List pfs.CommitInfo), DistinctIDs L → c ∈ L → L.length ≤ fuel →
    ∃ chain L1, walk fuel (ofList L) (some c) acc = some (acc ++ c :: chain, ofList L1) ∧
      List.Perm (c :: chain ++ L1) L ∧ List.Sublist L1 L ∧ List.Chain Link c chain ∧
      (∀ pc, ((c :: chain).getLast (List.cons_ne_nil _ _)).ParentCommit = some pc →
        ∀ p ∈ L1, p.Commit.ID ≠ pc.ID) := by
  induction fuel with
  | zero =>
    intro L c acc _ hc hlen
    have : L = [] := List.eq_nil_of_length_eq_zero (Nat.le_zero.1 hlen)
    subst this; cases hc
  | succ fuel ih =>
    intro L c acc hnd hc hlen
    have hperm := perm_cons_filter_of_mem L c hnd hc
    have hsub : List.Sublist (L.filter (fun x => x.Commit.ID != c.Commit.ID)) L :=
      List.filter_sublist _
    have hnd1 := distinctIDs_of_sublist hsub hnd
    have hlen1 : (L.filter (fun x => x.Commit.ID != c.Commit.ID)).length ≤ fuel := by
      have := hperm.length_eq
      simp only [List.length_cons] at this
      omega
    rw [walk, mapDelete_ofList]
    cases hp : c.ParentCommit with
    | none =>
      refine ⟨[], _, ?_, ?_, hsub, List.Chain.nil, ?_⟩
      · simp [walk_none]
      · simpa using hperm
      · intro pc h; simp [hp] at h
    | some pc =>
      simp only [mapGet_ofList]
      cases hf : (L.filter (fun x => x.Commit.ID != c.Commit.ID)).find?
          (fun x => x.Commit.ID == pc.ID) with
      | none =>
        refine ⟨[], _, ?_, ?_, hsub, List.Chain.nil, ?_⟩
        · simp [walk_none]
        · simpa using hperm
        · intro pc1 h p hpm
          simp only [List.getLast_singleton, hp, Option.some.injEq] at h
          subst h
          have := List.find?_eq_none.1 hf p hpm
          simpa using this
      | some c1 =>
        have hc1 : c1 ∈ L.filter (fun x => x.Commit.ID != c.Commit.ID) :=
          List.mem_of_find?_eq_some hf
        have hid : c1.Commit.ID = pc.ID := by
          have := List.find?_some hf
          simpa using this
        obtain ⟨chain, L1, hw, hp1, hs1, hch, hlast⟩ := ih _ c1 (acc ++ [c]) hnd1 hc1 hlen1
        refine ⟨c1 :: chain, L1, ?_, ?_, hs1.trans hsub, ?_, ?_⟩
        · rw [hw]; simp
        · exact ((hp1.cons c).trans hperm)
        · exact List.Chain.cons ⟨pc, hp, hid.symm⟩ hch
        · intro pc1 h
          rw [List.getLast_cons (List.cons_ne_nil _ _)] at h
          exact hlast pc1 h

end admin

namespace admin

/-! ## Chains of parent links -/

theorem chain_last_or_link {R : pfs.CommitInfo → pfs.CommitInfo → Prop} :
    ∀ (l : List pfs.CommitInfo) (a x : pfs.CommitInfo), List.Chain R a l → x ∈ a :: l →
      x = (a :: l).getLast (List.cons_ne_nil _ _) ∨ ∃ y ∈ l, R x y := by
  intro l
  induction l with
  | nil =>
    intro a x _ hx
    left; simpa using hx
  | cons b l ih =>
    intro a x hch hx
    rcases List.chain_cons.1 hch with ⟨hab, hrest⟩
    rcases List.mem_cons.1 hx with rfl | hx1
    · right; exact ⟨b, List.mem_cons_self _ _, hab⟩
    · rcases ih b x hrest hx1 with h | ⟨y, hy, hxy⟩
      · left; rw [List.getLast_cons (List.cons_ne_nil _ _)]; exact h
      · right; exact ⟨y, List.mem_cons_of_mem _ hy, hxy⟩

theorem chain_reaches_last {R : pfs.CommitInfo → pfs.CommitInfo → Prop} :
    ∀ (l : List pfs.CommitInfo) (a x : pfs.CommitInfo), List.Chain R a l → x ∈ a :: l →
      Relation.ReflTransGen R x ((a :: l).getLast (List.cons_ne_nil _ _)) := by
  intro l
  induction l with
  | nil =>
    intro a x _ hx
    have : x = a := by simpa using hx
    subst this; exact Relation.ReflTransGen.refl
  | cons b l ih =>
    intro a x hch hx
    rcases List.chain_cons.1 hch with ⟨hab, hrest⟩
    rw [List.getLast_cons (List.cons_ne_nil _ _)]
    rcases List.mem_cons.1 hx with rfl | hx1
    · exact Relation.ReflTransGen.head hab (ih b b hrest (List.mem_cons_self _ _))
    · exact ih b x hrest hx1

theorem chain_parentLink (cis : List pfs.CommitInfo) :
    ∀ (l : List pfs.CommitInfo) (a : pfs.CommitInfo), List.Chain Link a l →
      (∀ x ∈ a :: l, x ∈ cis) → List.Chain (ParentLink cis) a l := by
  intro l
  induction l with
  | nil => intro a _ _; exact List.Chain.nil
  | cons b l ih =>
    intro a hch hmem
    rcases List.chain_cons.1 hch with ⟨hab, hrest⟩
    refine List.Chain.cons ⟨hmem a (List.mem_cons_self _ _),
      hmem b (List.mem_cons_of_mem _ (List.mem_cons_self _ _)), hab⟩ ?_
    exact ih b hrest (fun x hx => hmem x (List.mem_cons_of_mem _ hx))

theorem parentsFirst_append (cis : List pfs.CommitInfo) :
    ∀ (a pre b : List pfs.CommitInfo),
      ParentsFirst cis pre (a ++ b) ↔
        ParentsFirst cis pre a ∧ ParentsFirst cis (pre ++ a) b := by
  intro a
  induction a with
  | nil => intro pre b; simp [ParentsFirst]
  | cons x a ih =>
    intro pre b
    have e : pre ++ x :: a = pre ++ [x] ++ a := by simp
    show ((∀ p, ParentLink cis x p → p ∈ pre) ∧ ParentsFirst cis (pre ++ [x]) (a ++ b)) ↔
      ((∀ p, ParentLink cis x p → p ∈ pre) ∧ ParentsFirst cis (pre ++ [x]) a) ∧
        ParentsFirst cis (pre ++ x :: a) b
    rw [ih, e, and_assoc]

/-- A walked chain, reversed, puts every parent first, provided the parents of its last
commit are already emitted. -/
theorem parentsFirst_reverse_chain (cis result : List pfs.CommitInfo)
    (hnd : DistinctIDs cis) :
    ∀ (chain : List pfs.CommitInfo) (c : pfs.CommitInfo), List.Chain Link c chain →
      (∀ x ∈ c :: chain, x ∈ cis) →
      (∀ p, ParentLink cis ((c :: chain).getLast (List.cons_ne_nil _ _)) p → p ∈ result) →
      ParentsFirst cis result (c :: chain).reverse := by
  intro chain
  induction chain with
  | nil =>
    intro c _ _ hlast
    simpa [ParentsFirst] using hlast
  | cons c1 chain ih =>
    intro c hch hmem hlast
    rcases List.chain_cons.1 hch with ⟨hab, hrest⟩
    rw [List.reverse_cons, parentsFirst_append]
    refine ⟨ih c1 hrest (fun x hx => hmem x (List.mem_cons_of_mem _ hx)) ?_, ?_⟩
    · intro p hp
      apply hlast
      rw [List.getLast_cons (List.cons_ne_nil _ _)]
      exact hp
    · simp only [ParentsFirst, and_true]
      intro p hp
      obtain ⟨_, hpc, pc, hpar, hid⟩ := hp
      obtain ⟨pc1, hpar1, hid1⟩ := hab
      have hpc1 : pc = pc1 := by
        rw [hpar] at hpar1; exact Option.some.inj hpar1
      subst hpc1
      have hc1 : c1 ∈ cis := hmem c1 (List.mem_cons_of_mem _ (List.mem_cons_self _ _))
      have : p = c1 := eq_of_id_eq hnd hpc hc1 (by rw [← hid, hid1])
      subst this
      simp

end admin

namespace admin

/-! ## The outer loop -/

theorem sublist_of_sublist_cons_not_mem {L rest : List pfs.CommitInfo} {a : pfs.CommitInfo}
    (h : List.Sublist L (a :: rest)) (ha : a ∉ L) : List.Sublist L rest := by
  cases h with
  | cons _ h1 => exact h1
  | cons₂ _ h1 => exact absurd (List.mem_cons_self _ _) ha

/-- The outer loop of `sortCommitInfos` started on a map that holds the commits `L`, all
of them still to be visited: it emits exactly `L`, as the concatenation of the walked
chains; a commit without a parent in `cis` heads its chain, and with acyclic links every
parent comes first. -/
theorem sortLoop_spec (cis : List pfs.CommitInfo) (hnd : DistinctIDs cis) (fuel : Nat) :
    ∀ (rest L result : List pfs.CommitInfo) (chains : List (List pfs.CommitInfo)),
      DistinctIDs rest → List.Sublist L rest → L.length ≤ fuel → (∀ x ∈ rest, x ∈ cis) →
      List.Perm (result ++ L) cis →
      ∃ out chs, sortLoop fuel rest (ofList L) result = some (result ++ out) ∧
        sortLoopChains fuel rest (ofList L) chains = some (chains ++ chs) ∧
        chs.flatten = out ∧ List.Perm out L ∧
        (∀ c ∈ L, (∀ p ∈ cis, ¬ Link c p) → ∃ ch ∈ chs, ch.head? = some c) ∧
        (Acyclic cis → ParentsFirst cis result out) := by
  intro rest
  induction rest with
  | nil =>
    intro L result chains _ hsub _ _ _
    have hL : L = [] := List.sublist_nil.1 hsub
    subst hL
    exact ⟨[], [], by simp [sortLoop], by simp [sortLoopChains], rfl, List.Perm.refl _,
      by simp, fun _ => trivial⟩
  | cons ci rest ih =>
    intro L result chains hndr hsub hlen hmem hperm
    have hndr1 : DistinctIDs rest := by
      have : ci.Commit.ID ∉ rest.map (fun c => c.Commit.ID) ∧ DistinctIDs rest := by
        simpa [DistinctIDs] using hndr
      exact this.2
    have hmem1 : ∀ x ∈ rest, x ∈ cis := fun x hx => hmem x (List.mem_cons_of_mem _ hx)
    rw [sortLoop, sortLoopChains, mapGet_ofList]
    cases hf : L.find? (fun c => c.Commit.ID == ci.Commit.ID) with
    | none =>
      have hci : ci ∉ L := by
        intro h
        have := List.find?_eq_none.1 hf ci h
        simp at this
      exact ih L result chains hndr1 (sublist_of_sublist_cons_not_mem hsub hci) hlen hmem1
        hperm
    | some v =>
      have hv : v ∈ L := List.mem_of_find?_eq_some hf
      have hvid : v.Commit.ID = ci.Commit.ID := by
        have := List.find?_some hf
        simpa using this
      have hvci : v = ci :=
        eq_of_id_eq hndr (hsub.subset hv) (List.mem_cons_self _ _) hvid
      subst hvci
      have hndL : DistinctIDs L := distinctIDs_of_sublist hsub hndr
      obtain ⟨chain, L1, hw, hp1, hs1, hch, hlast⟩ := walk_spec fuel L v [] hndL hv hlen
      have hLnd : L.Nodup := List.Nodup.of_map _ hndL
      have hnd2 : (v :: chain ++ L1).Nodup := hp1.nodup_iff.2 hLnd
      have hvL1 : v ∉ L1 := by
        intro h
        have h2 : v ∉ chain ++ L1 := (List.nodup_cons.1 hnd2).1
        exact h2 (List.mem_append_right _ h)
      have hsub1 : List.Sublist L1 rest :=
        sublist_of_sublist_cons_not_mem (hs1.trans hsub) hvL1
      have hlen1 : L1.length ≤ fuel := le_trans hs1.length_le hlen
      have hperm1 : List.Perm ((result ++ (v :: chain).reverse) ++ L1) cis := by
        refine List.Perm.trans ?_ hperm
        rw [List.append_assoc]
        refine List.Perm.append_left _ ?_
        exact ((List.reverse_perm _).append_right _).trans hp1
      obtain ⟨out1, chs1, ho, hc, hj, hpo, hroot, hpf⟩ :=
        ih L1 (result ++ (v :: chain).reverse) (chains ++ [(v :: chain).reverse])
          hndr1 hsub1 hlen1 hmem1 hperm1
      have hchmem : ∀ x ∈ v :: chain, x ∈ cis := by
        intro x hx
        have hxL : x ∈ L := hp1.subset (List.mem_append_left _ hx)
        exact hmem x (hsub.subset hxL)
      refine ⟨(v :: chain).reverse ++ out1, (v :: chain).reverse :: chs1, ?_, ?_, ?_, ?_,
        ?_, ?_⟩
      · simp only [hw, List.nil_append]
        rw [ho, List.append_assoc]
      · simp only [hw, List.nil_append]
        rw [hc]; simp
      · simp [hj]
      · exact (((List.reverse_perm _).append hpo)).trans hp1
      · intro c hcL hno
        have hc2 : c ∈ v :: chain ++ L1 := hp1.symm.subset hcL
        rcases List.mem_append.1 hc2 with h1 | h1
        · rcases chain_last_or_link chain v c hch h1 with h2 | ⟨y, hy, hxy⟩
          · refine ⟨(v :: chain).reverse, List.mem_cons_self _ _, ?_⟩
            rw [List.head?_reverse, List.getLast?_eq_getLast _ (List.cons_ne_nil _ _), h2]
          · exact absurd hxy (hno y (hchmem y (List.mem_cons_of_mem _ hy)))
        · obtain ⟨ch, hch1, hh⟩ := hroot c h1 hno
          exact ⟨ch, List.mem_cons_of_mem _ hch1, hh⟩
      · intro hac
        rw [parentsFirst_append]
        refine ⟨?_, hpf hac⟩
        apply parentsFirst_reverse_chain cis result hnd chain v hch hchmem
        intro p hp
        have hpcis : p ∈ cis := hp.2.1
        obtain ⟨pc, hpar, hid⟩ := hp.2.2
        rcases List.mem_append.1 (hperm.symm.subset hpcis) with h1 | h1
        · exact h1
        · exfalso
          rcases List.mem_append.1 (hp1.symm.subset h1) with h2 | h2
          · have hreach := chain_reaches_last chain v p
              (chain_parentLink cis chain v hch hchmem) h2
            exact hac p (Relation.TransGen.tail' hreach hp)
          · exact hlast pc hpar p h2 hid.symm

end admin

namespace admin

/-! ## Fuel -/

theorem walk_mono (fuel : Nat) : ∀ (m : CommitMap) (cur : Option pfs.CommitInfo)
    (acc : List pfs.CommitInfo) (r : List pfs.CommitInfo × CommitMap),
    walk fuel m cur acc = some r → ∀ k, walk (fuel + k) m cur acc = some r := by
  induction fuel with
  | zero =>
    intro m cur acc r h k
    cases cur with
    | none => rw [walk_none] at h ⊢; exact h
    | some c => simp [walk] at h
  | succ fuel ih =>
    intro m cur acc r h k
    cases cur with
    | none => rw [walk_none] at h ⊢; exact h
    | some c =>
      rw [show fuel + 1 + k = (fuel + k) + 1 by omega]
      rw [walk] at h ⊢
      exact ih _ _ _ _ h k

theorem sortLoop_mono (fuel k : Nat) : ∀ (rest : List pfs.CommitInfo) (m : CommitMap)
    (result out : List pfs.CommitInfo),
    sortLoop fuel rest m result = some out → sortLoop (fuel + k) rest m result = some out := by
  intro rest
  induction rest with
  | nil => intro m result out h; simpa [sortLoop] using h
  | cons ci rest ih =>
    intro m result out h
    rw [sortLoop] at h ⊢
    cases hg : mapGet m ci.Commit.ID with
    | none => rw [hg] at h; exact ih _ _ _ h
    | some v =>
      rw [hg] at h
      simp only at h ⊢
      cases hw : walk fuel m (some ci) [] with
      | none => rw [hw] at h; simp at h
      | some r =>
        rw [hw] at h
        rw [walk_mono fuel m (some ci) [] r hw k]
        exact ih _ _ _ h

/-- With pairwise distinct IDs, no walk of `sortCommitInfos` is longer than the number of
commits: every larger bound gives the same result. -/
theorem sortCommitInfosFuel_length (cis : List pfs.CommitInfo) (hnd : DistinctIDs cis)
    (fuel : Nat) (hfuel : cis.length ≤ fuel) :
    sortCommitInfosFuel fuel cis = some (sortCommitInfos cis) := by
  obtain ⟨out, chs, ho, -⟩ := sortLoop_spec cis hnd cis.length cis cis [] [] hnd
    (List.Sublist.refl _) (le_refl _) (fun _ h => h) (by simp)
  have h0 : sortCommitInfosFuel cis.length cis = some out := by
    rw [sortCommitInfosFuel, buildMap_ofList cis hnd, ho]; simp
  have h1 : sortCommitInfos cis = out := by
    rw [sortCommitInfos, h0]; rfl
  rw [h1]
  obtain ⟨k, rfl⟩ := Nat.exists_eq_add_of_le hfuel
  exact sortLoop_mono _ k _ _ _ _ h0

theorem acyclic_of_rank (cis : List pfs.CommitInfo) (rank : pfs.CommitInfo → Nat)
    (h : ∀ c p, ParentLink cis c p → rank p < rank c) : Acyclic cis := by
  intro c hc
  have key : ∀ a b, Relation.TransGen (ParentLink cis) a b → rank b < rank a := by
    intro a b hab
    induction hab with
    | single h1 => exact h _ _ h1
    | tail _ h2 ih => exact lt_trans (h _ _ h2) ih
  exact lt_irrefl _ (key c c hc)

end admin

namespace admin

theorem exChain_acyclic : Acyclic exChain := by
  apply acyclic_of_rank exChain (fun c =>
    if c.Commit.ID = "a" then 0 else if c.Commit.ID = "b" then 1 else 2)
  intro c p h
  obtain ⟨hc, hp, pc, hpar, hid⟩ := h
  simp only [exChain, List.mem_cons, List.mem_singleton, List.not_mem_nil, or_false] at hc hp
  rcases hc with rfl | rfl | rfl <;> rcases hp with rfl | rfl | rfl <;>
    simp_all [mkCommit] <;> subst hpar <;> simp_all

/-- C1. For commits with pairwise distinct IDs and acyclic parent links,
`sortCommitInfos` returns (every walk ends within the number of commits) a sequence in
which the parent of a commit, when it is a commit of the input, stands at a strictly
earlier position than the commit; this covers a root commit, which stands before every
commit that names it as parent. -/
theorem sortCommitInfos_parent_before_child (cis : List pfs.CommitInfo)
    (hnd : DistinctIDs cis) (hac : Acyclic cis) (fuel : Nat) (hfuel : cis.length ≤ fuel) :
    sortCommitInfosFuel fuel cis = some (sortCommitInfos cis) ∧
    ∀ c ∈ cis, ∀ p ∈ cis, ∀ pc, c.ParentCommit = some pc → pc.ID = p.Commit.ID →
      ∃ l1 l2 l3, sortCommitInfos cis = l1 ++ p :: (l2 ++ c :: l3) := by
  refine ⟨sortCommitInfosFuel_length cis hnd fuel hfuel, ?_⟩
  obtain ⟨out, chs, ho, -, -, hperm, -, hpf⟩ := sortLoop_spec cis hnd cis.length cis cis [] []
    hnd (List.Sublist.refl _) (le_refl _) (fun _ h => h) (by simp)
  have h0 : sortCommitInfos cis = out := by
    rw [sortCommitInfos, sortCommitInfosFuel, buildMap_ofList cis hnd, ho]; rfl
  rw [h0]
  intro c hc p hp pc hpar hid
  obtain ⟨l1, l3, hsplit⟩ := List.append_of_mem (hperm.symm.subset hc)
  have hpf1 := hpf hac
  rw [hsplit, parentsFirst_append] at hpf1
  have hpl : p ∈ l1 := by
    have := hpf1.2.1 p ⟨hc, hp, pc, hpar, hid⟩
    simpa using this
  obtain ⟨l0, l2, hsplit1⟩ := List.append_of_mem hpl
  exact ⟨l0, l2, l3, by rw [hsplit, hsplit1]; simp⟩

/-- Witness of C1 on the chain a ← b ← c listed as c, a, b. -/
theorem sortCommitInfos_parent_before_child_witness :
    sortCommitInfosFuel 3 exChain = some (sortCommitInfos exChain) ∧
    ∀ c ∈ exChain, ∀ p ∈ exChain, ∀ pc, c.ParentCommit = some pc → pc.ID = p.Commit.ID →
      ∃ l1 l2 l3, sortCommitInfos exChain = l1 ++ p :: (l2 ++ c :: l3) :=
  sortCommitInfos_parent_before_child exChain (by unfold DistinctIDs; decide) exChain_acyclic 3
    (by decide)

/-- C6. For commits with pairwise distinct IDs, whatever the parent links,
`sortCommitInfos` terminates (every walk ends within the number of commits) and its
output is a permutation of its input; the output is the concatenation of the walked
chains, and a commit whose parent ID is the ID of no commit of the input is the first
element of one of these chains. -/
theorem sortCommitInfos_perm (cis : List pfs.CommitInfo) (hnd : DistinctIDs cis)
    (fuel : Nat) (hfuel : cis.length ≤ fuel) :
    sortCommitInfosFuel fuel cis = some (sortCommitInfos cis) ∧
    List.Perm (sortCommitInfos cis) cis ∧
    ∃ chains, sortCommitChains fuel cis = some chains ∧
      chains.flatten = sortCommitInfos cis ∧
      ∀ c ∈ cis, ∀ pc, c.ParentCommit = some pc → (∀ p ∈ cis, p.Commit.ID ≠ pc.ID) →
        ∃ ch ∈ chains, ch.head? = some c := by
  have hterm := sortCommitInfosFuel_length cis hnd fuel hfuel
  refine ⟨hterm, ?_⟩
  obtain ⟨out, chs, ho, hc, hj, hperm, hroot, -⟩ := sortLoop_spec cis hnd fuel cis cis [] []
    hnd (List.Sublist.refl _) hfuel (fun _ h => h) (by simp)
  have h0 : sortCommitInfos cis = out := by
    have : sortCommitInfosFuel fuel cis = some out := by
      rw [sortCommitInfosFuel, buildMap_ofList cis hnd, ho]; simp
    rw [hterm] at this
    exact Option.some.inj this
  rw [h0]
  refine ⟨hperm, chs, ?_, hj, ?_⟩
  · rw [sortCommitChains, buildMap_ofList cis hnd, hc]; simp
  · intro c hcm pc hpar hno
    apply hroot c hcm
    intro p hp hl
    obtain ⟨pc1, hpar1, hid⟩ := hl
    rw [hpar] at hpar1
    have : pc = pc1 := Option.some.inj hpar1
    subst this
    exact hno p hp hid.symm

/-- Witness of C6 on a list with a dangling parent reference. -/
theorem sortCommitInfos_perm_witness :
    sortCommitInfosFuel 2 exDangling = some (sortCommitInfos exDangling) ∧
    List.Perm (sortCommitInfos exDangling) exDangling ∧
    ∃ chains, sortCommitChains 2 exDangling = some chains ∧
      chains.flatten = sortCommitInfos exDangling ∧
      ∀ c ∈ exDangling, ∀ pc, c.ParentCommit = some pc →
        (∀ p ∈ exDangling, p.Commit.ID ≠ pc.ID) → ∃ ch ∈ chains, ch.head? = some c :=
  sortCommitInfos_perm exDangling (by unfold DistinctIDs; decide) 2 (by decide)

end admin

namespace admin

/-! ## Termination of sortCommitInfos on an arbitrary list -/

theorem mapDelete_length_lt (m : CommitMap) (k : String) (v : pfs.CommitInfo)
    (h : mapGet m k = some v) : (mapDelete m k).length < m.length := by
  unfold mapGet at h
  obtain ⟨l1, l2, hm, -⟩ := List.lookup_eq_some_iff.1 h
  unfold mapDelete
  rw [List.length_filter_lt_length_iff_exists]
  exact ⟨(k, v), by rw [hm]; simp, by simp⟩

theorem mapGet_mem (m : CommitMap) (k : String) (v : pfs.CommitInfo)
    (h : mapGet m k = some v) : (k, v) ∈ m := by
  unfold mapGet at h
  obtain ⟨l1, l2, hm, -⟩ := List.lookup_eq_some_iff.1 h
  rw [hm]; simp

theorem mapGet_of_mem (m : CommitMap) (k : String) (v : pfs.CommitInfo)
    (h : (k, v) ∈ m) : ∃ v1, mapGet m k = some v1 := by
  unfold mapGet
  cases hl : List.lookup k m with
  | some v1 => exact ⟨v1, rfl⟩
  | none =>
    have := List.lookup_eq_none_iff.1 hl (k, v) h
    simp at this

/-- The inner loop ends within as many steps as the map has entries, whenever the
commit it starts from is in the map and every entry is stored under its own ID. -/
theorem walk_terminates (fuel : Nat) : ∀ (m : CommitMap) (c : pfs.CommitInfo)
    (acc : List pfs.CommitInfo), (∀ e ∈ m, e.1 = e.2.Commit.ID) →
    (∃ v, mapGet m c.Commit.ID = some v) → m.length ≤ fuel →
    ∃ r, walk fuel m (some c) acc = some r ∧ (∀ e ∈ r.2, e.1 = e.2.Commit.ID) ∧
      r.2.length ≤ m.length := by
  induction fuel with
  | zero =>
    intro m c acc _ hin hlen
    obtain ⟨v, hv⟩ := hin
    have := mapDelete_length_lt m _ v hv
    omega
  | succ fuel ih =>
    intro m c acc hwf hin hlen
    obtain ⟨v, hv⟩ := hin
    have hlt := mapDelete_length_lt m _ v hv
    have hwf1 : ∀ e ∈ mapDelete m c.Commit.ID, e.1 = e.2.Commit.ID := by
      intro e he
      exact hwf e (List.mem_of_mem_filter he)
    rw [walk]
    cases hp : c.ParentCommit with
    | none =>
      simp only [walk_none]
      exact ⟨_, rfl, hwf1, by simp only; omega⟩
    | some pc =>
      simp only
      cases hg : mapGet (mapDelete m c.Commit.ID) pc.ID with
      | none =>
        simp only [walk_none]
        exact ⟨_, rfl, hwf1, by simp only; omega⟩
      | some c1 =>
        have hid : pc.ID = c1.Commit.ID := hwf1 _ (mapGet_mem _ _ _ hg)
        obtain ⟨r, h1, h2, h3⟩ := ih (mapDelete m c.Commit.ID) c1 (acc ++ [c]) hwf1
          ⟨c1, by rw [← hid]; exact hg⟩ (by omega)
        exact ⟨r, h1, h2, by omega⟩

theorem sortLoop_terminates (fuel : Nat) : ∀ (rest : List pfs.CommitInfo) (m : CommitMap)
    (result : List pfs.CommitInfo), (∀ e ∈ m, e.1 = e.2.Commit.ID) → m.length ≤ fuel →
    ∃ out, sortLoop fuel rest m result = some out := by
  intro rest
  induction rest with
  | nil => intro m result _ _; exact ⟨result, rfl⟩
  | cons ci rest ih =>
    intro m result hwf hlen
    rw [sortLoop]
    cases hg : mapGet m ci.Commit.ID with
    | none => exact ih m result hwf hlen
    | some v =>
      obtain ⟨r, h1, h2, h3⟩ := walk_terminates fuel m ci [] hwf ⟨v, hg⟩ hlen
      simp only [h1]
      exact ih r.2 _ h2 (by omega)

theorem buildMap_wf_aux : ∀ (cis : List pfs.CommitInfo) (m : CommitMap),
    (∀ e ∈ m, e.1 = e.2.Commit.ID) →
    (∀ e ∈ cis.foldl (fun m ci => mapSet m ci.Commit.ID ci) m, e.1 = e.2.Commit.ID) ∧
    (cis.foldl (fun m ci => mapSet m ci.Commit.ID ci) m).length ≤ m.length + cis.length := by
  intro cis
  induction cis with
  | nil => intro m h; exact ⟨h, by simp⟩
  | cons a cis ih =>
    intro m h
    have hwf : ∀ e ∈ mapSet m a.Commit.ID a, e.1 = e.2.Commit.ID := by
      intro e he
      unfold mapSet at he
      rcases List.mem_append.1 he with h1 | h1
      · exact h e (List.mem_of_mem_filter h1)
      · simp only [List.mem_singleton] at h1
        rw [h1]
    have hlen : (mapSet m a.Commit.ID a).length ≤ m.length + 1 := by
      unfold mapSet
      simp only [List.length_append, List.length_singleton]
      have := List.length_filter_le (fun e : String × pfs.CommitInfo => e.1 != a.Commit.ID) m
      omega
    obtain ⟨h1, h2⟩ := ih (mapSet m a.Commit.ID a) hwf
    refine ⟨h1, ?_⟩
    simp only [List.foldl_cons, List.length_cons]
    omega

/-- The function `sortCommitInfos` terminates on every list, distinct IDs or not: no
walk is longer than the number of commits, and every larger bound gives the same
result. -/
theorem sortCommitInfosFuel_total (cis : List pfs.CommitInfo) (fuel : Nat)
    (hfuel : cis.length ≤ fuel) :
    sortCommitInfosFuel fuel cis = some (sortCommitInfos cis) := by
  obtain ⟨hwf, hlen⟩ := buildMap_wf_aux cis [] (by intro e he; cases he)
  obtain ⟨out, h0⟩ := sortLoop_terminates cis.length cis (buildMap cis) [] hwf
    (by simpa [buildMap] using hlen)
  have h1 : sortCommitInfos cis = out := by
    rw [sortCommitInfos, sortCommitInfosFuel, h0]; rfl
  rw [h1]
  obtain ⟨k, rfl⟩ := Nat.exists_eq_add_of_le hfuel
  exact sortLoop_mono _ k _ _ _ _ h0

end admin

namespace admin

/-! ## extractObjectWriter.Write -/

theorem lt_ceil_iff (cs len i : Nat) (hcs : 1 ≤ cs) :
    i * cs < len ↔ i < (len + cs - 1) / cs := by
  rw [Nat.lt_iff_add_one_le, Nat.lt_iff_add_one_le, Nat.le_div_iff_mul_le (by omega),
    Nat.add_mul]
  omega

theorem value_eq_chunkAt (cs : Nat) (p : List Byte) (i : Nat) :
    (if (p.drop (i * cs)).length > cs then (p.drop (i * cs)).take cs else p.drop (i * cs))
      = chunkAt cs p i := by
  unfold chunkAt
  split
  · rfl
  · rename_i h
    exact (List.take_of_length_le (by omega)).symm

theorem chunksFrom_succ (cs : Nat) (p : List Byte) (i k : Nat) :
    chunksFrom cs p i (k + 1) = chunkAt cs p i :: chunksFrom cs p (i + 1) k := by
  simp [chunksFrom, List.range'_succ]

theorem chunkList_eq (cs : Nat) (p : List Byte) :
    chunkList cs p = chunksFrom cs p 0 ((p.length + cs - 1) / cs) := by
  simp [chunkList, chunksFrom, List.range_eq_range']

/-- The loop of `Write` from chunk `i` on, `k` chunks remaining: it sends the chunks in
order until the transport refuses one, and counts the bytes sent. -/
theorem writeLoop_spec (cs : Nat) (p : List Byte) (hcs : 1 ≤ cs) :
    ∀ (k fuel i n : Nat) (w : ExtractServer),
      i + k = (p.length + cs - 1) / cs → k + 1 ≤ fuel →
      writeLoop cs p fuel i n w =
        some ((n + (chunksFrom cs p i (sentCount w.budget k)).flatten.length,
                if sentCount w.budget k < k then some w.sendErr else none),
              { w with
                sent := w.sent ++ (chunksFrom cs p i (sentCount w.budget k)).map objectOp,
                budget := w.budget.map (fun b => b - sentCount w.budget k) }) := by
  intro k
  induction k with
  | zero =>
    intro fuel i n w hi hf
    obtain ⟨f, rfl⟩ : ∃ f, fuel = f + 1 := ⟨fuel - 1, by omega⟩
    have hnot : ¬ i * cs < p.length := by
      rw [lt_ceil_iff cs p.length i hcs]; omega
    rw [writeLoop, if_neg hnot]
    have h0 : sentCount w.budget 0 = 0 := by
      unfold sentCount; cases w.budget <;> simp
    rw [h0]
    cases w with
    | mk sent budget sendErr =>
      cases budget <;> simp [chunksFrom]
  | succ k ih =>
    intro fuel i n w hi hf
    obtain ⟨f, rfl⟩ : ∃ f, fuel = f + 1 := ⟨fuel - 1, by omega⟩
    have hlt : i * cs < p.length := by
      rw [lt_ceil_iff cs p.length i hcs]; omega
    rw [writeLoop, if_pos hlt]
    simp only [value_eq_chunkAt]
    cases w with
    | mk sent budget sendErr =>
      cases budget with
      | none =>
        simp only [ExtractServer.Send]
        rw [ih f (i + 1) _ _ (by omega) (by omega)]
        simp [sentCount, chunksFrom_succ, Nat.add_assoc]
      | some b =>
        cases b with
        | zero =>
          simp [ExtractServer.Send, sentCount, chunksFrom]
        | succ b =>
          simp only [ExtractServer.Send]
          rw [ih f (i + 1) _ _ (by omega) (by omega)]
          have hm : min (b + 1) (k + 1) = min b k + 1 := by omega
          simp only [sentCount, hm, chunksFrom_succ, Option.map_some', List.map_cons,
            List.flatten_cons, List.length_append]
          simp only [Nat.add_lt_add_iff_right]
          simp [Nat.add_assoc]

theorem chunkAt_length (cs : Nat) (p : List Byte) (i : Nat) :
    (chunkAt cs p i).length = min cs (p.length - i * cs) := by
  simp [chunkAt]

theorem chunksFrom_flatten (cs : Nat) (p : List Byte) (hcs : 1 ≤ cs) :
    ∀ (k i : Nat), i + k = (p.length + cs - 1) / cs →
      (chunksFrom cs p i k).flatten = p.drop (i * cs) := by
  intro k
  induction k with
  | zero =>
    intro i hi
    have hnot : ¬ i * cs < p.length := by
      rw [lt_ceil_iff cs p.length i hcs]; omega
    simp only [chunksFrom, List.range'_zero, List.map_nil, List.flatten_nil]
    exact (List.drop_eq_nil_of_le (by omega)).symm
  | succ k ih =>
    intro i hi
    rw [chunksFrom_succ, List.flatten_cons, ih (i + 1) (by omega), chunkAt]
    have : (i + 1) * cs = i * cs + cs := by rw [Nat.add_mul]; omega
    rw [this, ← List.drop_drop, List.take_append_drop]

theorem chunkList_flatten (cs : Nat) (p : List Byte) (hcs : 1 ≤ cs) :
    (chunkList cs p).flatten = p := by
  rw [chunkList_eq, chunksFrom_flatten cs p hcs _ 0 (by omega)]
  simp

theorem chunkList_mem_length (cs : Nat) (p : List Byte) (hcs : 1 ≤ cs) :
    ∀ c ∈ chunkList cs p, 1 ≤ c.length ∧ c.length ≤ cs := by
  intro c hc
  simp only [chunkList, List.mem_map, List.mem_range] at hc
  obtain ⟨i, hi, rfl⟩ := hc
  have hlt : i * cs < p.length := (lt_ceil_iff cs p.length i hcs).2 hi
  rw [chunkAt_length]
  omega

theorem chunkList_length (cs : Nat) (p : List Byte) :
    (chunkList cs p).length = (p.length + cs - 1) / cs := by
  simp [chunkList]

theorem chunksFrom_zero_eq_take (cs : Nat) (p : List Byte) (j : Nat)
    (hj : j ≤ (p.length + cs - 1) / cs) :
    chunksFrom cs p 0 j = (chunkList cs p).take j := by
  unfold chunkList chunksFrom
  rw [← List.map_take, List.take_range, ← List.range_eq_range', Nat.min_eq_left hj]

end admin

namespace admin

theorem ceil_le_length (cs len : Nat) (hcs : 1 ≤ cs) : (len + cs - 1) / cs ≤ len := by
  by_contra h
  have h1 : len < (len + cs - 1) / cs := by omega
  have h2 := (lt_ceil_iff cs len len hcs).2 h1
  have h3 : len ≤ len * cs := Nat.le_mul_of_pos_right len (by omega)
  omega

/-- On a transport that accepts every chunk, `Write(p)` sends the chunks of `p` in order
and returns `len p`. -/
theorem Write_accepted (MaxMsgSize : Nat) (p : List Byte) (w : ExtractServer) (fuel : Nat)
    (hcs : 1 ≤ MaxMsgSize / 2) (hfuel : p.length + 1 ≤ fuel)
    (hb : ∀ b, w.budget = some b → (chunkList (MaxMsgSize / 2) p).length ≤ b) :
    extractObjectWriter.Write MaxMsgSize fuel p w =
      some ((p.length, none),
        { w with
          sent := w.sent ++ (chunkList (MaxMsgSize / 2) p).map objectOp,
          budget := w.budget.map (fun b => b - (chunkList (MaxMsgSize / 2) p).length) }) := by
  have hN := ceil_le_length (MaxMsgSize / 2) p.length hcs
  have hspec := writeLoop_spec (MaxMsgSize / 2) p hcs
    ((p.length + MaxMsgSize / 2 - 1) / (MaxMsgSize / 2)) fuel 0 0 w (by omega) (by omega)
  have hlen := chunkList_length (MaxMsgSize / 2) p
  have hcount : sentCount w.budget ((p.length + MaxMsgSize / 2 - 1) / (MaxMsgSize / 2))
      = (p.length + MaxMsgSize / 2 - 1) / (MaxMsgSize / 2) := by
    unfold sentCount
    cases hbud : w.budget with
    | none => rfl
    | some b =>
      have := hb b hbud
      simp only
      omega
  rw [extractObjectWriter.Write, hspec, hcount, ← chunkList_eq,
    chunkList_flatten _ p hcs, hlen]
  simp

/-- C3. `extractObjectWriter.Write(p)` with chunk size `MaxMsgSize / 2 ≥ 1` cuts `p` into
`ceil (len p / chunkSize)` chunks of 1 to `chunkSize` bytes whose concatenation is `p`;
when the transport accepts them all it sends one message per chunk, in order, and
returns `len p` without error; when the transport refuses a send it has sent only the
chunks before it, and returns the transport error with the total length of these. -/
theorem Write_chunks (MaxMsgSize : Nat) (p : List Byte) (w : ExtractServer) (fuel : Nat)
    (hcs : 1 ≤ MaxMsgSize / 2) (hfuel : p.length + 1 ≤ fuel) :
    (chunkList (MaxMsgSize / 2) p).length
        = (p.length + MaxMsgSize / 2 - 1) / (MaxMsgSize / 2) ∧
    (∀ c ∈ chunkList (MaxMsgSize / 2) p, 1 ≤ c.length ∧ c.length ≤ MaxMsgSize / 2) ∧
    (chunkList (MaxMsgSize / 2) p).flatten = p ∧
    ((∀ b, w.budget = some b → (chunkList (MaxMsgSize / 2) p).length ≤ b) →
      extractObjectWriter.Write MaxMsgSize fuel p w =
        some ((p.length, none),
          { w with
            sent := w.sent ++ (chunkList (MaxMsgSize / 2) p).map objectOp,
            budget := w.budget.map (fun b => b - (chunkList (MaxMsgSize / 2) p).length) })) ∧
    (∀ b, w.budget = some b → b < (chunkList (MaxMsgSize / 2) p).length →
      extractObjectWriter.Write MaxMsgSize fuel p w =
        some ((((chunkList (MaxMsgSize / 2) p).take b).flatten.length, some w.sendErr),
          { w with
            sent := w.sent ++ ((chunkList (MaxMsgSize / 2) p).take b).map objectOp,
            budget := some 0 })) := by
  have hN := ceil_le_length (MaxMsgSize / 2) p.length hcs
  have hspec := writeLoop_spec (MaxMsgSize / 2) p hcs
    ((p.length + MaxMsgSize / 2 - 1) / (MaxMsgSize / 2)) fuel 0 0 w (by omega) (by omega)
  have hlen := chunkList_length (MaxMsgSize / 2) p
  refine ⟨hlen, chunkList_mem_length _ p hcs, chunkList_flatten _ p hcs, ?_, ?_⟩
  · intro hb
    exact Write_accepted MaxMsgSize p w fuel hcs hfuel hb
  · intro b hbud hlt
    have hcount : sentCount w.budget ((p.length + MaxMsgSize / 2 - 1) / (MaxMsgSize / 2))
        = b := by
      unfold sentCount
      rw [hbud]
      simp only
      omega
    rw [extractObjectWriter.Write, hspec, hcount,
      chunksFrom_zero_eq_take _ p b (by omega), hbud]
    have hlt1 : b < (p.length + MaxMsgSize / 2 - 1) / (MaxMsgSize / 2) := by omega
    simp [hlt1]

/-- Witness of C3: five bytes in chunks of two. -/
theorem Write_chunks_witness :
    (chunkList (4 / 2) [1, 2, 3, 4, 5]).length = (5 + 4 / 2 - 1) / (4 / 2) ∧
    extractObjectWriter.Write 4 6 [1, 2, 3, 4, 5] {} =
      some ((5, none), { sent := [objectOp [1, 2], objectOp [3, 4], objectOp [5]] }) ∧
    extractObjectWriter.Write 4 6 [1, 2, 3, 4, 5] { budget := some 2 } =
      some ((4, some (GoError.msg "transport is closing")),
        { sent := [objectOp [1, 2], objectOp [3, 4]], budget := some 0 }) := by
  have h := Write_chunks 4 [1, 2, 3, 4, 5] {} 6 (by decide) (by decide)
  have h2 := Write_chunks 4 [1, 2, 3, 4, 5] { budget := some 2 } 6 (by decide) (by decide)
  refine ⟨h.1, ?_, ?_⟩
  · rw [h.2.2.2.1 (by intro b hb; cases hb)]
    decide
  · rw [h2.2.2.2.2 2 rfl (by decide)]
    decide

end admin

namespace admin

/-! ## extractObjectReader.Read on the chunks of one object -/

theorem readLoop_eof (env : Env) (n : Nat) (e : GoError) (c : Option GoError)
    (pending : List Op) (log : List Event) (buf : List Byte) :
    readLoop env n e c pending log buf true =
      (none, { adminAPIRestoreServer :=
                { pending := pending, recvErr := e, closeErr := c, log := log },
               buf := buf, eof := true }) := by
  cases pending <;> simp [readLoop]

theorem readLoop_chunks (env : Env) (n : Nat) (e : GoError) (c : Option GoError)
    (tail : List Op) :
    ∀ (cs : List (List Byte)) (log : List Event) (buf : List Byte), (∀ x ∈ cs, x ≠ []) →
      ∃ r1, readLoop env n e c (cs.map objectOp ++ objectOp [] :: tail) log buf false
          = (none, r1) ∧
        Streaming e c tail (buf ++ cs.flatten) r1 ∧ (n ≤ r1.buf.length ∨ r1.eof = true) := by
  intro cs
  induction cs with
  | nil =>
    intro log buf _
    by_cases h : n > buf.length
    · refine ⟨{ adminAPIRestoreServer :=
                  { pending := tail, recvErr := e, closeErr := c,
                    log := log ++ [Event.recv (objectOp [])] },
                 buf := buf ++ [], eof := true }, ?_, ?_, Or.inr rfl⟩
      · simp only [List.map_nil, List.nil_append, readLoop, objectOp]
        simp only [h, decide_True, Bool.not_false, Bool.and_self, if_true,
          List.length_nil]
        exact readLoop_eof env n e c tail _ _
      · exact ⟨rfl, rfl, Or.inr ⟨rfl, rfl, by simp⟩⟩
    · refine ⟨{ adminAPIRestoreServer :=
                  { pending := objectOp [] :: tail, recvErr := e, closeErr := c, log := log },
                 buf := buf, eof := false }, ?_, ?_, Or.inl ?_⟩
      · simp only [List.map_nil, List.nil_append, readLoop]
        simp only [h, decide_False, Bool.false_and, if_false]
        rfl
      · exact ⟨rfl, rfl, Or.inl ⟨rfl, [], by simp, rfl, by simp⟩⟩
      · simp only; omega
  | cons x cs ih =>
    intro log buf hne
    have hx : x ≠ [] := hne x (List.mem_cons_self _ _)
    have hcs : ∀ y ∈ cs, y ≠ [] := fun y hy => hne y (List.mem_cons_of_mem _ hy)
    by_cases h : n > buf.length
    · obtain ⟨r1, h1, h2, h3⟩ := ih (log ++ [Event.recv (objectOp x)]) (buf ++ x) hcs
      refine ⟨r1, ?_, ?_, h3⟩
      · simp only [List.map_cons, List.cons_append, readLoop, objectOp]
        simp only [h, decide_True, Bool.not_false, Bool.and_self, if_true]
        have hlen : ¬ x.length = 0 := fun h0 => hx (List.eq_nil_of_length_eq_zero h0)
        simp only [hlen, if_false]
        exact h1
      · simpa [List.append_assoc] using h2
    · refine ⟨{ adminAPIRestoreServer :=
                  { pending := objectOp x :: (cs.map objectOp ++ objectOp [] :: tail),
                    recvErr := e, closeErr := c, log := log },
                 buf := buf, eof := false }, ?_, ?_, Or.inl ?_⟩
      · simp only [List.map_cons, List.cons_append, readLoop]
        simp only [h, decide_False, Bool.false_and, if_false]
        rfl
      · exact ⟨rfl, rfl, Or.inl ⟨rfl, x :: cs, hne, rfl, rfl⟩⟩
      · simp only; omega

theorem readLoop_streaming (env : Env) (n : Nat) (e : GoError) (c : Option GoError)
    (tail : List Op) (D : List Byte) (r : extractObjectReader)
    (h : Streaming e c tail D r) :
    ∃ r1, readLoop env n r.adminAPIRestoreServer.recvErr r.adminAPIRestoreServer.closeErr
        r.adminAPIRestoreServer.pending r.adminAPIRestoreServer.log r.buf r.eof = (none, r1) ∧
      Streaming e c tail D r1 ∧ (n ≤ r1.buf.length ∨ r1.eof = true) := by
  obtain ⟨he, hc, h | h⟩ := h
  · obtain ⟨heof, cs, hne, hp, hD⟩ := h
    rw [heof, hp, he, hc, hD]
    exact readLoop_chunks env n e c tail cs _ _ hne
  · obtain ⟨heof, hp, hD⟩ := h
    rw [heof, readLoop_eof, he, hc, hp, hD]
    exact ⟨{ adminAPIRestoreServer :=
              { pending := tail, recvErr := e, closeErr := c,
                log := r.adminAPIRestoreServer.log },
             buf := r.buf, eof := true },
      rfl, ⟨rfl, rfl, Or.inr ⟨rfl, rfl, rfl⟩⟩, Or.inr rfl⟩

/-- One `Read` into a non-empty buffer, in the middle of an object: at the end of the
object it returns `io.EOF` and no byte, otherwise the next bytes, at least one. -/
theorem Read_streaming (env : Env) (n : Nat) (hn : 1 ≤ n) (e : GoError)
    (c : Option GoError) (tail : List Op) (D : List Byte) (r : extractObjectReader)
    (h : Streaming e c tail D r) :
    ∃ r1, (D = [] ∧ r.Read env n = (([], some GoError.EOF), r1) ∧
        Streaming e c tail [] r1 ∧ r1.eof = true ∧ r1.buf = []) ∨
      (∃ data D1, data ≠ [] ∧ r.Read env n = ((data, none), r1) ∧ D = data ++ D1 ∧
        Streaming e c tail D1 r1) := by
  obtain ⟨r1, hloop, hs, hfull⟩ := readLoop_streaming env n e c tail D r h
  obtain ⟨he, hc, hstate⟩ := hs
  by_cases hbuf : r1.buf = []
  · have heof : r1.eof = true := by
      rcases hfull with h1 | h1
      · rw [hbuf] at h1; simp at h1; omega
      · exact h1
    have hst : r1.adminAPIRestoreServer.pending = tail ∧ D = r1.buf := by
      rcases hstate with ⟨h1, _⟩ | ⟨_, h2, h3⟩
      · rw [heof] at h1; cases h1
      · exact ⟨h2, h3⟩
    refine ⟨{ r1 with buf := [] }, Or.inl ⟨by rw [hst.2, hbuf], ?_, ?_, heof, rfl⟩⟩
    · unfold extractObjectReader.Read
      rw [hloop]
      have hn0 : ¬ n = 0 := by omega
      simp [bufferRead, hbuf, hn0]
    · exact ⟨he, hc, Or.inr ⟨heof, hst.1, rfl⟩⟩
  · have hlen : ¬ r1.buf.length = 0 := fun h0 => hbuf (List.eq_nil_of_length_eq_zero h0)
    have hdata : r1.buf.take n ≠ [] := by
      intro h0
      have h1 : (r1.buf.take n).length = 0 := by rw [h0]; rfl
      rw [List.length_take] at h1
      omega
    have hread : r.Read env n = ((r1.buf.take n, none), { r1 with buf := r1.buf.drop n }) := by
      unfold extractObjectReader.Read
      rw [hloop]
      simp [bufferRead, hlen]
    rcases hstate with ⟨h1, cs, h2, h3, hD⟩ | ⟨h1, h2, hD⟩
    · refine ⟨{ r1 with buf := r1.buf.drop n }, Or.inr ⟨r1.buf.take n,
        r1.buf.drop n ++ cs.flatten, hdata, hread, ?_, he, hc, Or.inl ⟨h1, cs, h2, h3, rfl⟩⟩⟩
      rw [hD, ← List.append_assoc, List.take_append_drop]
    · refine ⟨{ r1 with buf := r1.buf.drop n }, Or.inr ⟨r1.buf.take n,
        r1.buf.drop n, hdata, hread, ?_, he, hc, Or.inr ⟨h1, h2, rfl⟩⟩⟩
      rw [hD, List.take_append_drop]

/-- Reading an object to its end with non-empty buffers returns exactly its bytes and
leaves on the channel what follows the end marker. -/
theorem readUntilEOF_streaming (env : Env) (sizes : Nat → Nat) (hs : ∀ k, 1 ≤ sizes k)
    (e : GoError) (c : Option GoError) (tail : List Op) :
    ∀ (fuel k : Nat) (D acc : List Byte) (r : extractObjectReader),
      Streaming e c tail D r → D.length + 1 ≤ fuel →
      ∃ r1, readUntilEOF env sizes fuel k r acc = some (Except.ok (acc ++ D), r1) ∧
        r1.adminAPIRestoreServer.pending = tail ∧ r1.adminAPIRestoreServer.recvErr = e ∧
        r1.adminAPIRestoreServer.closeErr = c ∧ r1.buf = [] ∧ r1.eof = true := by
  intro fuel
  induction fuel with
  | zero => intro k D acc r _ hf; omega
  | succ fuel ih =>
    intro k D acc r h hf
    obtain ⟨r1, h1 | h1⟩ := Read_streaming env (sizes k) (hs k) e c tail D r h
    · obtain ⟨hD, hread, hst, heof, hbuf⟩ := h1
      refine ⟨r1, ?_, ?_, hst.1, hst.2.1, hbuf, heof⟩
      · rw [readUntilEOF, hread, hD]
      · rcases hst.2.2 with ⟨h2, _⟩ | ⟨_, h2, _⟩
        · rw [heof] at h2; cases h2
        · exact h2
    · obtain ⟨data, D1, hne, hread, hD, hst⟩ := h1
      have hlen : D1.length + 1 ≤ fuel := by
        have := congrArg List.length hD
        have hpos : 0 < data.length := List.length_pos.2 hne
        simp at this
        omega
      obtain ⟨r2, h2, h3⟩ := ih (k + 1) D1 (acc ++ data) r1 hst hlen
      refine ⟨r2, ?_, h3⟩
      rw [readUntilEOF, hread]
      simp only
      rw [h2, hD, List.append_assoc]

end admin

namespace admin

/-- C2. Chunking round trip: the messages `extractObjectWriter.Write(b)` sends (chunk size
`MaxMsgSize / 2 ≥ 1`), followed by the empty end marker and by anything else, read by a
fresh `extractObjectReader` through `Read` calls with arbitrary non-empty buffers until
`io.EOF`, yield exactly `b`; the end marker is consumed and what follows it is left on
the channel. -/
theorem chunk_round_trip (env : Env) (b : List Byte) (sizes : Nat → Nat)
    (fuelW fuelR : Nat) (tail : List Op) (recvErr : GoError) (closeErr : Option GoError)
    (log : List Event)
    (hcs : 1 ≤ env.MaxMsgSize / 2) (hs : ∀ k, 1 ≤ sizes k)
    (hw : b.length + 1 ≤ fuelW) (hr : b.length + 1 ≤ fuelR) :
    ∃ w1 r1,
      extractObjectWriter.Write env.MaxMsgSize fuelW b {} = some ((b.length, none), w1) ∧
      readUntilEOF env sizes fuelR 0
        { adminAPIRestoreServer :=
            { pending := (w1.Send (objectOp [])).2.sent ++ tail, recvErr := recvErr,
              closeErr := closeErr, log := log } } []
          = some (Except.ok b, r1) ∧
      r1.adminAPIRestoreServer.pending = tail ∧ r1.buf = [] := by
  have hW := Write_accepted env.MaxMsgSize b {} fuelW hcs hw (by intro b hb; cases hb)
  have hst : Streaming recvErr closeErr tail b
      { adminAPIRestoreServer :=
          { pending := (chunkList (env.MaxMsgSize / 2) b).map objectOp ++
              objectOp [] :: tail,
            recvErr := recvErr, closeErr := closeErr, log := log } } := by
    refine ⟨rfl, rfl, Or.inl ⟨rfl, chunkList (env.MaxMsgSize / 2) b, ?_, rfl, ?_⟩⟩
    · intro x hx h0
      have := (chunkList_mem_length _ b hcs x hx).1
      rw [h0] at this
      simp at this
    · simp [chunkList_flatten _ b hcs]
  obtain ⟨r1, h1, h2, -, -, h3, -⟩ :=
    readUntilEOF_streaming env sizes hs recvErr closeErr tail fuelR 0 b [] _ hst hr
  refine ⟨{ sent := (chunkList (env.MaxMsgSize / 2) b).map objectOp }, r1, ?_, ?_, h2, h3⟩
  · rw [hW]; simp
  · simpa [ExtractServer.Send] using h1

/-- Witness of C2: five bytes, chunks of two, read three bytes at a time. -/
theorem chunk_round_trip_witness :
    ∃ w1 r1,
      extractObjectWriter.Write exEnv.MaxMsgSize 6 [1, 2, 3, 4, 5] {}
        = some ((([1, 2, 3, 4, 5] : List Byte).length, none), w1) ∧
      readUntilEOF exEnv (fun _ => 3) 6 0
        { adminAPIRestoreServer :=
            { pending := (w1.Send (objectOp [])).2.sent ++ [objectOp [9]],
              recvErr := GoError.EOF, closeErr := none, log := [] } } []
          = some (Except.ok [1, 2, 3, 4, 5], r1) ∧
      r1.adminAPIRestoreServer.pending = [objectOp [9]] ∧ r1.buf = [] :=
  chunk_round_trip exEnv [1, 2, 3, 4, 5] (fun _ => 3) 6 6 [objectOp [9]] GoError.EOF none []
    (by decide) (fun _ => Nat.le_of_ble_eq_true rfl) (by decide) (by decide)

end admin

namespace admin

/-! ## Restore -/

/-- C4, at the failing input. The ops `Extract` emits for an empty object are the empty
end marker alone. `Restore` takes that op as the first chunk of an object and lets the
reader receive further ops: a tag binding after it makes `Restore` fail with
"error putting object: expected an object", nothing is committed; the chunks of a
following object `[1]` are swallowed, so that one object `[1]` is committed instead of
the two objects `[]` and `[1]`. -/
theorem Restore_empty_object :
    apiServer.Restore exEnv (Except.ok exClient) 5
        { pending := [objectOp [], exTagOp] } [] =
      some (some (GoError.msg "error putting object: expected an object, but got: op"),
        { pending := [],
          log := [Event.recv (objectOp []), Event.recv exTagOp, Event.recvErr GoError.EOF,
            Event.sendAndClose] },
        []) ∧
    apiServer.Restore exEnv (Except.ok exClient) 5
        { pending := [objectOp [], objectOp [1], objectOp []] } [] =
      some (none,
        { pending := [],
          log := [Event.recv (objectOp []), Event.recv (objectOp [1]),
            Event.recv (objectOp []), Event.recvErr GoError.EOF, Event.recvErr GoError.EOF,
            Event.sendAndClose] },
        [StoreCall.PutObject [1]]) := by
  constructor <;> decide

end admin

namespace admin

/-! ### Termination and the event log, for an arbitrary input stream -/

theorem logExt_refl (s : RestoreServer) : LogExt s s :=
  ⟨rfl, rfl, [], by simp, by simp⟩

theorem logExt_trans {s s1 s2 : RestoreServer} (h1 : LogExt s s1) (h2 : LogExt s1 s2) :
    LogExt s s2 := by
  obtain ⟨a1, b1, e1, c1, d1⟩ := h1
  obtain ⟨a2, b2, e2, c2, d2⟩ := h2
  refine ⟨a2.trans a1, b2.trans b1, e1 ++ e2, ?_, ?_⟩
  · rw [c2, c1, List.append_assoc]
  · simp [d1, d2]

theorem readLoop_general (env : Env) (n : Nat) (e : GoError) (c : Option GoError) :
    ∀ (pending : List Op) (log : List Event) (buf : List Byte) (eof : Bool),
      ∃ err r1, readLoop env n e c pending log buf eof = (err, r1) ∧
        LogExt { pending := pending, recvErr := e, closeErr := c, log := log }
          r1.adminAPIRestoreServer ∧
        r1.buf.length + opsSize r1.adminAPIRestoreServer.pending
          ≤ buf.length + opsSize pending ∧
        (err = none → n ≤ r1.buf.length ∨ r1.eof = true) := by
  intro pending
  induction pending with
  | nil =>
    intro log buf eof
    rw [readLoop]
    split
    · exact ⟨_, _, rfl, ⟨rfl, rfl, [Event.recvErr e], rfl, by simp⟩, le_refl _,
        fun h => by cases h⟩
    · rename_i h
      refine ⟨_, _, rfl, logExt_refl _, le_refl _, fun _ => ?_⟩
      simp only [Bool.and_eq_true, decide_eq_true_eq, Bool.not_eq_true', not_and,
        Bool.not_eq_false] at h
      by_cases h1 : n > buf.length
      · exact Or.inr (h h1)
      · exact Or.inl (by simp only; omega)
  | cons op rest ih =>
    intro log buf eof
    rw [readLoop]
    split
    · split
      · rename_i hobj
        refine ⟨_, _, rfl, ⟨rfl, rfl, [Event.recv op], rfl, by simp⟩, ?_,
          fun h => by cases h⟩
        simp only [opsSize]
        omega
      · rename_i object hobj
        obtain ⟨err, r1, h1, h2, h3, h4⟩ := ih (log ++ [Event.recv op]) (buf ++ object.Value)
          (if object.Value.length = 0 then true else eof)
        refine ⟨err, r1, h1, ?_, ?_, h4⟩
        · have hstep : LogExt
              { pending := op :: rest, recvErr := e, closeErr := c, log := log }
              { pending := rest, recvErr := e, closeErr := c,
                log := log ++ [Event.recv op] } :=
            ⟨rfl, rfl, [Event.recv op], rfl, by simp⟩
          exact logExt_trans hstep h2
        · simp only [opsSize, hobj]
          simp only [List.length_append] at h3
          omega
    · rename_i h
      refine ⟨_, _, rfl, logExt_refl _, le_refl _, fun _ => ?_⟩
      simp only [Bool.and_eq_true, decide_eq_true_eq, Bool.not_eq_true', not_and,
        Bool.not_eq_false] at h
      by_cases h1 : n > buf.length
      · exact Or.inr (h h1)
      · exact Or.inl (by simp only; omega)

theorem Read_general (env : Env) (n : Nat) (hn : 1 ≤ n) (r : extractObjectReader) :
    ∃ res r1, r.Read env n = (res, r1) ∧
      LogExt r.adminAPIRestoreServer r1.adminAPIRestoreServer ∧
      r1.buf.length + opsSize r1.adminAPIRestoreServer.pending
        ≤ r.buf.length + opsSize r.adminAPIRestoreServer.pending ∧
      (res.2 = none → r1.buf.length + opsSize r1.adminAPIRestoreServer.pending + 1
        ≤ r.buf.length + opsSize r.adminAPIRestoreServer.pending) := by
  obtain ⟨err, r1, h1, h2, h3, h4⟩ := readLoop_general env n
    r.adminAPIRestoreServer.recvErr r.adminAPIRestoreServer.closeErr
    r.adminAPIRestoreServer.pending r.adminAPIRestoreServer.log r.buf r.eof
  unfold extractObjectReader.Read
  rw [h1]
  cases err with
  | some err =>
    exact ⟨_, _, rfl, h2, h3, fun h => by cases h⟩
  | none =>
    simp only
    by_cases hbuf : r1.buf.length = 0
    · have hn0 : ¬ n = 0 := by omega
      refine ⟨_, _, rfl, h2, ?_, ?_⟩
      · simp only [bufferRead, hbuf, hn0, if_true, if_false, List.length_nil]
        omega
      · simp [bufferRead, hbuf, hn0]
    · refine ⟨_, _, rfl, h2, ?_, ?_⟩
      · simp only [bufferRead, hbuf, if_false, List.length_drop]
        omega
      · intro _
        simp only [bufferRead, hbuf, if_false, List.length_drop]
        omega

theorem readUntilEOF_general (env : Env) (sizes : Nat → Nat) (hs : ∀ k, 1 ≤ sizes k) :
    ∀ (fuel k : Nat) (r : extractObjectReader) (acc : List Byte),
      r.buf.length + opsSize r.adminAPIRestoreServer.pending + 1 ≤ fuel →
      ∃ res r1, readUntilEOF env sizes fuel k r acc = some (res, r1) ∧
        LogExt r.adminAPIRestoreServer r1.adminAPIRestoreServer ∧
        opsSize r1.adminAPIRestoreServer.pending
          ≤ r.buf.length + opsSize r.adminAPIRestoreServer.pending := by
  intro fuel
  induction fuel with
  | zero => intro k r acc hf; omega
  | succ fuel ih =>
    intro k r acc hf
    obtain ⟨res, r1, h1, h2, h3, h4⟩ := Read_general env (sizes k) (hs k) r
    rw [readUntilEOF, h1]
    obtain ⟨data, err⟩ := res
    cases err with
    | none =>
      have h5 := h4 rfl
      obtain ⟨res2, r2, g1, g2, g3⟩ := ih (k + 1) r1 (acc ++ data) (by omega)
      exact ⟨res2, r2, g1, logExt_trans h2 g2, by omega⟩
    | some err =>
      cases err with
      | EOF => exact ⟨_, _, rfl, h2, by omega⟩
      | msg m => exact ⟨_, _, rfl, h2, by omega⟩

theorem PutObject_general (env : Env) (c : RestoreClient) (hs : ∀ k, 1 ≤ c.readSize k)
    (fuel : Nat) (r : extractObjectReader) (st : List StoreCall)
    (hf : r.buf.length + opsSize r.adminAPIRestoreServer.pending + 1 ≤ fuel) :
    ∃ err r1 st1, PutObject env c fuel r st = some (err, r1, st1) ∧
      LogExt r.adminAPIRestoreServer r1.adminAPIRestoreServer ∧
      opsSize r1.adminAPIRestoreServer.pending
        ≤ r.buf.length + opsSize r.adminAPIRestoreServer.pending := by
  obtain ⟨res, r1, h1, h2, h3⟩ := readUntilEOF_general env c.readSize hs fuel 0 r [] hf
  unfold PutObject
  rw [h1]
  cases res with
  | error err => exact ⟨_, _, _, rfl, h2, h3⟩
  | ok data => exact ⟨_, _, _, rfl, h2, h3⟩

end admin

namespace admin

/-- The loop of `Restore` terminates on every input stream, and only receives. -/
theorem restoreLoop_general (env : Env) (c : RestoreClient) (hs : ∀ k, 1 ≤ c.readSize k) :
    ∀ (fuel : Nat) (s : RestoreServer) (st : List StoreCall),
      opsSize s.pending + 1 ≤ fuel →
      ∃ retErr s1 st1, restoreLoop env c fuel s st = some (retErr, s1, st1) ∧
        LogExt s s1 := by
  intro fuel
  induction fuel with
  | zero => intro s st hf; omega
  | succ fuel ih =>
    intro s st hf
    rw [restoreLoop]
    cases hp : s.pending with
    | nil =>
      have hs1 : LogExt s { s with log := s.log ++ [Event.recvErr s.recvErr] } :=
        ⟨rfl, rfl, [Event.recvErr s.recvErr], rfl, by simp⟩
      simp only [RestoreServer.Recv, hp]
      split
      · exact ⟨_, _, _, rfl, hs1⟩
      · exact ⟨_, _, _, rfl, hs1⟩
    | cons op rest =>
      have hs1 : LogExt s { s with pending := rest, log := s.log ++ [Event.recv op] } :=
        ⟨rfl, rfl, [Event.recv op], rfl, by simp⟩
      have hsize : opsSize rest + 1 ≤ fuel := by
        rw [hp] at hf
        simp only [opsSize] at hf
        omega
      have hrec : ∀ st1, ∃ retErr s2 st2,
          restoreLoop env c fuel { s with pending := rest, log := s.log ++ [Event.recv op] }
            st1 = some (retErr, s2, st2) ∧ LogExt s s2 := by
        intro st1
        obtain ⟨a, b, d, h1, h2⟩ :=
          ih { s with pending := rest, log := s.log ++ [Event.recv op] } st1 hsize
        exact ⟨a, b, d, h1, logExt_trans hs1 h2⟩
      simp only [RestoreServer.Recv, hp]
      split
      · exact hrec st
      · split
        · rename_i object hobj
          have hf1 : (([] : List Byte) ++ object.Value).length + opsSize rest + 1 ≤ fuel := by
            rw [hp] at hf
            simp only [opsSize, hobj] at hf
            simp only [List.nil_append]
            omega
          obtain ⟨err, r1, st1, g1, g2, g3⟩ := PutObject_general env c hs fuel
            { adminAPIRestoreServer :=
                { s with pending := rest, log := s.log ++ [Event.recv op] },
              buf := [] ++ object.Value } st hf1
          rw [g1]
          cases err with
          | some err => exact ⟨_, _, _, rfl, logExt_trans hs1 g2⟩
          | none =>
            simp only
            have hf2 : opsSize r1.adminAPIRestoreServer.pending + 1 ≤ fuel := by
              simp only at g3
              omega
            obtain ⟨a, b, d, h1, h2⟩ := ih r1.adminAPIRestoreServer st1 hf2
            exact ⟨a, b, d, h1, logExt_trans hs1 (logExt_trans g2 h2)⟩
        · repeat' split
          all_goals first
            | exact hrec _
            | exact ⟨_, _, _, rfl, hs1⟩

end admin

namespace admin

theorem drain_eq (e : GoError) (c : Option GoError) :
    ∀ (pending : List Op) (log : List Event),
      drain pending e c log =
        { pending := [], recvErr := e, closeErr := c,
          log := log ++ pending.map Event.recv ++ [Event.recvErr e] } := by
  intro pending
  induction pending with
  | nil => intro log; simp [drain]
  | cons op rest ih => intro log; simp [drain, ih]

/-- C8, as amended. Once `getPachClient` has succeeded, `Restore` returns on every input
stream, and on every such return path, success or error, it has received until the
channel was exhausted and reported its error or end of input, and has then called
`SendAndClose` exactly once, as its last action on the channel. -/
theorem Restore_drains_then_acks (env : Env) (c : RestoreClient)
    (hs : ∀ k, 1 ≤ c.readSize k) (fuel : Nat) (s : RestoreServer) (st : List StoreCall)
    (hf : opsSize s.pending + 1 ≤ fuel) :
    ∃ retErr s2 st2, apiServer.Restore env (Except.ok c) fuel s st = some (retErr, s2, st2) ∧
      s2.pending = [] ∧
      ∃ evs, s2.log = s.log ++ evs ++ [Event.recvErr s.recvErr, Event.sendAndClose] ∧
        Event.sendAndClose ∉ evs := by
  obtain ⟨retErr, s1, st1, h1, h2, h3, evs, h4, h5⟩ :=
    restoreLoop_general env c hs fuel s st hf
  unfold apiServer.Restore
  simp only [h1, restoreDeferred, drain_eq, RestoreServer.SendAndClose]
  have hlog : s1.log ++ s1.pending.map Event.recv ++ [Event.recvErr s1.recvErr] ++
      [Event.sendAndClose] = s.log ++ (evs ++ s1.pending.map Event.recv) ++
        [Event.recvErr s.recvErr, Event.sendAndClose] := by
    rw [h4, h2]; simp
  have hno : Event.sendAndClose ∉ evs ++ s1.pending.map Event.recv := by
    simp [h5]
  cases s1.closeErr with
  | none => exact ⟨_, _, _, rfl, rfl, _, hlog, hno⟩
  | some err => exact ⟨_, _, _, rfl, rfl, _, hlog, hno⟩

/-- Witness of C8, as amended: a tag binding, then a chunk whose object never ends. -/
theorem Restore_drains_then_acks_witness :
    ∃ retErr s2 st2,
      apiServer.Restore exEnv (Except.ok exClient) 5
        { pending := [exTagOp, objectOp [1]] } [] = some (retErr, s2, st2) ∧
      s2.pending = [] ∧
      ∃ evs, s2.log = ([] : List Event) ++ evs ++
          [Event.recvErr GoError.EOF, Event.sendAndClose] ∧
        Event.sendAndClose ∉ evs :=
  Restore_drains_then_acks exEnv exClient (fun _ => Nat.le_of_ble_eq_true rfl) 5
    { pending := [exTagOp, objectOp [1]] } [] (by decide)

/-- C8, as stated, fails: when `getPachClient` fails, `Restore` returns its error before
the deferred function is installed; the pending op is not received and nothing is
acknowledged. -/
theorem Restore_without_client_no_ack :
    apiServer.Restore exEnv (Except.error (GoError.msg "no client")) 5
        { pending := [exTagOp] } [] =
      some (some (GoError.msg "no client"), { pending := [exTagOp], log := [] }, []) := by
  decide

end admin

namespace admin

/-! ### Restore on a stream of complete operations -/

theorem opsSize_append (a b : List Op) : opsSize (a ++ b) = opsSize a + opsSize b := by
  induction a with
  | nil => simp [opsSize]
  | cons x a ih =>
    show (1 + _) + opsSize (a ++ b) = (1 + _) + opsSize a + opsSize b
    rw [ih]; omega

theorem opsSize_chunks (rest : List (List Byte)) :
    opsSize (rest.map objectOp) = rest.length + rest.flatten.length := by
  induction rest with
  | nil => simp [opsSize]
  | cons x rest ih =>
    simp only [List.map_cons, opsSize, ih, objectOp, List.length_cons, List.flatten_cons,
      List.length_append]
    omega

theorem applyCalls_all_ok (c : RestoreClient) :
    ∀ (calls st : List StoreCall),
      (∀ pre call post, calls = pre ++ call :: post → c.storeErr (st ++ pre) call = none) →
      applyCalls c calls st = (none, st ++ calls) := by
  intro calls
  induction calls with
  | nil => intro st _; simp [applyCalls]
  | cons call calls ih =>
    intro st h
    have h0 := h [] call calls rfl
    simp only [List.append_nil] at h0
    rw [applyCalls, h0]
    simp only
    rw [ih (st ++ [call])]
    · simp
    · intro pre call1 post hc
      have := h (call :: pre) call1 post (by rw [hc]; rfl)
      simpa using this

theorem applyCalls_first_fail (c : RestoreClient) :
    ∀ (pre st : List StoreCall) (call : StoreCall) (post : List StoreCall) (err : GoError),
      (∀ pre1 call1 post1, pre = pre1 ++ call1 :: post1 →
        c.storeErr (st ++ pre1) call1 = none) →
      c.storeErr (st ++ pre) call = some err →
      applyCalls c (pre ++ call :: post) st = (some (call, err), st ++ pre) := by
  intro pre
  induction pre with
  | nil =>
    intro st call post err _ h
    simp only [List.append_nil] at h
    simp [applyCalls, h]
  | cons x pre ih =>
    intro st call post err hok h
    have h0 := hok [] x pre rfl
    simp only [List.append_nil] at h0
    rw [List.cons_append, applyCalls, h0]
    simp only
    rw [ih (st ++ [x]) call post err]
    · simp
    · intro pre1 call1 post1 hc
      have := hok (x :: pre1) call1 post1 (by rw [hc]; rfl)
      simpa using this
    · simpa using h

end admin

namespace admin

theorem restoreLoop_items (env : Env) (c : RestoreClient) (hs : ∀ k, 1 ≤ c.readSize k) :
    ∀ (items : List Item), (∀ i ∈ items, i.WF) →
      ∀ (fuel : Nat) (s : RestoreServer) (st : List StoreCall),
        s.pending = (items.map Item.ops).flatten → s.recvErr = GoError.EOF →
        opsSize s.pending + 1 ≤ fuel →
        ∃ s1, restoreLoop env c fuel s st =
          some ((applyCalls c (items.filterMap Item.call) st).1.map
              (fun p => callError env p.1 p.2),
            s1, (applyCalls c (items.filterMap Item.call) st).2) := by
  intro items
  induction items with
  | nil =>
    intro _ fuel s st hp he hf
    obtain ⟨f, rfl⟩ : ∃ f, fuel = f + 1 := ⟨fuel - 1, by omega⟩
    simp only [List.map_nil, List.flatten_nil] at hp
    rw [restoreLoop]
    simp [RestoreServer.Recv, hp, he, applyCalls]
  | cons item items ih =>
    intro hwf fuel s st hp he hf
    obtain ⟨f, rfl⟩ : ∃ f, fuel = f + 1 := ⟨fuel - 1, by omega⟩
    have hwf1 : ∀ i ∈ items, i.WF := fun i hi => hwf i (List.mem_cons_of_mem _ hi)
    simp only [List.map_cons, List.flatten_cons] at hp
    rw [hp, opsSize_append] at hf
    cases item with
    | version v =>
      simp only [Item.ops, List.singleton_append] at hp
      rw [restoreLoop]
      simp only [RestoreServer.Recv, hp]
      simp only [Option.isSome_some, if_true, List.filterMap_cons, Item.call]
      apply ih hwf1
      · rfl
      · exact he
      · simp only [Item.ops, opsSize] at hf
        simp only
        omega
    | tag req =>
      simp only [Item.ops, List.singleton_append] at hp
      have hf1 : opsSize (items.map Item.ops).flatten + 1 ≤ f := by
        simp only [Item.ops, opsSize] at hf
        omega
      rw [restoreLoop]
      simp only [RestoreServer.Recv, hp]
      simp only [Option.isSome_none, List.filterMap_cons, Item.call, applyCalls, storeCall]
      cases hse : c.storeErr st (StoreCall.TagObject req) with
      | some err =>
        simp only [Bool.false_eq_true, if_false, Option.map_some']
        exact ⟨_, rfl⟩
      | none =>
        simp only [Bool.false_eq_true, if_false]
        exact ih hwf1 f _ _ rfl he hf1
    | repo req =>
      simp only [Item.ops, List.singleton_append] at hp
      have hf1 : opsSize (items.map Item.ops).flatten + 1 ≤ f := by
        simp only [Item.ops, opsSize] at hf
        omega
      rw [restoreLoop]
      simp only [RestoreServer.Recv, hp]
      simp only [Option.isSome_none, List.filterMap_cons, Item.call, applyCalls, storeCall]
      cases hse : c.storeErr st (StoreCall.CreateRepo req) with
      | some err =>
        simp only [Bool.false_eq_true, if_false, Option.map_some']
        exact ⟨_, rfl⟩
      | none =>
        simp only [Bool.false_eq_true, if_false]
        exact ih hwf1 f _ _ rfl he hf1
    | commit req =>
      simp only [Item.ops, List.singleton_append] at hp
      have hf1 : opsSize (items.map Item.ops).flatten + 1 ≤ f := by
        simp only [Item.ops, opsSize] at hf
        omega
      rw [restoreLoop]
      simp only [RestoreServer.Recv, hp]
      simp only [Option.isSome_none, List.filterMap_cons, Item.call, applyCalls, storeCall]
      cases hse : c.storeErr st (StoreCall.BuildCommit req) with
      | some err =>
        simp only [Bool.false_eq_true, if_false, Option.map_some']
        exact ⟨_, rfl⟩
      | none =>
        simp only [Bool.false_eq_true, if_false]
        exact ih hwf1 f _ _ rfl he hf1
    | branch req =>
      simp only [Item.ops, List.singleton_append] at hp
      have hf1 : opsSize (items.map Item.ops).flatten + 1 ≤ f := by
        simp only [Item.ops, opsSize] at hf
        omega
      rw [restoreLoop]
      simp only [RestoreServer.Recv, hp]
      simp only [Option.isSome_none, List.filterMap_cons, Item.call, applyCalls, storeCall]
      cases hse : c.storeErr st (StoreCall.CreateBranch
          (if req.Branch.isNone then
            { req with Branch := some (NewBranch req.Head.Repo req.SBranch) } else req)) with
      | some err =>
        simp only [Bool.false_eq_true, if_false, Option.map_some']
        exact ⟨_, rfl⟩
      | none =>
        simp only [Bool.false_eq_true, if_false]
        exact ih hwf1 f _ _ rfl he hf1
    | pipeline req =>
      simp only [Item.ops, List.singleton_append] at hp
      have hf1 : opsSize (items.map Item.ops).flatten + 1 ≤ f := by
        simp only [Item.ops, opsSize] at hf
        omega
      rw [restoreLoop]
      simp only [RestoreServer.Recv, hp]
      simp only [Option.isSome_none, List.filterMap_cons, Item.call, applyCalls, storeCall]
      cases hse : c.storeErr st (StoreCall.CreatePipeline req) with
      | some err =>
        simp only [Bool.false_eq_true, if_false, Option.map_some']
        exact ⟨_, rfl⟩
      | none =>
        simp only [Bool.false_eq_true, if_false]
        exact ih hwf1 f _ _ rfl he hf1
    | object first rest =>
      have hwfo : ∀ x ∈ rest, x ≠ [] := hwf (Item.object first rest) (List.mem_cons_self _ _)
      have hsz : opsSize (Item.object first rest).ops
          = first.length + rest.flatten.length + rest.length + 2 := by
        simp only [Item.ops, opsSize, opsSize_append, opsSize_chunks, objectOp,
          List.length_nil]
        omega
      rw [hsz] at hf
      have hp1 : s.pending = objectOp first ::
          (rest.map objectOp ++ objectOp [] :: (items.map Item.ops).flatten) := by
        rw [hp]; simp [Item.ops]
      have hst : Streaming s.recvErr s.closeErr (items.map Item.ops).flatten
          (first ++ rest.flatten)
          { adminAPIRestoreServer :=
              { pending := rest.map objectOp ++ objectOp [] :: (items.map Item.ops).flatten,
                recvErr := s.recvErr, closeErr := s.closeErr,
                log := s.log ++ [Event.recv (objectOp first)] },
            buf := [] ++ first } :=
        ⟨rfl, rfl, Or.inl ⟨rfl, rest, hwfo, rfl, by simp⟩⟩
      obtain ⟨r1, hr1, hr2, hr3, -⟩ := readUntilEOF_streaming env c.readSize hs s.recvErr
        s.closeErr (items.map Item.ops).flatten f 0 (first ++ rest.flatten) [] _ hst
        (by simp only [List.length_append]; omega)
      rw [restoreLoop]
      simp only [RestoreServer.Recv, hp1]
      simp only [objectOp, Option.isSome_none, Bool.false_eq_true, if_false, PutObject]
      simp only [objectOp] at hr1
      rw [hr1]
      simp only [List.nil_append, List.filterMap_cons, Item.call, applyCalls, storeCall]
      cases hse : c.storeErr st (StoreCall.PutObject (first ++ rest.flatten)) with
      | some err =>
        simp only [Option.map_some']
        exact ⟨_, rfl⟩
      | none =>
        simp only
        exact ih hwf1 f _ _ hr2 (hr3.trans he) (by rw [hr2]; omega)

end admin

namespace admin

/-- C7. On a stream of complete operations that ends with `io.EOF`, `Restore` applies
the store calls of the operations in the order received (a `Version` applies nothing).
If a call fails, all the calls before it succeeding, `Restore` returns an error whose
message starts with the prefix of that call's kind, the stores hold exactly the calls
before the failing one, and no later call is applied. If no call fails, the stores hold
all the calls, in order, and `Restore` returns the result of `SendAndClose`. -/
theorem Restore_applies_in_order (env : Env) (c : RestoreClient)
    (hs : ∀ k, 1 ≤ c.readSize k) (items : List Item) (hwf : ∀ i ∈ items, i.WF)
    (fuel : Nat) (s : RestoreServer) (st : List StoreCall)
    (hp : s.pending = (items.map Item.ops).flatten) (he : s.recvErr = GoError.EOF)
    (hf : opsSize s.pending + 1 ≤ fuel) :
    (∀ pre call post err, items.filterMap Item.call = pre ++ call :: post →
      (∀ pre1 call1 post1, pre = pre1 ++ call1 :: post1 →
        c.storeErr (st ++ pre1) call1 = none) →
      c.storeErr (st ++ pre) call = some err →
      ∃ s2 m, apiServer.Restore env (Except.ok c) fuel s st =
        some (some (GoError.msg (callPrefix call ++ m)), s2, st ++ pre)) ∧
    ((∀ pre call post, items.filterMap Item.call = pre ++ call :: post →
        c.storeErr (st ++ pre) call = none) →
      ∃ s2, apiServer.Restore env (Except.ok c) fuel s st =
        some (s.closeErr, s2, st ++ items.filterMap Item.call)) := by
  obtain ⟨s1, h1⟩ := restoreLoop_items env c hs items hwf fuel s st hp he hf
  obtain ⟨retErr, s1', st1, g1, g2⟩ := restoreLoop_general env c hs fuel s st hf
  have hs1 : s1 = s1' := by
    rw [h1] at g1
    injection g1 with g1
    injection g1 with _ g1
    injection g1
  subst hs1
  constructor
  · intro pre call post err hcalls hok herr
    rw [hcalls, applyCalls_first_fail c pre st call post err hok herr] at h1
    unfold apiServer.Restore
    simp only [h1, restoreDeferred, RestoreServer.SendAndClose, Option.map_some']
    have hm : ∃ m, callError env call err = GoError.msg (callPrefix call ++ m) := by
      cases call <;> exact ⟨_, rfl⟩
    obtain ⟨m, hm⟩ := hm
    rw [hm]
    cases hce : (drain s1.pending s1.recvErr s1.closeErr s1.log).closeErr with
    | none => exact ⟨_, m, rfl⟩
    | some e => exact ⟨_, m, rfl⟩
  · intro hok
    rw [applyCalls_all_ok c _ st hok] at h1
    unfold apiServer.Restore
    simp only [h1, restoreDeferred, RestoreServer.SendAndClose, Option.map_none', drain_eq]
    rw [g2.2.1]
    cases s.closeErr with
    | none => exact ⟨_, rfl⟩
    | some e => exact ⟨_, rfl⟩

/-- Witness of C7: the tag binding is refused; the repository and the object before it
stay applied, the pipeline after it is not created. -/
theorem Restore_applies_in_order_witness :
    ∃ s2 m, apiServer.Restore exEnv (Except.ok exNoTagClient) 20
        { pending := (exItems.map Item.ops).flatten } [] =
      some (some (GoError.msg ("error tagging object: " ++ m)), s2,
        [StoreCall.CreateRepo { Repo := "r", Provenance := [], Description := "" },
          StoreCall.PutObject [1, 2, 3]]) := by
  have hwf : ∀ i ∈ exItems, i.WF := by
    intro i hi
    simp only [exItems, List.mem_cons, List.mem_singleton, List.not_mem_nil, or_false] at hi
    rcases hi with rfl | rfl | rfl | rfl | rfl <;> simp [Item.WF]
  have h := (Restore_applies_in_order exEnv exNoTagClient (fun _ => Nat.le_of_ble_eq_true rfl)
    exItems hwf 20 { pending := (exItems.map Item.ops).flatten } [] rfl rfl (by decide)).1
    [StoreCall.CreateRepo { Repo := "r", Provenance := [], Description := "" },
      StoreCall.PutObject [1, 2, 3]]
    (StoreCall.TagObject { Object := "h", Tags := ["t"] })
    [StoreCall.CreatePipeline { Pipeline := "p" }]
    (GoError.msg "object not found") (by decide)
    (by
      intro pre1 call1 post1 hpre
      have hmem : call1 ∈ [StoreCall.CreateRepo
          { Repo := "r", Provenance := [], Description := "" },
          StoreCall.PutObject [1, 2, 3]] := by
        rw [hpre]; simp
      simp only [List.mem_cons, List.mem_singleton, List.not_mem_nil, or_false] at hmem
      rcases hmem with rfl | rfl <;> rfl)
    rfl
  simpa using h

end admin

namespace admin

/-! ## Extract -/

theorem Send_ok (s s1 : ExtractServer) (op : Op) (h : s.Send op = (none, s1)) :
    s1.sent = s.sent ++ [op] := by
  unfold ExtractServer.Send at h
  split at h
  · cases h; rfl
  · cases h
  · cases h; rfl

theorem sendAll_ok : ∀ (ops : List Op) (s s1 : ExtractServer),
    sendAll ops s = (none, s1) → s1.sent = s.sent ++ ops := by
  intro ops
  induction ops with
  | nil => intro s s1 h; simp only [sendAll] at h; cases h; simp
  | cons op ops ih =>
    intro s s1 h
    rw [sendAll] at h
    split at h
    · cases h
    · rename_i s2 hsend
      rw [ih s2 s1 h, Send_ok s s2 op hsend]
      simp

theorem writeLoop_mono (cs : Nat) (p : List Byte) (k : Nat) :
    ∀ (fuel i n : Nat) (w : ExtractServer) (r : (Nat × Option GoError) × ExtractServer),
      writeLoop cs p fuel i n w = some r → writeLoop cs p (fuel + k) i n w = some r := by
  intro fuel
  induction fuel with
  | zero => intro i n w r h; simp [writeLoop] at h
  | succ fuel ih =>
    intro i n w r h
    rw [show fuel + 1 + k = (fuel + k) + 1 by omega]
    rw [writeLoop] at h ⊢
    split
    · rename_i hlt
      rw [if_pos hlt] at h
      simp only at h ⊢
      split
      · rename_i heq
        rw [heq] at h
        exact h
      · rename_i heq
        rw [heq] at h
        exact ih _ _ _ _ h
    · rename_i hlt
      rw [if_neg hlt] at h
      exact h

theorem sentCount_le (budget : Option Nat) (k : Nat) : sentCount budget k ≤ k := by
  unfold sentCount
  cases budget with
  | none => exact le_refl _
  | some b => exact Nat.min_le_right _ _

theorem Write_ok (M fuel : Nat) (p : List Byte) (w w1 : ExtractServer) (n : Nat)
    (hcs : 1 ≤ M / 2)
    (h : extractObjectWriter.Write M fuel p w = some ((n, none), w1)) :
    w1.sent = w.sent ++ (chunkList (M / 2) p).map objectOp := by
  unfold extractObjectWriter.Write at h
  have h1 := writeLoop_mono (M / 2) p ((p.length + M / 2 - 1) / (M / 2) + 1) fuel 0 0 w _ h
  rw [writeLoop_spec (M / 2) p hcs ((p.length + M / 2 - 1) / (M / 2)) _ 0 0 w (by omega)
    (by omega)] at h1
  injection h1 with h1
  injection h1 with h2 h3
  injection h2 with _ h4
  have hle := sentCount_le w.budget ((p.length + M / 2 - 1) / (M / 2))
  have hcount : sentCount w.budget ((p.length + M / 2 - 1) / (M / 2))
      = (p.length + M / 2 - 1) / (M / 2) := by
    by_contra hne
    have hlt : sentCount w.budget ((p.length + M / 2 - 1) / (M / 2))
        < (p.length + M / 2 - 1) / (M / 2) := by omega
    rw [if_pos hlt] at h4
    cases h4
  rw [← h3, hcount, ← chunkList_eq]

theorem GetObject_ok (env : Env) (fuel : Nat) (hcs : 1 ≤ env.MaxMsgSize / 2) :
    ∀ (pieces : List (List Byte)) (getErr : Option GoError) (w w1 : ExtractServer),
      GetObject env fuel pieces getErr w = some (none, w1) →
      w1.sent = w.sent ++
        ((pieces.map (chunkList (env.MaxMsgSize / 2))).flatten).map objectOp := by
  intro pieces
  induction pieces with
  | nil =>
    intro getErr w w1 h
    simp only [GetObject] at h
    injection h with h
    injection h with _ h
    subst h; simp
  | cons p ps ih =>
    intro getErr w w1 h
    rw [GetObject] at h
    split at h
    · cases h
    · cases h
    · rename_i n w2 hw
      rw [ih getErr w2 w1 h, Write_ok _ _ _ _ _ _ hcs hw]
      simp

theorem ListObject_ok (env : Env) (fuel : Nat) (hcs : 1 ≤ env.MaxMsgSize / 2) :
    ∀ (objects : List ObjectData) (listErr : Option GoError) (s s1 : ExtractServer),
      ListObject env fuel objects listErr s = some (none, s1) →
      s1.sent = s.sent ++ (objects.map (objectOps (env.MaxMsgSize / 2))).flatten := by
  intro objects
  induction objects with
  | nil =>
    intro listErr s s1 h
    simp only [ListObject] at h
    injection h with h
    injection h with _ h
    subst h; simp
  | cons o os ih =>
    intro listErr s s1 h
    rw [ListObject] at h
    split at h
    · cases h
    · cases h
    · rename_i s2 hg
      split at h
      · cases h
      · rename_i s3 hsend
        rw [ih listErr s3 s1 h, Send_ok _ _ _ hsend, GetObject_ok env fuel hcs _ _ _ _ hg]
        simp [objectOps, dataChunks, objectOp]

theorem ListTag_ok (tags : List pfs.ListTagsResponse) (listErr : Option GoError)
    (s s1 : ExtractServer) (h : ListTag tags listErr s = (none, s1)) :
    s1.sent = s.sent ++ tags.map tagOp := by
  unfold ListTag at h
  split at h
  · cases h
  · rename_i s2 hs
    injection h with _ h
    subst h
    exact sendAll_ok _ _ _ hs

theorem repoLoop_ok (c : ExtractClient) :
    ∀ (ris : List pfs.RepoInfo) (s s1 : ExtractServer),
      repoLoop c ris s = (none, s1) →
      s1.sent = s.sent ++
        ((ris.filter (fun ri => ri.Provenance.length = 0)).map (repoOps c)).flatten := by
  intro ris
  induction ris with
  | nil =>
    intro s s1 h
    simp only [repoLoop] at h
    injection h with _ h
    subst h; simp
  | cons ri ris ih =>
    intro s s1 h
    rw [repoLoop] at h
    split at h
    · rename_i hprov
      have hf : decide (ri.Provenance.length = 0) = false := by
        simp only [decide_eq_false_iff_not]; omega
      rw [List.filter_cons, hf]
      exact ih s s1 h
    · rename_i hprov
      have hf : decide (ri.Provenance.length = 0) = true := by
        simp only [decide_eq_true_eq]; omega
      rw [List.filter_cons, hf]
      split at h
      · cases h
      · rename_i s2 hsend
        split at h
        · cases h
        · split at h
          · cases h
          · rename_i s3 hcommits
            split at h
            · cases h
            · split at h
              · cases h
              · rename_i s4 hbranches
                rw [ih s4 s1 h, sendAll_ok _ _ _ hbranches, sendAll_ok _ _ _ hcommits,
                  Send_ok _ _ _ hsend]
                simp [repoOps]

end admin

namespace admin

theorem objectOps_version (cs : Nat) (o : ObjectData) :
    ∀ op ∈ objectOps cs o, op.Version = none := by
  intro op hop
  simp only [objectOps, List.mem_append, List.mem_map, List.mem_singleton] at hop
  rcases hop with ⟨_, _, rfl⟩ | rfl <;> rfl

theorem repoOps_version (c : ExtractClient) (ri : pfs.RepoInfo) :
    ∀ op ∈ repoOps c ri, op.Version = none := by
  intro op hop
  simp only [repoOps, List.mem_append, List.mem_map, List.mem_singleton] at hop
  rcases hop with (rfl | ⟨_, _, rfl⟩) | ⟨_, _, rfl⟩ <;> rfl

theorem specStream_tail_version (cs : Nat) (c : ExtractClient) (request : ExtractRequest) :
    ∀ op ∈ (specStream cs c request).tail, op.Version = none := by
  intro op hop
  have htail : (specStream cs c request).tail =
      (if request.NoObjects then []
        else (c.Objects.map (objectOps cs)).flatten ++ c.Tags.map tagOp) ++
      (if request.NoRepos then []
        else ((c.Repos.filter (fun ri => ri.Provenance.length = 0)).map
          (repoOps c)).flatten) ++
      (if request.NoPipelines then [] else c.Pipelines.map pipelineOp) := by
    simp [specStream]
  rw [htail] at hop
  rcases List.mem_append.1 hop with hop | hop
  · rcases List.mem_append.1 hop with hop | hop
    · split at hop
      · cases hop
      · rcases List.mem_append.1 hop with h | h
        · simp only [List.mem_flatten, List.mem_map] at h
          obtain ⟨l, ⟨o, _, rfl⟩, hl⟩ := h
          exact objectOps_version cs o op hl
        · simp only [List.mem_map] at h
          obtain ⟨_, _, rfl⟩ := h
          rfl
    · split at hop
      · cases hop
      · simp only [List.mem_flatten, List.mem_map] at hop
        obtain ⟨l, ⟨ri, _, rfl⟩, hl⟩ := hop
        exact repoOps_version c ri op hl
  · split at hop
    · cases hop
    · simp only [List.mem_map] at hop
      obtain ⟨_, _, rfl⟩ := hop
      rfl

/-- C5. The ops sent by a successful `Extract` (chunk size `MaxMsgSize / 2 ≥ 1`) are the
stream of the specification: one `Version` op first, and no other `Version` op; unless
`NoObjects`, for each listed object its data chunks, none of them empty, followed by one
empty chunk, and after all objects one `TagBinding` per tag binding; unless `NoRepos`,
for each repository without provenance, and for no other, one `RepoCreate`, the
`CommitBuild`s in `sortCommitInfos` order, and one `BranchCreate` per branch; unless
`NoPipelines`, one `PipelineCreate` per pipeline in listing order. -/
theorem Extract_stream_shape (env : Env) (c : ExtractClient) (fuel : Nat)
    (request : ExtractRequest) (s s1 : ExtractServer) (hcs : 1 ≤ env.MaxMsgSize / 2)
    (h : apiServer.Extract env (Except.ok c) fuel request s = some (none, s1)) :
    s1.sent = s.sent ++ specStream (env.MaxMsgSize / 2) c request ∧
    (∀ op ∈ (specStream (env.MaxMsgSize / 2) c request).tail, op.Version = none) ∧
    (∀ o ∈ c.Objects, ∀ ch ∈ dataChunks (env.MaxMsgSize / 2) o, ch ≠ []) := by
  refine ⟨?_, specStream_tail_version _ c request, ?_⟩
  · unfold apiServer.Extract at h
    simp only at h
    split at h
    · cases h
    · split at h
      · cases h
      · rename_i sa hsend
        split at h
        · cases h
        · cases h
        · rename_i sb hobj
          split at h
          · cases h
          · rename_i sc hrepo
            have h1 : sa.sent = s.sent ++ [{ Version := some c.Version }] :=
              Send_ok _ _ _ hsend
            have h2 : sb.sent = sa.sent ++ (if request.NoObjects then []
                else (c.Objects.map (objectOps (env.MaxMsgSize / 2))).flatten ++
                  c.Tags.map tagOp) := by
              cases hno : request.NoObjects with
              | true =>
                rw [hno] at hobj
                simp only [Bool.not_true, Bool.false_eq_true, if_false] at hobj
                injection hobj with hobj
                injection hobj with _ hobj
                subst hobj; simp
              | false =>
                rw [hno] at hobj
                simp only [Bool.not_false, if_true, extractObjects] at hobj
                split at hobj
                · cases hobj
                · cases hobj
                · rename_i sd hlist
                  injection hobj with hobj
                  rw [ListTag_ok _ _ _ _ hobj, ListObject_ok env fuel hcs _ _ _ _ hlist]
                  simp
            have h3 : sc.sent = sb.sent ++ (if request.NoRepos then []
                else ((c.Repos.filter (fun ri => ri.Provenance.length = 0)).map
                  (repoOps c)).flatten) := by
              cases hno : request.NoRepos with
              | true =>
                rw [hno] at hrepo
                simp only [Bool.not_true, Bool.false_eq_true, if_false] at hrepo
                injection hrepo with _ hrepo
                subst hrepo; simp
              | false =>
                rw [hno] at hrepo
                simp only [Bool.not_false, if_true, extractRepos] at hrepo
                split at hrepo
                · cases hrepo
                · rw [repoLoop_ok c _ _ _ hrepo]
                  simp
            have h4 : s1.sent = sc.sent ++ (if request.NoPipelines then []
                else c.Pipelines.map pipelineOp) := by
              cases hno : request.NoPipelines with
              | true =>
                rw [hno] at h
                simp only [Bool.not_true, Bool.false_eq_true, if_false] at h
                injection h with h
                injection h with _ h
                subst h; simp
              | false =>
                rw [hno] at h
                simp only [Bool.not_false, if_true, extractPipelines] at h
                injection h with h
                split at h
                · cases h
                · rw [sendAll_ok _ _ _ h]
                  simp
            rw [h4, h3, h2, h1]
            simp [specStream, List.append_assoc]
  · intro o _ ch hch h0
    simp only [dataChunks, List.mem_flatten, List.mem_map] at hch
    obtain ⟨l, ⟨p, _, rfl⟩, hl⟩ := hch
    have := (chunkList_mem_length _ p hcs ch hl).1
    rw [h0] at this
    simp at this

end admin

namespace admin

theorem exStore_extract :
    apiServer.Extract exEnv (Except.ok exStore) 10 {} {} =
      some (none, { sent := specStream (exEnv.MaxMsgSize / 2) exStore {} }) := by
  decide

/-- Witness of C5 on the example store: the derived repository `out` is skipped and the
commits of `r` come root first. -/
theorem Extract_stream_shape_witness :
    ({ sent := specStream (exEnv.MaxMsgSize / 2) exStore {} } : ExtractServer).sent =
        ({} : ExtractServer).sent ++ specStream (exEnv.MaxMsgSize / 2) exStore {} ∧
    (∀ op ∈ (specStream (exEnv.MaxMsgSize / 2) exStore {}).tail, op.Version = none) ∧
    (∀ o ∈ exStore.Objects, ∀ ch ∈ dataChunks (exEnv.MaxMsgSize / 2) o, ch ≠ []) :=
  Extract_stream_shape exEnv exStore 10 {} {} _ (by decide) exStore_extract

end admin

namespace pfsserver

/-! ## The deployment flag -/

/-- C9, as amended. With `NewStorageLayer` off: `GetTarV2` returns 0 bytes and
"new storage layer disabled" and leaves the stream untouched. `FileOperationV2` and
`GetTarConditionalV2` first receive one message, the initial request: when one arrives
they return 0 bytes and "new storage layer disabled", when the receive fails they return
0 bytes and its error; in both cases they receive nothing else, send nothing, do not
close the stream, and `FileOperationV2` opens no file set handle. -/
theorem storage_layer_disabled (a : apiServer) (h : a.NewStorageLayer = false) :
    (∀ request server, a.GetTarV2 request server = ((0, some disabled), server)) ∧
    (∀ fuel (server : FileOperationV2Server) req rest, server.pending = req :: rest →
      a.FileOperationV2 fuel server =
        Run.ret ((0, some disabled),
          { server with pending := rest, recvs := server.recvs + 1 }, [])) ∧
    (∀ fuel (server : FileOperationV2Server), server.pending = [] →
      a.FileOperationV2 fuel server =
        Run.ret ((0, some server.recvErr), { server with recvs := server.recvs + 1 }, [])) ∧
    (∀ fuel (server : GetTarConditionalV2Server) req rest, server.pending = req :: rest →
      a.GetTarConditionalV2 fuel server =
        some ((0, some disabled),
          { server with pending := rest, recvs := server.recvs + 1 })) ∧
    (∀ fuel (server : GetTarConditionalV2Server), server.pending = [] →
      a.GetTarConditionalV2 fuel server =
        some ((0, some server.recvErr), { server with recvs := server.recvs + 1 })) := by
  refine ⟨?_, ?_, ?_, ?_, ?_⟩
  · intro request server
    simp [apiServer.GetTarV2, h]
  · intro fuel server req rest hp
    simp [apiServer.FileOperationV2, Stream.Recv, hp, h]
  · intro fuel server hp
    simp [apiServer.FileOperationV2, Stream.Recv, hp]
  · intro fuel server req rest hp
    simp [apiServer.GetTarConditionalV2, Stream.Recv, hp, h]
  · intro fuel server hp
    simp [apiServer.GetTarConditionalV2, Stream.Recv, hp]

/-- Witness of C9, as amended, on a server with the flag off. -/
theorem storage_layer_disabled_witness :
    (∀ request server, exDisabled.GetTarV2 request server = ((0, some disabled), server)) ∧
    (∀ fuel (server : FileOperationV2Server) req rest, server.pending = req :: rest →
      exDisabled.FileOperationV2 fuel server =
        Run.ret ((0, some disabled),
          { server with pending := rest, recvs := server.recvs + 1 }, [])) ∧
    (∀ fuel (server : FileOperationV2Server), server.pending = [] →
      exDisabled.FileOperationV2 fuel server =
        Run.ret ((0, some server.recvErr), { server with recvs := server.recvs + 1 }, [])) ∧
    (∀ fuel (server : GetTarConditionalV2Server) req rest, server.pending = req :: rest →
      exDisabled.GetTarConditionalV2 fuel server =
        some ((0, some disabled),
          { server with pending := rest, recvs := server.recvs + 1 })) ∧
    (∀ fuel (server : GetTarConditionalV2Server), server.pending = [] →
      exDisabled.GetTarConditionalV2 fuel server =
        some ((0, some server.recvErr), { server with recvs := server.recvs + 1 })) :=
  storage_layer_disabled exDisabled rfl

/-- C9, as stated, fails: with the flag off, `FileOperationV2` has received one message
when it returns, and when that receive fails it returns the error of the receive, not
"new storage layer disabled"; so does `GetTarConditionalV2`. -/
theorem storage_layer_disabled_receives :
    exDisabled.FileOperationV2 1 { pending := [{}] } =
      Run.ret ((0, some disabled), { pending := [], recvs := 1 }, []) ∧
    exDisabled.FileOperationV2 1 { pending := [], recvErr := GoError.msg "reset" } =
      Run.ret ((0, some (GoError.msg "reset")),
        { pending := [], recvErr := GoError.msg "reset", recvs := 1 }, []) ∧
    exDisabled.GetTarConditionalV2 1 { pending := [{}] } =
      some ((0, some disabled), { pending := [], recvs := 1 }) ∧
    exDisabled.GetTarConditionalV2 1 { pending := [], recvErr := GoError.msg "reset" } =
      some ((0, some (GoError.msg "reset")),
        { pending := [], recvErr := GoError.msg "reset", recvs := 1 }) := by
  refine ⟨?_, ?_, ?_, ?_⟩ <;> decide

end pfsserver

namespace pfsserver

/-! ## GetTarConditionalV2 -/

theorem Send_none {Req Resp : Type} (s : Stream Req Resp) (resp : Resp)
    (h : s.budget = none) :
    s.Send resp = (none, { s with sent := s.sent ++ [resp] }) := by
  unfold Stream.Send
  rw [h]

theorem gtcw_Write_ok (w : getTarConditionalWriter) (data : List Byte)
    (h : w.server.budget = none) :
    w.Write data = ((data.length, none),
      { server := { w.server with sent := w.server.sent ++ [dataMsg data] },
        bytesWritten := w.bytesWritten + data.length }) := by
  unfold getTarConditionalWriter.Write
  rw [Send_none _ _ h]

theorem emits_refl (b : bufioWriter) (h : b.Good) : b.Emits b [] := by
  refine ⟨h, rfl, ?_, ?_, ?_⟩
  · simp
  · simp
  · intro d hd; cases hd

theorem emits_trans {b b1 b2 : bufioWriter} {d1 d2 : List (List Byte)}
    (h1 : b.Emits b1 d1) (h2 : b1.Emits b2 d2) : b.Emits b2 (d1 ++ d2) := by
  obtain ⟨_, s1, v1, w1, n1⟩ := h1
  obtain ⟨g2, s2, v2, w2, n2⟩ := h2
  refine ⟨g2, s2.trans s1, ?_, ?_, ?_⟩
  · rw [v2, v1]; simp
  · rw [w2, w1]; simp; omega
  · intro d hd
    rcases List.mem_append.1 hd with h | h
    · exact n1 d h
    · exact n2 d h

theorem Flush_good (b : bufioWriter) (h : b.Good) :
    ∃ b1 datas, b.Flush = (none, b1) ∧ b.Emits b1 datas ∧ b1.buf = [] ∧
      datas.flatten = b.buf := by
  obtain ⟨he, hb, hs, hl⟩ := h
  by_cases hbuf : b.buf.length = 0
  · have hnil : b.buf = [] := List.eq_nil_of_length_eq_zero hbuf
    refine ⟨b, [], ?_, emits_refl b ⟨he, hb, hs, hl⟩, hnil, by simp [hnil]⟩
    unfold bufioWriter.Flush
    rw [he]
    simp [hbuf]
  · have hne : b.buf ≠ [] := fun h0 => hbuf (by rw [h0]; rfl)
    refine ⟨{ b with
        wr := { server := { b.wr.server with sent := b.wr.server.sent ++ [dataMsg b.buf] },
                bytesWritten := b.wr.bytesWritten + b.buf.length },
        buf := [] }, [b.buf], ?_, ?_, rfl, by simp⟩
    · unfold bufioWriter.Flush
      rw [he]
      simp only [hbuf, if_false, gtcw_Write_ok _ _ hb]
      simp
    · refine ⟨⟨he, hb, hs, by simp⟩, rfl, by simp, by simp, ?_⟩
      intro d hd
      simp only [List.mem_singleton] at hd
      rw [hd]; exact hne

theorem bufioWriteLoop_empty (b : bufioWriter) (h : b.Good) (hbuf : b.buf = [])
    (p : List Byte) (nn fuel : Nat) (hf : 2 ≤ fuel) :
    ∃ b1 datas, bufioWriteLoop fuel b p nn = some ((nn + p.length, none), b1) ∧
      b.Emits b1 datas ∧ datas.flatten ++ b1.buf = p := by
  obtain ⟨he, hb, hs, hl⟩ := h
  obtain ⟨f, rfl⟩ : ∃ f, fuel = f + 2 := ⟨fuel - 2, by omega⟩
  by_cases hlen : p.length > b.size
  · have hne : p ≠ [] := by
      intro h0; rw [h0] at hlen; simp at hlen
    refine ⟨{ b with
        wr := { server := { b.wr.server with sent := b.wr.server.sent ++ [dataMsg p] },
                bytesWritten := b.wr.bytesWritten + p.length },
        err := none, buf := [] ++ [] }, [p], ?_, ?_, by simp⟩
    · rw [bufioWriteLoop]
      simp only [hbuf, List.length_nil, Nat.sub_zero, hlen, decide_True, he,
        Option.isNone_none, Bool.and_self, if_true, gtcw_Write_ok _ _ hb]
      rw [bufioWriteLoop]
      simp [hbuf]
    · refine ⟨⟨rfl, hb, hs, by simp⟩, rfl, by simp, by simp, ?_⟩
      intro d hd
      simp only [List.mem_singleton] at hd
      rw [hd]; exact hne
  · refine ⟨{ b with buf := b.buf ++ p }, [], ?_, ?_, by simp [hbuf]⟩
    · rw [bufioWriteLoop]
      simp [hbuf, hlen, he]
    · refine ⟨⟨he, hb, hs, ?_⟩, rfl, by simp, by simp, ?_⟩
      · simp [hbuf]; omega
      · intro d hd; cases hd

theorem bufioWriteLoop_good (b : bufioWriter) (h : b.Good) (p : List Byte)
    (nn fuel : Nat) (hf : 3 ≤ fuel) :
    ∃ b1 datas, bufioWriteLoop fuel b p nn = some ((nn + p.length, none), b1) ∧
      b.Emits b1 datas ∧ datas.flatten ++ b1.buf = b.buf ++ p := by
  by_cases hbuf : b.buf = []
  · obtain ⟨b1, datas, h1, h2, h3⟩ := bufioWriteLoop_empty b h hbuf p nn fuel (by omega)
    exact ⟨b1, datas, h1, h2, by rw [h3, hbuf]; simp⟩
  · obtain ⟨he, hb, hs, hl⟩ := h
    have hlen0 : ¬ b.buf.length = 0 := fun h0 => hbuf (List.eq_nil_of_length_eq_zero h0)
    obtain ⟨f, rfl⟩ : ∃ f, fuel = f + 1 := ⟨fuel - 1, by omega⟩
    by_cases hlen : p.length > b.size - b.buf.length
    · have hg1 : ({ b with buf := b.buf ++ p.take (b.size - b.buf.length) } :
          bufioWriter).Good := by
        refine ⟨he, hb, hs, ?_⟩
        simp only [List.length_append, List.length_take]
        omega
      obtain ⟨b1, d1, hfl, hem1, hb1, hd1⟩ := Flush_good _ hg1
      obtain ⟨b2, d2, hl2, hem2, hd2⟩ := bufioWriteLoop_empty b1 hem1.1 hb1
        (p.drop (b.size - b.buf.length)) (nn + (p.take (b.size - b.buf.length)).length)
        f (by omega)
      refine ⟨b2, d1 ++ d2, ?_, ?_, ?_⟩
      · rw [bufioWriteLoop]
        simp only [he] at hfl
        simp only [hlen, decide_True, he, Option.isNone_none, Bool.and_self, if_true,
          hlen0, if_false, hfl]
        rw [hl2]
        have : (p.take (b.size - b.buf.length)).length +
            (p.drop (b.size - b.buf.length)).length = p.length := by
          rw [← List.length_append, List.take_append_drop]
        rw [Nat.add_assoc, this]
      · have := emits_trans hem1 hem2
        exact ⟨this.1, this.2.1, this.2.2.1, this.2.2.2.1, this.2.2.2.2⟩
      · rw [List.flatten_append, List.append_assoc, hd2, hd1]
        simp only [List.append_assoc, List.take_append_drop]
    · refine ⟨{ b with buf := b.buf ++ p }, [], ?_, ?_, by simp⟩
      · rw [bufioWriteLoop]
        simp [hlen, he]
      · refine ⟨⟨he, hb, hs, ?_⟩, rfl, by simp, by simp, ?_⟩
        · simp only [List.length_append]; omega
        · intro d hd; cases hd

end pfsserver

namespace pfsserver

theorem Get_good (fuel : Nat) (hf : 3 ≤ fuel) :
    ∀ (writes : List (List Byte)) (w : bufioWriter), w.Good →
      ∃ w1 datas, FileReader.Get fuel writes none w = some (none, w1) ∧
        w.Emits w1 datas ∧ datas.flatten ++ w1.buf = w.buf ++ writes.flatten := by
  intro writes
  induction writes with
  | nil =>
    intro w hg
    exact ⟨w, [], rfl, emits_refl w hg, by simp⟩
  | cons p ps ih =>
    intro w hg
    obtain ⟨w1, d1, h1, he1, hd1⟩ := bufioWriteLoop_good w hg p 0 fuel hf
    obtain ⟨w2, d2, h2, he2, hd2⟩ := ih w1 he1.1
    refine ⟨w2, d1 ++ d2, ?_, emits_trans he1 he2, ?_⟩
    · rw [FileReader.Get, bufioWriter.Write, h1]
      exact h2
    · rw [List.flatten_append, List.append_assoc, hd2, ← List.append_assoc, hd1]
      simp

theorem conditionalCallback_skip (M fuel : Nat) (fr : FileReader)
    (server : GetTarConditionalV2Server) (bw : Nat)
    (req : pfs.GetTarConditionalRequestV2) (rest : List pfs.GetTarConditionalRequestV2)
    (hb : server.budget = none) (hp : server.pending = req :: rest)
    (hskip : req.Skip = true) :
    conditionalCallback M fuel fr server bw =
      some (none, { server with sent := server.sent ++ [infoMsg fr.Info], pending := rest,
                                recvs := server.recvs + 1 }, bw) := by
  unfold conditionalCallback
  rw [Send_none _ _ hb]
  simp [Stream.Recv, hp, hskip]

theorem conditionalCallback_fetch (M fuel : Nat) (hf : 3 ≤ fuel) (fr : FileReader)
    (server : GetTarConditionalV2Server) (bw : Nat)
    (req : pfs.GetTarConditionalRequestV2) (rest : List pfs.GetTarConditionalRequestV2)
    (hb : server.budget = none) (hp : server.pending = req :: rest)
    (hskip : req.Skip = false) (hget : fr.getErr = none) :
    ∃ datas : List (List Byte), datas.flatten = fr.content ∧ (∀ d ∈ datas, d ≠ []) ∧
      conditionalCallback M fuel fr server bw =
        some (none,
          { server with
            sent := server.sent ++ (infoMsg fr.Info :: (datas.map dataMsg ++ [eofMsg])),
            pending := rest, recvs := server.recvs + 1 },
          bw + fr.content.length) := by
  have hg0 : (NewWriterSize
      { server := { server with sent := server.sent ++ [infoMsg fr.Info], pending := rest,
                                recvs := server.recvs + 1 } } M).Good := by
    refine ⟨rfl, hb, ?_, by simp [NewWriterSize]⟩
    simp only [NewWriterSize]
    split <;> omega
  obtain ⟨w1, d1, h1, he1, hd1⟩ := Get_good fuel hf fr.writes _ hg0
  obtain ⟨w2, d2, h2, he2, hb2, hd2⟩ := Flush_good w1 he1.1
  have hem := emits_trans he1 he2
  obtain ⟨hg2, _, hsrv, hbytes, hne⟩ := hem
  have hflat : (d1 ++ d2).flatten = fr.content := by
    have : d1.flatten ++ w1.buf = fr.writes.flatten := by
      simpa [NewWriterSize] using hd1
    rw [List.flatten_append, hd2, this]
    rfl
  refine ⟨d1 ++ d2, hflat, hne, ?_⟩
  unfold conditionalCallback
  rw [Send_none _ _ hb]
  simp only [Stream.Recv, hp, hskip, Bool.false_eq_true, if_false]
  rw [hget, h1]
  simp only [h2]
  rw [Send_none _ _ hg2.2.1, hsrv, hbytes, hflat]
  simp [NewWriterSize]

/-- The driver loop over the matching files, with one decision per file on the stream. -/
theorem getTarConditional_served (M fuel : Nat) (hf : 3 ≤ fuel) (err : Option GoError)
    (extra : List pfs.GetTarConditionalRequestV2) :
    ∀ (frs : List FileReader) (reqs : List pfs.GetTarConditionalRequestV2)
      (server : GetTarConditionalV2Server) (bw : Nat),
      reqs.length = frs.length → server.budget = none → server.pending = reqs ++ extra →
      (∀ fr ∈ frs, fr.getErr = none) →
      ∃ out, Served frs (reqs.map (fun r => r.Skip)) out
          (fetchedTotal frs (reqs.map (fun r => r.Skip))) ∧
        getTarConditional M fuel frs err server bw =
          some (err,
            { server with sent := server.sent ++ out, pending := extra,
                          recvs := server.recvs + frs.length },
            bw + fetchedTotal frs (reqs.map (fun r => r.Skip))) := by
  intro frs
  induction frs with
  | nil =>
    intro reqs server bw hlen hb hp _
    have hreqs : reqs = [] := List.eq_nil_of_length_eq_zero hlen
    subst hreqs
    refine ⟨[], Served.done, ?_⟩
    simp only [List.nil_append] at hp
    simp only [getTarConditional, List.map_nil, fetchedTotal, List.append_nil,
      List.length_nil, Nat.add_zero]
    rw [← hp]
  | cons fr frs ih =>
    intro reqs server bw hlen hb hp hget
    cases reqs with
    | nil => simp at hlen
    | cons req reqs =>
      have hlen1 : reqs.length = frs.length := by simpa using hlen
      have hget1 : ∀ fr ∈ frs, fr.getErr = none :=
        fun x hx => hget x (List.mem_cons_of_mem _ hx)
      have hp1 : server.pending = req :: (reqs ++ extra) := by rw [hp]; rfl
      cases hskip : req.Skip with
      | true =>
        have hcb := conditionalCallback_skip M fuel fr server bw req (reqs ++ extra) hb hp1
          hskip
        obtain ⟨out, hserved, hrun⟩ := ih reqs
          { server with
            sent := server.sent ++ [infoMsg fr.Info],
            pending := reqs ++ extra,
            recvs := server.recvs + 1 }
          bw hlen1 hb rfl hget1
        refine ⟨infoMsg fr.Info :: out, ?_, ?_⟩
        · simp only [List.map_cons, hskip, fetchedTotal]
          exact Served.skip fr frs _ out _ hserved
        · rw [getTarConditional, hcb]
          simp only [hrun, List.map_cons, hskip, fetchedTotal, List.length_cons]
          simp [Nat.add_assoc, Nat.add_comm 1]
      | false =>
        obtain ⟨datas, hflat, hne, hcb⟩ := conditionalCallback_fetch M fuel hf fr server bw
          req (reqs ++ extra) hb hp1 hskip (hget fr (List.mem_cons_self _ _))
        obtain ⟨out, hserved, hrun⟩ := ih reqs
          { server with
            sent := server.sent ++ (infoMsg fr.Info :: (datas.map dataMsg ++ [eofMsg])),
            pending := reqs ++ extra,
            recvs := server.recvs + 1 }
          (bw + fr.content.length) hlen1 hb rfl hget1
        refine ⟨infoMsg fr.Info :: (datas.map dataMsg ++ eofMsg :: out), ?_, ?_⟩
        · simp only [List.map_cons, hskip, fetchedTotal]
          exact Served.fetch fr frs _ datas out _ hflat hne hserved
        · rw [getTarConditional, hcb]
          simp only [hrun, List.map_cons, hskip, fetchedTotal, List.length_cons]
          simp [Nat.add_assoc, Nat.add_comm 1]

end pfsserver

namespace pfsserver

/-- C10. Conditional retrieval skip: with the flag on, a transport that accepts every
send, and one decision of the caller per matching file on the stream, whatever the files
and the decisions, `GetTarConditionalV2` sends for a skipped file its metadata and no
data message, for a fetched file its metadata, data messages that carry its whole
content, and one end marker; it returns without error the sum of the content sizes of
the fetched files only. -/
theorem GetTarConditionalV2_skip (a : apiServer) (fuel : Nat) (hf : 3 ≤ fuel)
    (server : GetTarConditionalV2Server) (request : pfs.GetTarConditionalRequestV2)
    (reqs : List pfs.GetTarConditionalRequestV2)
    (hflag : a.NewStorageLayer = true) (hb : server.budget = none)
    (hp : server.pending = request :: reqs)
    (hlen : reqs.length = (a.driver.files request.File.Commit.Repo request.File.Commit.ID
      request.File.Path).length)
    (hget : ∀ fr ∈ a.driver.files request.File.Commit.Repo request.File.Commit.ID
      request.File.Path, fr.getErr = none)
    (herr : a.driver.getTarConditionalErr = none) :
    ∃ out,
      Served (a.driver.files request.File.Commit.Repo request.File.Commit.ID
          request.File.Path) (reqs.map (fun r => r.Skip)) out
        (fetchedTotal (a.driver.files request.File.Commit.Repo request.File.Commit.ID
          request.File.Path) (reqs.map (fun r => r.Skip))) ∧
      a.GetTarConditionalV2 fuel server =
        some ((fetchedTotal (a.driver.files request.File.Commit.Repo request.File.Commit.ID
            request.File.Path) (reqs.map (fun r => r.Skip)), none),
          { server with
            sent := server.sent ++ out,
            pending := [],
            recvs := server.recvs + 1 + reqs.length }) := by
  obtain ⟨out, hserved, hrun⟩ := getTarConditional_served a.driver.MaxMsgSize fuel hf
    a.driver.getTarConditionalErr []
    (a.driver.files request.File.Commit.Repo request.File.Commit.ID request.File.Path) reqs
    { server with pending := reqs, recvs := server.recvs + 1 } 0 hlen hb (by simp) hget
  refine ⟨out, hserved, ?_⟩
  unfold apiServer.GetTarConditionalV2
  simp only [Stream.Recv, hp, hflag, Bool.not_true, Bool.false_eq_true, if_false, hrun]
  simp [herr, hlen]

/-- Witness of C10: three matching files of 3, 2 and 1 bytes, the caller skips the
second; the total is 4, the content size of the first and the third. -/
theorem GetTarConditionalV2_skip_witness :
    ∃ out,
      Served exFiles [false, true, false] out 4 ∧
      exEnabled.GetTarConditionalV2 5
          { pending := [{}, { Skip := false }, { Skip := true }, { Skip := false }] } =
        some ((4, none), { sent := out, pending := [], recvs := 4 }) := by
  have h := GetTarConditionalV2_skip exEnabled 5 (by decide)
    { pending := [{}, { Skip := false }, { Skip := true }, { Skip := false }] } {}
    [{ Skip := false }, { Skip := true }, { Skip := false }] rfl rfl rfl rfl
    (by
      intro fr hfr
      have hmem : fr ∈ exFiles := hfr
      simp only [exFiles, List.mem_cons, List.mem_singleton, List.not_mem_nil,
        or_false] at hmem
      rcases hmem with rfl | rfl | rfl <;> rfl)
    rfl
  obtain ⟨out, h1, h2⟩ := h
  exact ⟨out, h1, by rw [h2]; rfl⟩

end pfsserver

namespace admin

/-! ## A message of another variant -/

/-- When `extractObjectReader.Read` has to receive and the op received is no object
chunk, it returns no byte and the error "expected an object"; the bytes buffered so far
stay in the buffer. -/
theorem extractObjectReader_Read_other_variant (env : Env) (r : extractObjectReader)
    (lenP : Nat) (op : Op) (rest : List Op)
    (hp : r.adminAPIRestoreServer.pending = op :: rest) (hop : op.Object = none)
    (hlen : lenP > r.buf.length) (heof : r.eof = false) :
    r.Read env lenP =
      (([], some (GoError.msg ("expected an object, but got: " ++ env.showOp op))),
        { r with
          adminAPIRestoreServer :=
            { r.adminAPIRestoreServer with
              pending := rest,
              log := r.adminAPIRestoreServer.log ++ [Event.recv op] } }) := by
  unfold extractObjectReader.Read
  rw [hp, readLoop]
  simp [hlen, heof, hop]

end admin

namespace pfsserver

/-- When `putTarReader.Read` has to receive and the message received is no `PutTar`
message, the type assertion panics: `Read` returns nothing. -/
theorem putTarReader_Read_other_variant (ptr : putTarReader) (lenData : Nat)
    (req : pfs.FileOperationRequestV2) (rest : List pfs.FileOperationRequestV2)
    (hr : ptr.r = []) (hp : ptr.server.pending = req :: rest)
    (hop : ∀ put, req.Operation ≠ pfs.Operation.PutTar put) :
    ptr.Read lenData =
      Run.panic "interface conversion: not *pfs.FileOperationRequestV2_PutTar" := by
  cases hreq : req.Operation with
  | unset =>
    unfold putTarReader.Read
    simp [hr, Stream.Recv, hp, hreq]
  | DeleteFiles d =>
    unfold putTarReader.Read
    simp [hr, Stream.Recv, hp, hreq]
  | PutTar put => exact absurd hreq (hop put)

/-- C11, at the failing input. On a tag binding, `extractObjectReader.Read` returns no
byte and the error "expected an object". On a `DeleteFiles` message,
`putTarReader.Read` panics in its type assertion instead of returning an error, and so
does the enclosing `FileOperationV2` when the message arrives in the middle of a put. -/
theorem Read_other_variant :
    admin.extractObjectReader.Read admin.exEnv
        { adminAPIRestoreServer := { pending := [admin.exTagOp] }, buf := [1] } 4 =
      (([], some (GoError.msg "expected an object, but got: op")),
        { adminAPIRestoreServer := { pending := [], log := [admin.Event.recv admin.exTagOp] },
          buf := [1] }) ∧
    putTarReader.Read { server := { pending := [exDeleteReq] }, r := [] } 4 =
      Run.panic "interface conversion: not *pfs.FileOperationRequestV2_PutTar" ∧
    exEnabled.FileOperationV2 5
        { pending := [{}, wrapPut { Tag := "t", Data := [1] }, exDeleteReq] } =
      Run.panic "interface conversion: not *pfs.FileOperationRequestV2_PutTar" := by
  refine ⟨?_, ?_, ?_⟩ <;> decide

end pfsserver

namespace pfsserver

/-! ## Metadata messages of GetTarConditionalV2 -/

theorem served_infos (frs : List FileReader) (skips : List Bool)
    (out : List pfs.GetTarConditionalResponseV2) (n : Nat) (h : Served frs skips out n) :
    out.filter isInfo = frs.map (fun fr => infoMsg fr.Info) := by
  induction h with
  | done => rfl
  | skip fr frs skips out n _ ih =>
    simp only [List.map_cons]
    rw [List.filter_cons_of_pos (by rfl), ih]
  | fetch fr frs skips datas out n _ _ _ ih =>
    have hd : (datas.map dataMsg).filter isInfo = [] := by
      rw [List.filter_eq_nil_iff]
      intro m hm
      simp only [List.mem_map] at hm
      obtain ⟨d, _, rfl⟩ := hm
      simp [isInfo, dataMsg]
    simp only [List.map_cons]
    rw [List.filter_cons_of_pos (by rfl), List.filter_append, hd, List.nil_append,
      List.filter_cons_of_neg (by simp [isInfo, eofMsg]), ih]

theorem served_content_after_info (frs : List FileReader) (skips : List Bool)
    (out : List pfs.GetTarConditionalResponseV2) (n : Nat) (h : Served frs skips out n) :
    ∀ pre m post, out = pre ++ m :: post → isData m = true →
      ∃ x ∈ pre, isInfo x = true := by
  intro pre m post hout hm
  have hhead : ∀ (info : pfs.FileInfoV2) (rest : List pfs.GetTarConditionalResponseV2),
      infoMsg info :: rest = pre ++ m :: post → ∃ x ∈ pre, isInfo x = true := by
    intro info rest heq
    cases pre with
    | nil =>
      simp only [List.nil_append, List.cons.injEq] at heq
      rw [← heq.1] at hm
      simp [isData, infoMsg] at hm
    | cons x pre =>
      simp only [List.cons_append, List.cons.injEq] at heq
      exact ⟨x, List.mem_cons_self _ _, by rw [← heq.1]; rfl⟩
  cases h with
  | done => simp at hout
  | skip fr frs skips out n _ => exact hhead _ _ hout
  | fetch fr frs skips datas out n _ _ _ => exact hhead _ _ hout

/-- C13, as amended. With the flag on, a transport that accepts every send, and one
decision of the caller per matching file, `GetTarConditionalV2` sends exactly one
metadata message per matching file, in the order of the files; the metadata of a file
comes first among the messages of that file, before its content and its end marker, so
every content message has a metadata message before it; the metadata of a later file
follows the content of the files fetched before it. -/
theorem GetTarConditionalV2_metadata (a : apiServer) (fuel : Nat) (hf : 3 ≤ fuel)
    (server : GetTarConditionalV2Server) (request : pfs.GetTarConditionalRequestV2)
    (reqs : List pfs.GetTarConditionalRequestV2)
    (hflag : a.NewStorageLayer = true) (hb : server.budget = none)
    (hp : server.pending = request :: reqs)
    (hlen : reqs.length = (a.driver.files request.File.Commit.Repo request.File.Commit.ID
      request.File.Path).length)
    (hget : ∀ fr ∈ a.driver.files request.File.Commit.Repo request.File.Commit.ID
      request.File.Path, fr.getErr = none)
    (herr : a.driver.getTarConditionalErr = none) :
    ∃ out s n,
      a.GetTarConditionalV2 fuel server = some ((n, none), s) ∧
      s.sent = server.sent ++ out ∧
      out.filter isInfo =
        (a.driver.files request.File.Commit.Repo request.File.Commit.ID
          request.File.Path).map (fun fr => infoMsg fr.Info) ∧
      Served (a.driver.files request.File.Commit.Repo request.File.Commit.ID
        request.File.Path) (reqs.map (fun r => r.Skip)) out n ∧
      (∀ pre m post, out = pre ++ m :: post → isData m = true →
        ∃ x ∈ pre, isInfo x = true) := by
  obtain ⟨out, hserved, hrun⟩ := getTarConditional_served a.driver.MaxMsgSize fuel hf
    a.driver.getTarConditionalErr []
    (a.driver.files request.File.Commit.Repo request.File.Commit.ID request.File.Path) reqs
    { server with pending := reqs, recvs := server.recvs + 1 } 0 hlen hb (by simp) hget
  refine ⟨out,
    { server with
      sent := server.sent ++ out,
      pending := [],
      recvs := server.recvs + 1 + reqs.length },
    fetchedTotal (a.driver.files request.File.Commit.Repo request.File.Commit.ID
      request.File.Path) (reqs.map (fun r => r.Skip)),
    ?_, rfl, served_infos _ _ _ _ hserved, hserved,
    served_content_after_info _ _ _ _ hserved⟩
  unfold apiServer.GetTarConditionalV2
  simp only [Stream.Recv, hp, hflag, Bool.not_true, Bool.false_eq_true, if_false, hrun]
  simp [herr, hlen]

end pfsserver

namespace pfsserver

/-- Witness of C13, as amended: three matching files, the caller skips the second. -/
theorem GetTarConditionalV2_metadata_witness :
    ∃ out s n,
      exEnabled.GetTarConditionalV2 5
          { pending := [{}, { Skip := false }, { Skip := true }, { Skip := false }] } =
        some ((n, none), s) ∧
      s.sent = [] ++ out ∧
      out.filter isInfo = exFiles.map (fun fr => infoMsg fr.Info) ∧
      Served exFiles [false, true, false] out n ∧
      (∀ pre m post, out = pre ++ m :: post → isData m = true →
        ∃ x ∈ pre, isInfo x = true) :=
  GetTarConditionalV2_metadata exEnabled 5 (by decide)
    { pending := [{}, { Skip := false }, { Skip := true }, { Skip := false }] } {}
    [{ Skip := false }, { Skip := true }, { Skip := false }] rfl rfl rfl rfl
    (by
      intro fr hfr
      have hmem : fr ∈ exFiles := hfr
      simp only [exFiles, List.mem_cons, List.mem_singleton, List.not_mem_nil,
        or_false] at hmem
      rcases hmem with rfl | rfl | rfl <;> rfl)
    rfl

/-- C13, as stated, fails: with three matching files of which the caller skips the
second, the three metadata messages do not all precede the content; the content and the
end marker of the first file are sent before the metadata of the second and the third. -/
theorem GetTarConditionalV2_metadata_interleaved :
    exEnabled.GetTarConditionalV2 5
        { pending := [{}, { Skip := false }, { Skip := true }, { Skip := false }] } =
      some ((4, none),
        { sent := [infoMsg { Hash := "f1" }, dataMsg [1, 2], dataMsg [3], eofMsg,
            infoMsg { Hash := "f2" },
            infoMsg { Hash := "f3" }, dataMsg [6], eofMsg],
          pending := [], recvs := 4 }) ∧
    metadataBeforeContent
        [infoMsg { Hash := "f1" }, dataMsg [1, 2], dataMsg [3], eofMsg,
          infoMsg { Hash := "f2" },
          infoMsg { Hash := "f3" }, dataMsg [6], eofMsg] = false := by
  constructor <;> decide

end pfsserver

namespace pfsserver

/-! ## The tar stream of a put -/

theorem recvExt_refl (s : FileOperationV2Server) : RecvExt s s :=
  ⟨rfl, rfl, rfl, rfl⟩

theorem recvExt_trans {s s1 s2 : FileOperationV2Server} (h1 : RecvExt s s1)
    (h2 : RecvExt s1 s2) : RecvExt s s2 :=
  ⟨h2.1.trans h1.1, h2.2.1.trans h1.2.1, h2.2.2.1.trans h1.2.2.1,
    h2.2.2.2.trans h1.2.2.2⟩

/-- One `Read` into a non-empty buffer, in the middle of a put: at the EOF-flagged
message it returns `io.EOF` and no byte, otherwise the next bytes, at least one. -/
theorem putTarReader_Read_streaming (n : Nat) (hn : 1 ≤ n)
    (tail : List pfs.FileOperationRequestV2) (D : List Byte) (ptr : putTarReader)
    (h : TarStreaming tail D ptr) :
    ∃ ptr1, RecvExt ptr.server ptr1.server ∧
      ((D = [] ∧ ptr.Read n = Run.ret (([], some GoError.EOF), ptr1) ∧
          ptr1.server.pending = tail ∧ ptr1.bytesRead = ptr.bytesRead) ∨
       (∃ data D1, data ≠ [] ∧ ptr.Read n = Run.ret ((data, none), ptr1) ∧
          D = data ++ D1 ∧ TarStreaming tail D1 ptr1 ∧
          ptr1.bytesRead = ptr.bytesRead + data.length)) := by
  obtain ⟨conts, last, hconts, hlast, hp, hD⟩ := h
  have htake : ∀ l : List Byte, l ≠ [] → l.take n ≠ [] := by
    intro l hl h0
    have h1 : (l.take n).length = 0 := by rw [h0]; rfl
    have h2 : 0 < l.length := List.length_pos.2 hl
    rw [List.length_take] at h1
    omega
  by_cases hr : ptr.r = []
  · cases conts with
    | nil =>
      refine ⟨{ ptr with
          server := { ptr.server with pending := tail, recvs := ptr.server.recvs + 1 } },
        ⟨rfl, rfl, rfl, rfl⟩, Or.inl ⟨by rw [hD, hr]; rfl, ?_, rfl, rfl⟩⟩
      simp only [List.map_nil, List.nil_append] at hp
      unfold putTarReader.Read
      simp [hr, Stream.Recv, hp, wrapPut, hlast]
    | cons c cs =>
      have hc := hconts c (List.mem_cons_self _ _)
      have hcs : ∀ x ∈ cs, x.EOF = false ∧ x.Data ≠ [] :=
        fun x hx => hconts x (List.mem_cons_of_mem _ hx)
      have hlen : ¬ c.Data.length = 0 := fun h0 => hc.2 (List.eq_nil_of_length_eq_zero h0)
      refine ⟨{ server := { ptr.server with
                  pending := cs.map wrapPut ++ wrapPut last :: tail,
                  recvs := ptr.server.recvs + 1 },
                r := c.Data.drop n,
                bytesRead := ptr.bytesRead + (c.Data.take n).length },
        ⟨rfl, rfl, rfl, rfl⟩, Or.inr ⟨c.Data.take n,
          c.Data.drop n ++ (cs.map (fun c => c.Data)).flatten, htake _ hc.2, ?_, ?_,
          ⟨cs, last, hcs, hlast, rfl, rfl⟩, rfl⟩⟩
      · simp only [List.map_cons, List.cons_append] at hp
        unfold putTarReader.Read
        simp [hr, Stream.Recv, hp, wrapPut, hc.1, bytesReaderRead, hlen]
      · rw [hD, hr]
        simp only [List.map_cons, List.flatten_cons, List.nil_append]
        rw [← List.append_assoc, List.take_append_drop]
  · have hlen : ¬ ptr.r.length = 0 := fun h0 => hr (List.eq_nil_of_length_eq_zero h0)
    refine ⟨{ ptr with r := ptr.r.drop n, bytesRead := ptr.bytesRead + (ptr.r.take n).length },
      ⟨rfl, rfl, rfl, rfl⟩, Or.inr ⟨ptr.r.take n,
        ptr.r.drop n ++ (conts.map (fun c => c.Data)).flatten, htake _ hr, ?_, ?_,
        ⟨conts, last, hconts, hlast, hp, rfl⟩, rfl⟩⟩
    · unfold putTarReader.Read
      simp [hlen, bytesReaderRead]
    · rw [hD, ← List.append_assoc, List.take_append_drop]

/-- Reading a put to its end with non-empty buffers returns exactly its payload, counts
its bytes, and leaves on the stream what follows the EOF-flagged message. -/
theorem readTar_streaming (sizes : Nat → Nat) (hs : ∀ k, 1 ≤ sizes k)
    (tail : List pfs.FileOperationRequestV2) :
    ∀ (fuel k : Nat) (D acc : List Byte) (ptr : putTarReader),
      TarStreaming tail D ptr → D.length + 1 ≤ fuel →
      ∃ ptr1, readTar sizes fuel k ptr acc = Run.ret (Except.ok (acc ++ D), ptr1) ∧
        ptr1.server.pending = tail ∧ ptr1.bytesRead = ptr.bytesRead + D.length ∧
        RecvExt ptr.server ptr1.server := by
  intro fuel
  induction fuel with
  | zero => intro k D acc ptr _ hf; omega
  | succ fuel ih =>
    intro k D acc ptr h hf
    obtain ⟨ptr1, hext, h1 | h1⟩ := putTarReader_Read_streaming (sizes k) (hs k) tail D ptr h
    · obtain ⟨hD, hread, hp, hb⟩ := h1
      refine ⟨ptr1, ?_, hp, by rw [hb, hD]; rfl, hext⟩
      rw [readTar, hread, hD]
    · obtain ⟨data, D1, hne, hread, hD, hst, hb⟩ := h1
      have hlen : D1.length + 1 ≤ fuel := by
        have := congrArg List.length hD
        have hpos : 0 < data.length := List.length_pos.2 hne
        simp only [List.length_append] at this
        omega
      obtain ⟨ptr2, h2, h3, h4, h5⟩ := ih (k + 1) D1 (acc ++ data) ptr1 hst hlen
      refine ⟨ptr2, ?_, h3, ?_, recvExt_trans hext h5⟩
      · rw [readTar, hread]
        simp only
        rw [h2, hD, List.append_assoc]
      · rw [h4, hb, hD, List.length_append]
        omega

end pfsserver

namespace pfsserver

/-! ## FileOperationV2 on a stream of complete sub-operations -/

theorem msgsSize_append (a b : List pfs.FileOperationRequestV2) :
    msgsSize (a ++ b) = msgsSize a + msgsSize b := by
  induction a with
  | nil => simp [msgsSize]
  | cons x a ih =>
    show (1 + _) + msgsSize (a ++ b) = (1 + _) + msgsSize a + msgsSize b
    rw [ih]; omega

theorem msgsSize_conts (conts : List pfs.PutTarRequestV2) :
    msgsSize (conts.map wrapPut) =
      conts.length + (conts.map (fun c => c.Data)).flatten.length := by
  induction conts with
  | nil => simp [msgsSize]
  | cons c cs ih =>
    simp only [List.map_cons, msgsSize, ih, wrapPut, List.length_cons, List.flatten_cons,
      List.length_append]
    omega

/-- The loop of `FileOperationV2` on complete sub-operations followed by `io.EOF`: it
applies them in order and counts the payload bytes of the puts. -/
theorem fileOperationLoop_subops (d : Driver) (hs : ∀ k, 1 ≤ d.readSize k) :
    ∀ (subops : List SubOp), (∀ o ∈ subops, o.WF) →
      ∀ (fuel : Nat) (fs : FileSet) (server : FileOperationV2Server) (bytesRead : Nat),
        server.pending = (subops.map SubOp.msgs).flatten → server.recvErr = GoError.EOF →
        msgsSize server.pending + 1 ≤ fuel →
        ∃ s1, fileOperationLoop d fuel fs server bytesRead =
            Run.ret (none, subops.foldl SubOp.apply fs, s1,
              bytesRead + (subops.map (fun o => o.payload.length)).sum) ∧
          s1.pending = [] ∧ s1.closeErr = server.closeErr ∧ s1.sent = server.sent ∧
          s1.closes = server.closes := by
  intro subops
  induction subops with
  | nil =>
    intro _ fuel fs server bytesRead hp he hf
    obtain ⟨f, rfl⟩ : ∃ f, fuel = f + 1 := ⟨fuel - 1, by omega⟩
    simp only [List.map_nil, List.flatten_nil] at hp
    refine ⟨{ server with recvs := server.recvs + 1 }, ?_, hp, rfl, rfl, rfl⟩
    rw [fileOperationLoop]
    simp [Stream.Recv, hp, he]
  | cons o os ih =>
    intro hwf fuel fs server bytesRead hp he hf
    obtain ⟨f, rfl⟩ : ∃ f, fuel = f + 1 := ⟨fuel - 1, by omega⟩
    have hwf1 : ∀ x ∈ os, x.WF := fun x hx => hwf x (List.mem_cons_of_mem _ hx)
    simp only [List.map_cons, List.flatten_cons] at hp
    rw [hp, msgsSize_append] at hf
    cases o with
    | delete req =>
      simp only [SubOp.msgs, List.singleton_append] at hp
      have hf1 : msgsSize (os.map SubOp.msgs).flatten + 1 ≤ f := by
        simp only [SubOp.msgs, msgsSize] at hf
        omega
      obtain ⟨s1, h1, h2, h3, h4, h5⟩ := ih hwf1 f (deleteFiles fs req)
        { server with pending := (os.map SubOp.msgs).flatten, recvs := server.recvs + 1 }
        bytesRead rfl he hf1
      refine ⟨s1, ?_, h2, h3, h4, h5⟩
      rw [fileOperationLoop]
      simp only [Stream.Recv, hp, wrapDelete]
      rw [h1]
      simp [SubOp.apply, SubOp.payload]
    | put first conts last =>
      have hwfo := hwf (SubOp.put first conts last) (List.mem_cons_self _ _)
      have hsz : msgsSize (SubOp.put first conts last).msgs =
          first.Data.length + (conts.map (fun c => c.Data)).flatten.length
            + conts.length + last.Data.length + 2 := by
        simp only [SubOp.msgs, msgsSize, msgsSize_append, msgsSize_conts, wrapPut]
        omega
      rw [hsz] at hf
      have hp1 : server.pending = wrapPut first ::
          (conts.map wrapPut ++ wrapPut last :: (os.map SubOp.msgs).flatten) := by
        rw [hp]; simp [SubOp.msgs]
      have hst : TarStreaming (os.map SubOp.msgs).flatten
          (first.Data ++ (conts.map (fun c => c.Data)).flatten)
          { server :=
              { server with
                pending := conts.map wrapPut ++ wrapPut last :: (os.map SubOp.msgs).flatten,
                recvs := server.recvs + 1 },
            r := first.Data } :=
        ⟨conts, last, hwfo.1, hwfo.2, rfl, rfl⟩
      obtain ⟨ptr1, hr1, hr2, hr3, hr4⟩ := readTar_streaming d.readSize hs
        (os.map SubOp.msgs).flatten f 0 _ [] _ hst
        (by simp only [List.length_append]; omega)
      obtain ⟨s1, h1, h2, h3, h4, h5⟩ := ih hwf1 f
        { ops := fs.ops ++ [FsOp.put first.Tag
            (first.Data ++ (conts.map (fun c => c.Data)).flatten)] }
        ptr1.server (bytesRead + (first.Data ++ (conts.map (fun c => c.Data)).flatten).length)
        hr2 (hr4.1.trans he) (by rw [hr2]; omega)
      refine ⟨s1, ?_, h2, h3.trans hr4.2.1, h4.trans hr4.2.2.1, h5.trans hr4.2.2.2⟩
      rw [fileOperationLoop]
      simp only [Stream.Recv, hp1, wrapPut, putTar, FileSet.Put]
      simp only [wrapPut] at hr1
      rw [hr1]
      simp only [List.nil_append, hr3, Nat.zero_add]
      rw [h1]
      simp [SubOp.apply, SubOp.payload, Nat.add_assoc]

end pfsserver

namespace pfsserver

/-- With the flag on, on an initial request followed by complete sub-operations whose
continuation messages all carry data, `FileOperationV2` applies every put with exactly
its payload, consumes the whole stream, and returns the total length of the payloads. -/
theorem FileOperationV2_subops (a : apiServer) (hflag : a.NewStorageLayer = true)
    (hs : ∀ k, 1 ≤ a.driver.readSize k) (hrel : a.driver.withFileSetErr = none)
    (request : pfs.FileOperationRequestV2) (subops : List SubOp)
    (hwf : ∀ o ∈ subops, o.WF) (fuel : Nat) (server : FileOperationV2Server)
    (hp : server.pending = request :: (subops.map SubOp.msgs).flatten)
    (he : server.recvErr = GoError.EOF) (hf : msgsSize server.pending + 1 ≤ fuel) :
    ∃ s, a.FileOperationV2 fuel server =
        Run.ret (((subops.map (fun o => o.payload.length)).sum, server.closeErr), s,
          [{ repo := request.Commit.Repo, commit := request.Commit.ID,
             fs := subops.foldl SubOp.apply {} }]) ∧
      s.pending = [] := by
  have hf1 : msgsSize (subops.map SubOp.msgs).flatten + 1 ≤ fuel := by
    rw [hp] at hf
    simp only [msgsSize] at hf
    omega
  obtain ⟨s1, h1, h2, h3, -, -⟩ := fileOperationLoop_subops a.driver hs subops hwf fuel {}
    { server with pending := (subops.map SubOp.msgs).flatten, recvs := server.recvs + 1 }
    0 rfl he hf1
  refine ⟨{ s1 with closes := s1.closes + 1 }, ?_, h2⟩
  unfold apiServer.FileOperationV2
  simp only [Stream.Recv, hp, hflag, Bool.not_true, Bool.false_eq_true, if_false, h1, hrel,
    Stream.SendAndClose, h3, Nat.zero_add]

/-- C12, at the failing input. A put of the bytes 1, 2 under the tag `t`, sent as the
initial message `[1]`, an empty continuation message, the continuation message `[2]` and
the EOF-flagged message: on the empty message `putTarReader.Read` returns `io.EOF`, so
the file set gets `[1]` only under `t`, and the two messages left on the stream are
taken for a second put, of `[2]` under the empty tag. Without the empty message the
file set gets the one put of `[1, 2]` under `t`. -/
theorem FileOperationV2_empty_continuation :
    exEnabled.FileOperationV2 10 { pending := exEmptyCont } =
      Run.ret ((2, none), { pending := [], recvs := 6, closes := 1 },
        [{ repo := "", commit := "",
           fs := { ops := [FsOp.put "t" [1], FsOp.put "" [2]] } }]) ∧
    exEnabled.FileOperationV2 10
        { pending := [{}, wrapPut { Tag := "t", Data := [1] }, wrapPut { Data := [2] },
            wrapPut { EOF := true }] } =
      Run.ret ((2, none), { pending := [], recvs := 5, closes := 1 },
        [{ repo := "", commit := "", fs := { ops := [FsOp.put "t" [1, 2]] } }]) := by
  constructor <;> decide

end pfsserver

namespace pfsserver

/-- The sub-operations of the example: a put of `[1, 2, 3]` under `t`, a delete, and a
put of `[4]` under `u` whose initial message is empty. -/
theorem FileOperationV2_subops_example :
    ∃ s, exEnabled.FileOperationV2 20
        { pending := {} :: (exSubOps.map SubOp.msgs).flatten } =
      Run.ret ((4, none), s,
        [{ repo := "", commit := "",
           fs := { ops := [FsOp.put "t" [1, 2, 3], FsOp.delete "f" "t",
             FsOp.put "u" [4]] } }]) ∧
      s.pending = [] := by
  have hwf : ∀ o ∈ exSubOps, o.WF := by
    intro o ho
    simp only [exSubOps, List.mem_cons, List.mem_singleton, List.not_mem_nil,
      or_false] at ho
    rcases ho with rfl | rfl | rfl <;> simp [SubOp.WF]
  exact FileOperationV2_subops exEnabled rfl (fun _ => Nat.le_of_ble_eq_true rfl) rfl {}
    exSubOps hwf 20 { pending := {} :: (exSubOps.map SubOp.msgs).flatten } rfl rfl
    (by decide)

end pfsserver
